import Mathlib

/-!
# ImageCompressor: the bit-packing layer (`src/bitpack.c`)

A shallow embedding of `bitpack.c`.  C values are modelled as follows.

* `uint64_t` is a `Nat` below `2 ^ 64`; every operation that can leave that
  range in C is reduced `% 2 ^ 64` here.
* `int64_t` is an `Int` in `[-2 ^ 63, 2 ^ 63)`; conversions and left shifts wrap
  through `to_s64`.
* `unsigned` (the type of `width` and `lsb`) is a `Nat` below `2 ^ 32`; the sums
  and differences the source computes on it are reduced `% 2 ^ 32`
  (`uadd`, `usub`).
* `assert(e)` with `e` false and `RAISE(Bitpack_Overflow)` end the call with an
  exception; the functions that contain them return `Except Error _`.
-/

namespace Compress40

deriving instance DecidableEq for Except

/-- The two ways a call into `bitpack.c` ends without a value: a failed
`assert` (a checked runtime error) and `RAISE(Bitpack_Overflow)`. -/
inductive Error where
  | Assert_Failed
  | Bitpack_Overflow
  deriving DecidableEq, Repr

/-- `const unsigned MAX_WIDTH = 64;` -/
def MAX_WIDTH : Nat := 64

/-- Sum of two C `unsigned` values (32 bits, wraps). -/
def uadd (a b : Nat) : Nat := (a + b) % 2 ^ 32

/-- Difference of two C `unsigned` values (32 bits, wraps). -/
def usub (a b : Nat) : Nat := (a + 2 ^ 32 - b % 2 ^ 32) % 2 ^ 32

/-- Conversion of an integer to `uint64_t`. -/
def to_u64 (n : Int) : Nat := (n % 2 ^ 64).toNat

/-- Conversion of an integer to `int64_t` (two's complement wrap). -/
def to_s64 (n : Int) : Int := (n + 2 ^ 63) % 2 ^ 64 - 2 ^ 63

/-- Bitwise complement `~n` of a `uint64_t`. -/
def not_u64 (n : Nat) : Nat := 2 ^ 64 - 1 - n % 2 ^ 64

/-- `static bool in_range(unsigned width)`: `width <= MAX_WIDTH`. -/
def in_range (width : Nat) : Bool := decide (width ≤ MAX_WIDTH)

/-- `shift_leftu`: `width < MAX_WIDTH ? n << width : 0` on `uint64_t`. -/
def shift_leftu (n width : Nat) : Nat :=
  if width < MAX_WIDTH then (n <<< width) % 2 ^ 64 else 0

/-- `shift_rightu`: `width < MAX_WIDTH ? n >> width : 0` on `uint64_t`. -/
def shift_rightu (n width : Nat) : Nat :=
  if width < MAX_WIDTH then n >>> width else 0

/-- `shift_lefts`: `width < MAX_WIDTH ? n << width : 0` on `int64_t`; the shifted
value keeps its low 64 bits. -/
def shift_lefts (n : Int) (width : Nat) : Int :=
  if width < MAX_WIDTH then to_s64 (n * 2 ^ width) else 0

/-- `shift_rights`: `width < MAX_WIDTH ? n >> width : 0` on `int64_t`; the right
shift is arithmetic, that is, division by `2 ^ width` rounded down. -/
def shift_rights (n : Int) (width : Nat) : Int :=
  if width < MAX_WIDTH then n / 2 ^ width else 0

/-- `bool Bitpack_fitsu(uint64_t n, unsigned width)`. -/
def Bitpack_fitsu (n width : Nat) : Except Error Bool :=
  if in_range width then
    if width = MAX_WIDTH then .ok true
    else if width = 0 then .ok false
    else
      let upper := shift_leftu 1 width
      .ok (decide (n < upper))
  else .error .Assert_Failed

/-- `bool Bitpack_fitss(int64_t n, unsigned width)`. -/
def Bitpack_fitss (n : Int) (width : Nat) : Except Error Bool :=
  if in_range width then
    if width = MAX_WIDTH then .ok true
    else if width = 0 then .ok false
    else
      let lower := shift_lefts (-1) (usub width 1)
      let upper := shift_lefts 1 (usub width 1)
      .ok (decide (n ≥ lower) && decide (n < upper))
  else .error .Assert_Failed

/-- `uint64_t Bitpack_getu(uint64_t word, unsigned width, unsigned lsb)`. -/
def Bitpack_getu (word width lsb : Nat) : Except Error Nat :=
  if in_range width && in_range (uadd width lsb) then
    if width > 0 then
      let field := 0
      let mask := not_u64 field
      let shift := usub MAX_WIDTH width
      let offset := lsb
      let mask := shift_rightu mask shift
      let mask := shift_leftu mask offset
      let field := mask &&& word
      let field := shift_rightu field offset
      .ok field
    else .ok 0
  else .error .Assert_Failed

/-- `int64_t Bitpack_gets(uint64_t word, unsigned width, unsigned lsb)`. -/
def Bitpack_gets (word width lsb : Nat) : Except Error Int :=
  if in_range width && in_range (uadd width lsb) then
    if width > 0 then
      let shift := usub MAX_WIDTH width
      match Bitpack_getu word width lsb with
      | .error e => .error e
      | .ok f =>
        let field := to_s64 (f : Int)
        let field := shift_lefts field shift
        let field := shift_rights field shift
        .ok field
    else .ok 0
  else .error .Assert_Failed

/-- `uint64_t Bitpack_newu(uint64_t word, unsigned width, unsigned lsb,
uint64_t v)`.  The source's `mask = ~0` is the all-ones word. -/
def Bitpack_newu (word width lsb v : Nat) : Except Error Nat :=
  if in_range width && in_range (uadd width lsb) then
    match Bitpack_fitsu v width with
    | .error e => .error e
    | .ok false => .error .Bitpack_Overflow
    | .ok true =>
      let mask := not_u64 0
      let low := shift_rightu mask (usub MAX_WIDTH lsb)
      let high := shift_leftu mask (uadd width lsb)
      let field := low ||| high
      let updated := (word &&& field) ||| shift_leftu v lsb
      .ok updated
  else .error .Assert_Failed

/-- `uint64_t Bitpack_news(uint64_t word, unsigned width, unsigned lsb,
int64_t v)`; `v` is converted to `uint64_t` where it is passed to
`Bitpack_getu`. -/
def Bitpack_news (word width lsb : Nat) (v : Int) : Except Error Nat :=
  if in_range width && in_range (uadd width lsb) then
    match Bitpack_fitss v width with
    | .error e => .error e
    | .ok false => .error .Bitpack_Overflow
    | .ok true =>
      match Bitpack_getu (to_u64 v) width 0 with
      | .error e => .error e
      | .ok field => Bitpack_newu word width lsb field
  else .error .Assert_Failed


/-! ## Packing and unpacking codewords (`src/transform.c`) -/

/-- `const unsigned A_WIDTH = 9` (with `BCD_WIDTH`, `PBR_WIDTH` below). -/
def A_WIDTH : Nat := 9

/-- `BCD_WIDTH = 5`: the width of the fields `b`, `c`, `d`. -/
def BCD_WIDTH : Nat := 5

/-- `PBR_WIDTH = 4`: the width of the two chroma indices. -/
def PBR_WIDTH : Nat := 4

/-- `const unsigned A_LSB = 23` (with `B_LSB`, `C_LSB`, `D_LSB` below). -/
def A_LSB : Nat := 23

/-- `B_LSB = 18`. -/
def B_LSB : Nat := 18

/-- `C_LSB = 13`. -/
def C_LSB : Nat := 13

/-- `D_LSB = 8`. -/
def D_LSB : Nat := 8

/-- `const unsigned PB_LSB = 4` (with `PR_LSB` below). -/
def PB_LSB : Nat := 4

/-- `PR_LSB = 0`. -/
def PR_LSB : Nat := 0

/-- `struct Word_component { uint64_t pb, pr, a; int64_t b, c, d; }`: the
quantized fields of one block. -/
structure Word_component where
  pb : Nat
  pr : Nat
  a : Nat
  b : Int
  c : Int
  d : Int
  deriving DecidableEq, Repr

/-- The body of `apply_dct2word` on the cell `component`: six stores into a
zero word; the returned word is what the function writes to `*word_p`. -/
def apply_dct2word (component : Word_component) : Except Error Nat := do
  let word := 0
  let word ← Bitpack_newu word A_WIDTH A_LSB component.a
  let word ← Bitpack_news word BCD_WIDTH B_LSB component.b
  let word ← Bitpack_news word BCD_WIDTH C_LSB component.c
  let word ← Bitpack_news word BCD_WIDTH D_LSB component.d
  let word ← Bitpack_newu word PBR_WIDTH PB_LSB component.pb
  let word ← Bitpack_newu word PBR_WIDTH PR_LSB component.pr
  pure word

/-- The body of `apply_word2dct` on the cell `word`: six reads, written to the
fields of `*codeword`. -/
def apply_word2dct (word : Nat) : Except Error Word_component := do
  let a ← Bitpack_getu word A_WIDTH A_LSB
  let b ← Bitpack_gets word BCD_WIDTH B_LSB
  let c ← Bitpack_gets word BCD_WIDTH C_LSB
  let d ← Bitpack_gets word BCD_WIDTH D_LSB
  let pb ← Bitpack_getu word PBR_WIDTH PB_LSB
  let pr ← Bitpack_getu word PBR_WIDTH PR_LSB
  pure { a := a, b := b, c := c, d := d, pb := pb, pr := pr }

/-! ## The 2D array

`src/` holds only the header `uarray2.h` of the array and none of the
`A2Methods` code, so the array is modelled here. -/

/-- Modelled from the spec: the bounded 2D array behind `A2Methods_UArray2`
(its implementation is not in `src/`): `width * height` cells addressed by
`(col, row)`, held in row-major storage order. -/
structure UArray2 (β : Type) where
  width : Nat
  height : Nat
  elems : List β
  deriving DecidableEq, Repr

/-- Modelled from the spec: `methods->at(image, col, row)`, the cell at
`(col, row)`; an index outside `[0, width) x [0, height)` is a checked runtime
error (`uarray2.h`). -/
def UArray2_at {β : Type} (image : UArray2 β) (col row : Nat) : Except Error β :=
  if col < image.width ∧ row < image.height then
    match image.elems.get? (row * image.width + col) with
    | some cell => .ok cell
    | none => .error .Assert_Failed
  else .error .Assert_Failed

/-! ## Numeric formulas (`src/formulas.c`, `src/transform.c`)

`float` values are read as exact numbers of an ordered field `α` with a floor
function (the rationals, the reals); no rounding error is modelled. -/

/-- The conversion `(signed) x` of a `float` whose value is the integer `n`:
`n` when a 32-bit `int` holds it.  For every other value the C standard leaves
the conversion undefined; the model returns what the conversion instruction of
x86-64 returns there, `INT_MIN`. -/
def to_signed (n : Int) : Int :=
  if -2 ^ 31 ≤ n ∧ n < 2 ^ 31 then n else -2 ^ 31

/-- A value of the C type `float` as the comparisons see it: a NaN, or a
number, an element of the ordered type `α` (which may have infinite
elements). -/
inductive C_float (α : Type) where
  | nan
  | num (x : α)

/-- The C comparison `a < b` on `float`: false when an operand is a NaN. -/
def C_float.lt {α : Type} [LT α] : C_float α → C_float α → Prop
  | .num x, .num y => x < y
  | _, _ => False

/-- The C comparison `a <= b` on `float`: false when an operand is a NaN. -/
def C_float.le {α : Type} [LE α] : C_float α → C_float α → Prop
  | .num x, .num y => x ≤ y
  | _, _ => False

instance C_float.instLT {α : Type} [LT α] : LT (C_float α) := ⟨C_float.lt⟩

instance C_float.instLE {α : Type} [LE α] : LE (C_float α) := ⟨C_float.le⟩

instance C_float.decidableLT {α : Type} [LT α] [DecidableRel (fun a b : α => a < b)] :
    DecidableRel (fun a b : C_float α => a < b)
  | .num x, .num y => (inferInstance : Decidable (x < y))
  | .nan, .nan => isFalse (fun h => h)
  | .nan, .num _ => isFalse (fun h => h)
  | .num _, .nan => isFalse (fun h => h)

section Formulas

variable {α : Type} [LinearOrderedField α] [FloorRing α]

/-- The C library `roundf`, on exact numbers: the nearest integer, halfway cases
rounded away from zero. -/
def roundf (x : α) : Int :=
  if 0 ≤ x then ⌊x + 1 / 2⌋ else ⌈x - 1 / 2⌉

/-- `const float MIN_A = 0.0` (with `MAX_A` below). -/
def MIN_A : α := 0

/-- `MAX_A = 1.0`. -/
def MAX_A : α := 1

/-- `const float MIN_BCD = -0.5` (with `MAX_BCD` below). -/
def MIN_BCD : α := -(1 / 2)

/-- `MAX_BCD = 0.5`. -/
def MAX_BCD : α := 1 / 2

/-- `const float A_RANGE = 511.0` (with `BCD_DENOM`, `BCD_RANGE` below). -/
def A_RANGE : α := 511

/-- `BCD_DENOM = 0.3`. -/
def BCD_DENOM : α := 3 / 10

/-- `BCD_RANGE = 15.0`. -/
def BCD_RANGE : α := 15

/-- `static const int BLOCKSIZE = 2;` (`transform.h`). -/
def BLOCKSIZE : Nat := 2

/-- `float Formulas_set_range(float pixel, float lower, float upper)`.  The
function only compares its arguments, so it is defined over every type with a
decidable `<`: the exact numbers of `α`, and the values of `C_float`. -/
def Formulas_set_range {β : Type} [LT β] [DecidableRel (fun a b : β => a < b)]
    (pixel lower upper : β) : β :=
  if pixel < lower then lower
  else if pixel > upper then upper
  else pixel

/-- `float Formulas_average(float *input, float length)`: the loop adds the
first `length` elements to `sum`, the result is `sum / length`. -/
def Formulas_average (input : List α) (length : Nat) : α :=
  let sum := (input.take length).foldl (fun sum x => sum + x) 0
  sum / (length : α)

/-- `signed Formulas_quantize(float pixel, float denominator, float upper)`:
`float scaled = roundf((pixel / denominator) * upper); return (signed) scaled;`. -/
def Formulas_quantize (pixel denominator upper : α) : Int :=
  let scaled := roundf ((pixel / denominator) * upper)
  to_signed scaled

/-- `float Formulas_calculate_a(float y_1, float y_2, float y_3, float y_4)`. -/
def Formulas_calculate_a (y_1 y_2 y_3 y_4 : α) : α :=
  let input := [y_1, y_2, y_3, y_4]
  let a := Formulas_average input 4
  Formulas_set_range a MIN_A MAX_A

/-- `float Formulas_calculate_b(float y_1, float y_2, float y_3, float y_4)`. -/
def Formulas_calculate_b (y_1 y_2 y_3 y_4 : α) : α :=
  let b := (y_4 + y_3 - y_2 - y_1) / 4
  Formulas_set_range b MIN_BCD MAX_BCD

/-- `float Formulas_calculate_c(float y_1, float y_2, float y_3, float y_4)`. -/
def Formulas_calculate_c (y_1 y_2 y_3 y_4 : α) : α :=
  let c := (y_4 - y_3 + y_2 - y_1) / 4
  Formulas_set_range c MIN_BCD MAX_BCD

/-- `float Formulas_calculate_d(float y_1, float y_2, float y_3, float y_4)`. -/
def Formulas_calculate_d (y_1 y_2 y_3 y_4 : α) : α :=
  let d := (y_4 - y_3 - y_2 + y_1) / 4
  Formulas_set_range d MIN_BCD MAX_BCD

/-- `struct CVideo { float y, pb, pr; }`. -/
structure CVideo (α : Type) where
  y : α
  pb : α
  pr : α

/-- `struct DCT { float pb, pr, a, b, c, d; }`. -/
structure DCT (α : Type) where
  pb : α
  pr : α
  a : α
  b : α
  c : α
  d : α

/-- `get_pixel`: the four cells of the 2 x 2 block whose first cell is
`(i, j)`, in the order `(i, j)`, `(i + 1, j)`, `(i, j + 1)`, `(i + 1, j + 1)`. -/
def get_pixel (image : UArray2 (CVideo α)) (i j : Nat) :
    Except Error (CVideo α × CVideo α × CVideo α × CVideo α) := do
  let arr0 ← UArray2_at image i j
  let arr1 ← UArray2_at image (i + 1) j
  let arr2 ← UArray2_at image i (j + 1)
  let arr3 ← UArray2_at image (i + 1) (j + 1)
  pure (arr0, arr1, arr2, arr3)

/-- The body of `apply_cv2dct` for the cell `(i, j)` of the block grid:
`closure->image` is the cv grid `image`, the returned value is what the
function writes to `*block`. -/
def apply_cv2dct (i j : Nat) (image : UArray2 (CVideo α)) : Except Error (DCT α) := do
  let col := i * BLOCKSIZE
  let row := j * BLOCKSIZE
  let pixels ← get_pixel image col row
  let pb := [pixels.1.pb, pixels.2.1.pb, pixels.2.2.1.pb, pixels.2.2.2.pb]
  let pr := [pixels.1.pr, pixels.2.1.pr, pixels.2.2.1.pr, pixels.2.2.2.pr]
  let y_1 := pixels.1.y
  let y_2 := pixels.2.1.y
  let y_3 := pixels.2.2.1.y
  let y_4 := pixels.2.2.2.y
  pure { pb := Formulas_average pb 4,
         pr := Formulas_average pr 4,
         a := Formulas_calculate_a y_1 y_2 y_3 y_4,
         b := Formulas_calculate_b y_1 y_2 y_3 y_4,
         c := Formulas_calculate_c y_1 y_2 y_3 y_4,
         d := Formulas_calculate_d y_1 y_2 y_3 y_4 }

/-- The body of `apply_quantize_dct` on the cell `block`.  The chroma quantizer
`Arith40_index_of_chroma` belongs to a library outside the repository and is
the parameter `index_of_chroma`.  The `signed` results are converted to the
`uint64_t` field `a` and to the `int64_t` fields `b`, `c`, `d`. -/
def apply_quantize_dct (index_of_chroma : α → Nat) (block : DCT α) : Word_component :=
  let b := Formulas_set_range block.b (-1 * BCD_DENOM) BCD_DENOM
  let c := Formulas_set_range block.c (-1 * BCD_DENOM) BCD_DENOM
  let d := Formulas_set_range block.d (-1 * BCD_DENOM) BCD_DENOM
  { a := to_u64 (Formulas_quantize block.a 1 A_RANGE),
    b := Formulas_quantize b BCD_DENOM BCD_RANGE,
    c := Formulas_quantize c BCD_DENOM BCD_RANGE,
    d := Formulas_quantize d BCD_DENOM BCD_RANGE,
    pb := index_of_chroma block.pb,
    pr := index_of_chroma block.pr }

end Formulas

/-! ## The compressed stream (`src/io.c`)

A stream is the list of its bytes.  The C library calls of `io.c` (`fprintf`,
`putchar`, `fscanf`, `getc`) are modelled after the C standard, for the
directives the format `HEADER` uses. -/

/-- `const unsigned BYTE_WIDTH = 8;` -/
def BYTE_WIDTH : Nat := 8

/-- `const char *HEADER = "COMP40 Compressed image format 2\n%u %u";` -/
def HEADER : String := "COMP40 Compressed image format 2\n%u %u"

/-- `const char DELIMITER = '\n';` -/
def DELIMITER : Nat := 10

/-- `static const int CODE_LENGTH = 32;` (`transform.h`). -/
def CODE_LENGTH : Int := 32

/-- The bytes of a C string literal. -/
def c_str (s : String) : List Nat := s.toList.map Char.toNat

/-- Conversion of an integer to C `int` (32 bits, two's complement). -/
def to_int (n : Int) : Int := (n + 2 ^ 31) % 2 ^ 32 - 2 ^ 31

/-- Conversion of an integer to C `unsigned` (32 bits). -/
def to_unsigned (n : Int) : Nat := (n % 2 ^ 32).toNat

/-- The C library `isspace` in the C locale: space, `\t`, `\n`, `\v`, `\f`,
`\r`. -/
def isspace (c : Nat) : Bool := c == 32 || (9 ≤ c && c ≤ 13)

/-- The C library `isdigit`. -/
def isdigit (c : Nat) : Bool := 48 ≤ c && c ≤ 57

/-- What `printf` writes for `%u`: the decimal numeral of the argument. -/
def print_unsigned (n : Nat) : List Nat := (Nat.toDigits 10 n).map Char.toNat

/-- The C library `fprintf` for a format whose only conversions are `%u`
(bytes 37, 117): the bytes written. -/
def fprintf : List Nat → List Nat → List Nat
  | [], _ => []
  | [c], _ => [c]
  | c :: d :: format, args =>
    if c = 37 ∧ d = 117 then
      match args with
      | [] => c :: fprintf (d :: format) args
      | arg :: args => print_unsigned arg ++ fprintf format args
    else c :: fprintf (d :: format) args

/-- A white-space directive of `fscanf`, and the start of a `%u` conversion:
input is read up to the first byte that is not white space. -/
def skip_space : List Nat → List Nat
  | [] => []
  | c :: input => if isspace c then skip_space input else c :: input

/-- The digits of a `%u` conversion: the longest run of decimal digits is read
and its value accumulated. -/
def scan_digits : Nat → List Nat → Nat × List Nat
  | value, [] => (value, [])
  | value, c :: input =>
    if isdigit c then scan_digits (value * 10 + (c - 48)) input else (value, c :: input)

/-- The optional sign of a `%u` conversion: `-` (45) or `+` (43). -/
def scan_sign : List Nat → Bool × List Nat
  | [] => (false, [])
  | c :: input =>
    if c = 45 then (true, input)
    else if c = 43 then (false, input)
    else (false, c :: input)

/-- A `%u` conversion of `fscanf`: white space is skipped, then an optionally
signed run of decimal digits is read; without a digit the conversion fails.
The value is stored in an `unsigned`, hence reduced modulo `2 ^ 32`. -/
def scan_unsigned (input : List Nat) : Option (Nat × List Nat) :=
  let signed := scan_sign (skip_space input)
  match signed.2 with
  | [] => none
  | c :: rest =>
    if isdigit c then
      let scanned := scan_digits 0 (c :: rest)
      some (to_unsigned (if signed.1 then -(scanned.1 : Int) else (scanned.1 : Int)),
        scanned.2)
    else none

/-- The directives of a `scanf` format: white space, an ordinary character, or
the conversion `%u`. -/
inductive Directive where
  | space
  | lit (c : Nat)
  | conv_u
  deriving DecidableEq, Repr

/-- The directives a format string consists of; `%u` is the bytes 37, 117. -/
def parse_format : List Nat → List Directive
  | [] => []
  | [c] => [if isspace c then Directive.space else Directive.lit c]
  | c :: d :: format =>
    if c = 37 ∧ d = 117 then Directive.conv_u :: parse_format format
    else (if isspace c then Directive.space else Directive.lit c) :: parse_format (d :: format)

/-- The directives of a format executed in turn on the input: the values
assigned so far and the rest of the stream.  A white-space directive reads any
run of white space, an ordinary character must be the next byte, and the first
directive that fails ends the call. -/
def run_format : List Directive → List Nat → List Nat × List Nat
  | [], input => ([], input)
  | Directive.space :: ds, input => run_format ds (skip_space input)
  | Directive.lit c :: ds, input =>
    match input with
    | [] => ([], input)
    | d :: rest => if d = c then run_format ds rest else ([], input)
  | Directive.conv_u :: ds, input =>
    match scan_unsigned input with
    | none => ([], input)
    | some (value, rest) =>
      let r := run_format ds rest
      (value :: r.1, r.2)

/-- The C library `fscanf` for a format whose only conversions are `%u`: the
assigned values (their number is the value `fscanf` returns) and the rest of
the stream. -/
def fscanf (format input : List Nat) : List Nat × List Nat :=
  run_format (parse_format format) input

/-- The loop of `apply_write_binary`:
`for (int lsb = high_byte; lsb >= 0; lsb = lsb - BYTE_WIDTH)`, each round
writing the byte `Bitpack_getu(word, BYTE_WIDTH, lsb)`; the bytes written. -/
def write_loop (word : Nat) (lsb : Int) : Except Error (List Nat) :=
  if lsb ≥ 0 then
    match Bitpack_getu word BYTE_WIDTH (to_unsigned lsb) with
    | .error e => .error e
    | .ok field =>
      match write_loop word (to_int (lsb - BYTE_WIDTH)) with
      | .error e => .error e
      | .ok out => .ok (field % 2 ^ 8 :: out)
  else .ok []
termination_by (lsb + 8).toNat
decreasing_by
  simp only [to_int, BYTE_WIDTH]
  omega

/-- The body of `apply_write_binary` on a cell: the cell is read into a
`uint32_t`, and the bytes go to standard output through `putchar`. -/
def apply_write_binary (cell : Nat) (code_length : Int) : Except Error (List Nat) :=
  let high_byte := to_int (code_length - BYTE_WIDTH)
  let word := cell % 2 ^ 32
  write_loop word high_byte

/-- Modelled from the spec: `methods->small_map_default` with
`apply_write_binary` (the `A2Methods` code is not in `src/`): every cell is
visited once, in row-major order. -/
def small_map_write (code_length : Int) : List Nat → Except Error (List Nat)
  | [] => .ok []
  | cell :: cells =>
    match apply_write_binary cell code_length with
    | .error e => .error e
    | .ok bytes =>
      match small_map_write code_length cells with
      | .error e => .error e
      | .ok out => .ok (bytes ++ out)

/-- `void IO_write_binary(FILE *fp, T image, T_Interface methods, int blocksize,
int code_length)`: the bytes written to `fp` (the header, by `fprintf`) and the
bytes written to standard output (the codewords, by `putchar`), each in the
order written. -/
def IO_write_binary (image : UArray2 Nat) (blocksize code_length : Int) :
    Except Error (List Nat × List Nat) :=
  let width := to_int (image.width * blocksize)
  let height := to_int (image.height * blocksize)
  let header := fprintf (c_str HEADER) [to_unsigned width, to_unsigned height]
  let delimiter := [DELIMITER]
  match small_map_write code_length image.elems with
  | .error e => .error e
  | .ok body => .ok (header ++ delimiter, body)

/-- The stream a call of `IO_write_binary` with `fp = stdout` leaves on standard
output, as in `compress40`: the header followed by the codewords. -/
def stdout_of (written : List Nat × List Nat) : List Nat := written.1 ++ written.2

/-- The loop of `apply_read_binary`:
`for (int lsb = high_byte; lsb >= 0; lsb = lsb - BYTE_WIDTH)`, each round
reading a byte with `getc`, asserting that it is not `EOF`, and storing it with
`Bitpack_newu`; the word built and the rest of the stream. -/
def read_loop : List Nat → Nat → Int → Except Error (Nat × List Nat)
  | [], word, lsb => if lsb ≥ 0 then .error .Assert_Failed else .ok (word, [])
  | byte :: fp, word, lsb =>
    if lsb ≥ 0 then
      match Bitpack_newu word BYTE_WIDTH (to_unsigned lsb) byte with
      | .error e => .error e
      | .ok word => read_loop fp word (to_int (lsb - BYTE_WIDTH))
    else .ok (word, byte :: fp)

/-- The body of `apply_read_binary`: the word written to the cell and the rest
of the stream. -/
def apply_read_binary (code_length : Int) (fp : List Nat) : Except Error (Nat × List Nat) :=
  let high_byte := to_int (code_length - BYTE_WIDTH)
  let word := 0
  read_loop fp word high_byte

/-- Modelled from the spec: `methods->small_map_default` with
`apply_read_binary` on the new array of `cells` cells (the `A2Methods` code is
not in `src/`): every cell is visited once, in row-major order. -/
def small_map_read (code_length : Int) : Nat → List Nat → Except Error (List Nat × List Nat)
  | 0, fp => .ok ([], fp)
  | cells + 1, fp =>
    match apply_read_binary code_length fp with
    | .error e => .error e
    | .ok (word, fp) =>
      match small_map_read code_length cells fp with
      | .error e => .error e
      | .ok (words, fp) => .ok (word :: words, fp)

/-- `T IO_read_binary(FILE *fp, T_Interface methods, int blocksize,
int code_length)` on the stream `fp`: `fscanf` must assign two values
(`assert(read == 2)`), the next byte must be `DELIMITER`, and the cells of a new
`width / blocksize` by `height / blocksize` array are read. -/
def IO_read_binary (fp : List Nat) (blocksize code_length : Int) :
    Except Error (UArray2 Nat) :=
  let scanned := fscanf (c_str HEADER) fp
  match scanned.1 with
  | [width, height] =>
    match scanned.2 with
    | [] => .error .Assert_Failed
    | c :: fp =>
      if c = DELIMITER then
        let width := width / to_unsigned blocksize
        let height := height / to_unsigned blocksize
        match small_map_read code_length (width * height) fp with
        | .error e => .error e
        | .ok r => .ok { width := width, height := height, elems := r.1 }
      else .error .Assert_Failed
  | _ => .error .Assert_Failed

/-! ## Traversal of the 2D array -/

/-- Modelled from the spec: a write through the pointer `methods->at` returned
for the cell `(col, row)` (the `A2Methods` code is not in `src/`). -/
def UArray2_set {β : Type} (image : UArray2 β) (col row : Nat) (cell : β) : UArray2 β :=
  { width := image.width, height := image.height,
    elems := image.elems.set (row * image.width + col) cell }

/-- The results of `f 0`, `f 1`, ..., `f (n - 1)`, computed in this order; the
first failure ends the traversal. -/
def map_range {β : Type} (f : Nat → Except Error β) : Nat → Except Error (List β)
  | 0 => .ok []
  | n + 1 =>
    match map_range f n with
    | .error e => .error e
    | .ok cells =>
      match f n with
      | .error e => .error e
      | .ok cell => .ok (cells ++ [cell])

/-- Modelled from the spec: `methods->new(width, height, size)` followed by
`methods->map_default(new, apply, cl)` for an apply function that writes the
cell it is handed (the `A2Methods` code is not in `src/`): every cell
`(col, row)` of the new array is visited once, in row-major order, and holds
what `apply col row` wrote. -/
def map_default {β : Type} (width height : Nat) (apply : Nat → Nat → Except Error β) :
    Except Error (UArray2 β) :=
  match map_range (fun k => apply (k % width) (k / width)) (width * height) with
  | .error e => .error e
  | .ok elems => .ok { width := width, height := height, elems := elems }

/-- Modelled from the spec: `methods->map_default(image, apply, cl)` for an
apply function that writes to the array of its closure (the `A2Methods` code is
not in `src/`): the cells of `image` are visited once each in row-major order,
`k` counting the cells visited, and `state` is the array of the closure. -/
def map_update {β σ : Type} (width : Nat) (apply : Nat → Nat → β → σ → Except Error σ) :
    List β → Nat → σ → Except Error σ
  | [], _, state => .ok state
  | cell :: cells, k, state =>
    match apply (k % width) (k / width) cell state with
    | .error e => .error e
    | .ok state => map_update width apply cells (k + 1) state

/-! ## Pixel formulas and the stages of the pipeline

The stages of `src/transform.c` and the two entry points of `src/compress40.c`.
Pointers are never null in this model, so the assertions of `check_interface`
and `check_map_param` have no counterpart; every other assertion reached (the
bounds of `methods->at`, the fields of `Bitpack`) is a possible `Error`. -/

/-- `struct Pnm_rgb { unsigned red, green, blue; }` of the `pnm.h` library. -/
structure Pnm_rgb where
  red : Nat
  green : Nat
  blue : Nat
  deriving DecidableEq, Repr

/-- `struct Pnm_ppm` of the `pnm.h` library, without its `methods` field. -/
structure Pnm_ppm where
  width : Nat
  height : Nat
  denominator : Nat
  pixels : UArray2 Pnm_rgb
  deriving DecidableEq, Repr

/-- `struct Normalized_rgb { float red, green, blue; }`. -/
structure Normalized_rgb (α : Type) where
  red : α
  green : α
  blue : α

/-- `unsigned Formulas_get_even(unsigned dimension)`. -/
def Formulas_get_even (dimension : Nat) : Nat :=
  if dimension % 2 = 0 then dimension else usub dimension 1

/-- The body of `apply_trim` for the cell `(i, j)`: the pixel of the input at
`(i, j)`. -/
def apply_trim (i j : Nat) (input : Pnm_ppm) : Except Error Pnm_rgb :=
  UArray2_at input.pixels i j

/-- `Pnm_ppm IO_read_plain_image(FILE *fp, T_Interface methods)`; `image` is
what `Pnm_ppmread(fp, methods)` returns. -/
def IO_read_plain_image (image : Pnm_ppm) : Except Error Pnm_ppm :=
  let width := Formulas_get_even image.width
  let height := Formulas_get_even image.height
  if width ≤ image.width ∧ height ≤ image.height then
    if width < image.width ∨ height < image.height then
      match map_default width height (fun i j => apply_trim i j image) with
      | .error e => .error e
      | .ok new =>
        .ok { width := width, height := height, denominator := image.denominator,
              pixels := new }
    else .ok image
  else .error .Assert_Failed

section Pipeline

variable {α : Type} [LinearOrderedField α] [FloorRing α]

/-- `const float MIN_Y = 0.0` (with `MAX_Y` below). -/
def MIN_Y : α := 0

/-- `MAX_Y = 1.0`. -/
def MAX_Y : α := 1

/-- `const float MIN_PBR = -0.5` (with `MAX_PBR` below). -/
def MIN_PBR : α := -(1 / 2)

/-- `MAX_PBR = 0.5`. -/
def MAX_PBR : α := 1 / 2

/-- `float Formulas_normalize(unsigned pixel, unsigned denominator)`. -/
def Formulas_normalize (pixel denominator : Nat) : α :=
  let normed := (pixel : α) / (denominator : α)
  Formulas_set_range normed 0 1

/-- `float Formulas_inverse_quantize(float pixel, float denominator,
float upper)`. -/
def Formulas_inverse_quantize (pixel denominator upper : α) : α :=
  let inversed := (pixel / upper) * denominator
  inversed

/-- `float Formulas_calculate_y(float r, float g, float b)`. -/
def Formulas_calculate_y (r g b : α) : α :=
  let y := (299 / 1000 * r) + (587 / 1000 * g) + (114 / 1000 * b)
  Formulas_set_range y MIN_Y MAX_Y

/-- `float Formulas_calculate_pb(float r, float g, float b)`. -/
def Formulas_calculate_pb (r g b : α) : α :=
  let pb := (-(168736 / 1000000) * r) - (331264 / 1000000 * g) + (1 / 2 * b)
  Formulas_set_range pb MIN_PBR MAX_PBR

/-- `float Formulas_calculate_pr(float r, float g, float b)`. -/
def Formulas_calculate_pr (r g b : α) : α :=
  let pr := (1 / 2 * r) - (418688 / 1000000 * g) - (81312 / 1000000 * b)
  Formulas_set_range pr MIN_PBR MAX_PBR

/-- `float Formulas_calculate_inverse_r(float y, float pb, float pr)`. -/
def Formulas_calculate_inverse_r (y pb pr : α) : α :=
  (1 * y) + (0 * pb) + (1402 / 1000 * pr)

/-- `float Formulas_calculate_inverse_g(float y, float pb, float pr)`. -/
def Formulas_calculate_inverse_g (y pb pr : α) : α :=
  (1 * y) - (344136 / 1000000 * pb) - (714136 / 1000000 * pr)

/-- `float Formulas_calculate_inverse_b(float y, float pb, float pr)`. -/
def Formulas_calculate_inverse_b (y pb pr : α) : α :=
  (1 * y) + (1772 / 1000 * pb) + (0 * pr)

/-- `float Formulas_calculate_y1(float a, float b, float c, float d)`. -/
def Formulas_calculate_y1 (a b c d : α) : α :=
  let y1 := a - b - c + d
  Formulas_set_range y1 MIN_Y MAX_Y

/-- `float Formulas_calculate_y2(float a, float b, float c, float d)`. -/
def Formulas_calculate_y2 (a b c d : α) : α :=
  let y2 := a - b + c - d
  Formulas_set_range y2 MIN_Y MAX_Y

/-- `float Formulas_calculate_y3(float a, float b, float c, float d)`. -/
def Formulas_calculate_y3 (a b c d : α) : α :=
  let y3 := a + b - c - d
  Formulas_set_range y3 MIN_Y MAX_Y

/-- `float Formulas_calculate_y4(float a, float b, float c, float d)`. -/
def Formulas_calculate_y4 (a b c d : α) : α :=
  let y4 := a + b + c + d
  Formulas_set_range y4 MIN_Y MAX_Y

/-- The body of `apply_normalization` for the cell `(i, j)`. -/
def apply_normalization (i j : Nat) (image : UArray2 Pnm_rgb) (denominator : Nat) :
    Except Error (Normalized_rgb α) := do
  let input ← UArray2_at image i j
  pure { red := Formulas_normalize input.red denominator,
         green := Formulas_normalize input.green denominator,
         blue := Formulas_normalize input.blue denominator }

/-- `T Transform_normalize(T image, T_Interface methods, unsigned denom)`. -/
def Transform_normalize (image : UArray2 Pnm_rgb) (denom : Nat) :
    Except Error (UArray2 (Normalized_rgb α)) :=
  let width := image.width
  let height := image.height
  map_default width height (fun i j => apply_normalization i j image denom)

/-- The body of `apply_rgb2cv` for the cell `(i, j)`. -/
def apply_rgb2cv (i j : Nat) (image : UArray2 (Normalized_rgb α)) :
    Except Error (CVideo α) := do
  let rgb ← UArray2_at image i j
  let r := rgb.red
  let g := rgb.green
  let b := rgb.blue
  pure { y := Formulas_calculate_y r g b,
         pb := Formulas_calculate_pb r g b,
         pr := Formulas_calculate_pr r g b }

/-- `T Transform_rgb_to_cv(T image, T_Interface methods)`. -/
def Transform_rgb_to_cv (image : UArray2 (Normalized_rgb α)) :
    Except Error (UArray2 (CVideo α)) :=
  let width := image.width
  let height := image.height
  map_default width height (fun i j => apply_rgb2cv i j image)

/-- `T Transform_cv_to_dct(T image, T_Interface methods)`. -/
def Transform_cv_to_dct (image : UArray2 (CVideo α)) : Except Error (UArray2 (DCT α)) :=
  let width := image.width / BLOCKSIZE
  let height := image.height / BLOCKSIZE
  map_default width height (fun i j => apply_cv2dct i j image)

/-- `T Transform_quantize_dct(T image, T_Interface methods)`: the cell `(i, j)`
of the input is read with `methods->at` and quantized by
`apply_quantize_dct`. -/
def Transform_quantize_dct (index_of_chroma : α → Nat) (image : UArray2 (DCT α)) :
    Except Error (UArray2 Word_component) :=
  let width := image.width
  let height := image.height
  map_default width height (fun i j => do
    let block ← UArray2_at image i j
    pure (apply_quantize_dct index_of_chroma block))

/-- `T Transform_dct_to_word(T image, T_Interface methods)`: the cell `(i, j)`
of the input is read with `methods->at` and packed by `apply_dct2word`. -/
def Transform_dct_to_word (image : UArray2 Word_component) : Except Error (UArray2 Nat) :=
  let width := image.width
  let height := image.height
  map_default width height (fun i j => do
    let component ← UArray2_at image i j
    apply_dct2word component)

/-- `T Transform_word_to_dct(T image, T_Interface methods)`: the cell `(i, j)`
of the input is read with `methods->at` and unpacked by `apply_word2dct`. -/
def Transform_word_to_dct (image : UArray2 Nat) : Except Error (UArray2 Word_component) :=
  let width := image.width
  let height := image.height
  map_default width height (fun i j => do
    let word ← UArray2_at image i j
    apply_word2dct word)

/-- The body of `apply_unquantize_dct` on the cell `word`.  The chroma table
`Arith40_chroma_of_index` belongs to a library outside the repository and is
the parameter `chroma_of_index`. -/
def apply_unquantize_dct (chroma_of_index : Nat → α) (word : Word_component) : DCT α :=
  { a := Formulas_inverse_quantize (word.a : α) 1 A_RANGE,
    b := Formulas_inverse_quantize (word.b : α) BCD_DENOM BCD_RANGE,
    c := Formulas_inverse_quantize (word.c : α) BCD_DENOM BCD_RANGE,
    d := Formulas_inverse_quantize (word.d : α) BCD_DENOM BCD_RANGE,
    pb := chroma_of_index word.pb,
    pr := chroma_of_index word.pr }

/-- `T Transform_unquantize_dct(T image, T_Interface methods)`. -/
def Transform_unquantize_dct (chroma_of_index : Nat → α) (image : UArray2 Word_component) :
    Except Error (UArray2 (DCT α)) :=
  let width := image.width
  let height := image.height
  map_default width height (fun i j => do
    let word ← UArray2_at image i j
    pure (apply_unquantize_dct chroma_of_index word))

/-- The body of `apply_dct2cv` for the block `(i, j)`: `get_pixel` takes the
four cells of the cv array of the closure, and each is overwritten with its
luma and the chroma of the block. -/
def apply_dct2cv (i j : Nat) (block : DCT α) (cv : UArray2 (CVideo α)) :
    Except Error (UArray2 (CVideo α)) := do
  let col := i * BLOCKSIZE
  let row := j * BLOCKSIZE
  let _pixels ← get_pixel cv col row
  let a := block.a
  let b := block.b
  let c := block.c
  let d := block.d
  let y0 := Formulas_calculate_y1 a b c d
  let y1 := Formulas_calculate_y2 a b c d
  let y2 := Formulas_calculate_y3 a b c d
  let y3 := Formulas_calculate_y4 a b c d
  let cv := UArray2_set cv col row { y := y0, pb := block.pb, pr := block.pr }
  let cv := UArray2_set cv (col + 1) row { y := y1, pb := block.pb, pr := block.pr }
  let cv := UArray2_set cv col (row + 1) { y := y2, pb := block.pb, pr := block.pr }
  let cv := UArray2_set cv (col + 1) (row + 1) { y := y3, pb := block.pb, pr := block.pr }
  pure cv

/-- `T Transform_dct_to_cv(T image, T_Interface methods)`: a new array of twice
the width and height is the closure of a traversal of the blocks.  What
`methods->new` leaves in the cells is modelled as zero. -/
def Transform_dct_to_cv (image : UArray2 (DCT α)) : Except Error (UArray2 (CVideo α)) :=
  let width := image.width * BLOCKSIZE
  let height := image.height * BLOCKSIZE
  let cv : UArray2 (CVideo α) :=
    { width := width, height := height,
      elems := List.replicate (width * height) { y := 0, pb := 0, pr := 0 } }
  map_update image.width apply_dct2cv image.elems 0 cv

/-- The body of `apply_cv2rgb` on the cell `cv`. -/
def apply_cv2rgb (cv : CVideo α) (denom : Nat) : Pnm_rgb :=
  let y := cv.y
  let pb := cv.pb
  let pr := cv.pr
  let r := Formulas_calculate_inverse_r y pb pr
  let g := Formulas_calculate_inverse_g y pb pr
  let b := Formulas_calculate_inverse_b y pb pr
  let r := Formulas_set_range r 0 1
  let g := Formulas_set_range g 0 1
  let b := Formulas_set_range b 0 1
  { red := to_unsigned (Formulas_quantize r 1 (denom : α)),
    green := to_unsigned (Formulas_quantize g 1 (denom : α)),
    blue := to_unsigned (Formulas_quantize b 1 (denom : α)) }

/-- `T Transform_cv_to_rgb(T image, T_Interface methods, unsigned denom)`. -/
def Transform_cv_to_rgb (image : UArray2 (CVideo α)) (denom : Nat) :
    Except Error (UArray2 Pnm_rgb) :=
  let width := image.width
  let height := image.height
  map_default width height (fun i j => do
    let cv ← UArray2_at image i j
    pure (apply_cv2rgb cv denom))

/-- `const unsigned DENOMINATOR = 255;` (`compress40.c`). -/
def DENOMINATOR : Nat := 255

/-- `void compress40(FILE *input)`: `read` is what `Pnm_ppmread` returns for
the input, the result is the stream on standard output. -/
def compress40 (index_of_chroma : α → Nat) (read : Pnm_ppm) : Except Error (List Nat) := do
  let pixmap ← IO_read_plain_image read
  let image := pixmap.pixels
  let denominator := pixmap.denominator
  let rgb ← Transform_normalize image denominator
  let cv ← Transform_rgb_to_cv rgb
  let dct ← Transform_cv_to_dct cv
  let quantized ← Transform_quantize_dct index_of_chroma dct
  let word ← Transform_dct_to_word quantized
  let written ← IO_write_binary word BLOCKSIZE CODE_LENGTH
  pure (stdout_of written)

/-- `void decompress40(FILE *input)` on the stream `input`: the result is the
pixmap handed to `Pnm_ppmwrite`. -/
def decompress40 (chroma_of_index : Nat → α) (input : List Nat) : Except Error Pnm_ppm := do
  let word ← IO_read_binary input BLOCKSIZE CODE_LENGTH
  let dct ← Transform_word_to_dct word
  let unquantized ← Transform_unquantize_dct chroma_of_index dct
  let cv ← Transform_dct_to_cv unquantized
  let rgb ← Transform_cv_to_rgb cv DENOMINATOR
  pure { width := rgb.width, height := rgb.height, denominator := DENOMINATOR,
         pixels := rgb }

end Pipeline

/-! ## The comparator (`src/ppmdiff.c`)

`run` prints on standard output and on standard error; the model returns what
it prints, in order.  `double` values are exact numbers of `α`; the C library
`sqrt` is a parameter. -/

/-- The C library `abs` on `int`. -/
def c_abs (n : Int) : Int := to_int (if n < 0 then -n else n)

/-- A `for (int i = start; i < start + count; i++)` loop over the state `σ`:
`count` rounds of `body`, the first failure ends the loop. -/
def for_loop {σ : Type} (body : Nat → σ → Except Error σ) : Nat → Nat → σ → Except Error σ
  | 0, _, state => .ok state
  | count + 1, i, state =>
    match body i state with
    | .error e => .error e
    | .ok state => for_loop body count (i + 1) state

/-- What `run` prints: `printf("Original: (%d, %d)\n", ...)`,
`printf("Decompressed: (%d, %d)\n", ...)`,
`fprintf(stderr, "Dimension differs by more than 1. RMSE: %f\n", 1.0)` and
`printf("RMSE: %0.4lf\n", rmse)`. -/
inductive Output (α : Type) where
  | original (width height : Int)
  | decompressed (width height : Int)
  | dimension_error
  | rmse (value : α)

section Comparator

variable {α : Type} [LinearOrderedField α]

/-- `double power(unsigned denominator1, unsigned denominator2, unsigned num1,
unsigned num2)`. -/
def power (denominator1 denominator2 num1 num2 : Nat) : α :=
  let num := (num1 : α) / (denominator1 : α) - (num2 : α) / (denominator2 : α)
  num * num

/-- The body of the inner loop of `run` at `(i, j)`: both pixels are read with
`methods->at` and the three squared differences are added to `rmse`. -/
def compare_pixel (array1 array2 : UArray2 Pnm_rgb) (denom1 denom2 : Nat) (i j : Nat)
    (rmse : α) : Except Error α := do
  let rgb1 ← UArray2_at array1 i j
  let rgb2 ← UArray2_at array2 i j
  pure (rmse +
        power denom1 denom2 rgb1.red rgb2.red +
        power denom1 denom2 rgb1.green rgb2.green +
        power denom1 denom2 rgb1.blue rgb2.blue)

/-- `void run(A2Methods_T methods, Pnm_ppm image_1, Pnm_ppm image_2)`. -/
def run (sqrt : α → α) (image_1 image_2 : Pnm_ppm) : Except Error (List (Output α)) :=
  let width_1 := to_int image_1.width
  let height_1 := to_int image_1.height
  let width_2 := to_int image_2.width
  let height_2 := to_int image_2.height
  let printed := [Output.original width_1 height_1, Output.decompressed width_2 height_2]
  if c_abs (to_int (width_1 - width_2)) > 1 ∧ c_abs (to_int (height_1 - height_2)) > 1 then
    .ok (printed ++ [Output.dimension_error])
  else
    let out_width := if width_1 > width_2 then width_2 else width_1
    let out_height := if height_1 > height_2 then height_2 else height_1
    let array1 := image_1.pixels
    let array2 := image_2.pixels
    let denom1 := image_1.denominator
    let denom2 := image_2.denominator
    let rmse : α := 0
    do
      let rmse ← for_loop (fun i rmse =>
        for_loop (fun j rmse => compare_pixel array1 array2 denom1 denom2 i j rmse)
          out_height.toNat 0 rmse) out_width.toNat 0 rmse
      let rmse := sqrt (rmse / ((to_int (3 * out_width * out_height) : Int) : α))
      pure (printed ++ [Output.rmse rmse])

end Comparator

/-! ## Arithmetic of the C integer types -/

theorem uadd_eq {a b : Nat} (h : a + b ≤ 64) : uadd a b = a + b := by
  unfold uadd; omega

theorem usub_eq {a b : Nat} (ha : a ≤ 64) (hb : b ≤ a) : usub a b = a - b := by
  unfold usub; omega

theorem not_u64_zero : not_u64 0 = 2 ^ 64 - 1 := by
  simp [not_u64]

theorem in_range_iff {w : Nat} : in_range w = true ↔ w ≤ 64 := by
  simp [in_range, MAX_WIDTH]

/-- Bit `i` of the mask `shift_rightu (~0) (64 - w)`: the low `w` bits are set. -/
theorem testBit_low_mask {w : Nat} (hw : w ≤ 64) (i : Nat) :
    (shift_rightu (2 ^ 64 - 1) (64 - w)).testBit i = decide (i < w) := by
  unfold shift_rightu MAX_WIDTH
  split
  · rw [Nat.testBit_shiftRight, Nat.testBit_two_pow_sub_one]
    congr 1
    apply propext
    omega
  · have : w = 0 := by omega
    subst this
    simp

/-- Bit `i` of `shift_leftu n k`: the bits of `n` moved up by `k`, cut at 64. -/
theorem testBit_shift_leftu (n k i : Nat) :
    (shift_leftu n k).testBit i =
      (decide (i < 64) && decide (k ≤ i) && n.testBit (i - k)) := by
  unfold shift_leftu MAX_WIDTH
  split
  · rw [Nat.testBit_mod_two_pow, Nat.testBit_shiftLeft]
    simp [Bool.and_assoc]
  · by_cases h1 : i < 64
    · have : ¬ k ≤ i := by omega
      simp [this]
    · simp [h1]

/-- Bit `i` of `shift_rightu n k` for a shift below 64. -/
theorem testBit_shift_rightu {k : Nat} (hk : k < 64) (n i : Nat) :
    (shift_rightu n k).testBit i = n.testBit (k + i) := by
  unfold shift_rightu MAX_WIDTH
  rw [if_pos hk, Nat.testBit_shiftRight]

/-- Bits at or above the size of a value are clear. -/
theorem testBit_of_lt_two_pow {v w i : Nat} (hv : v < 2 ^ w) (hi : w ≤ i) :
    v.testBit i = false :=
  Nat.testBit_lt_two_pow (lt_of_lt_of_le hv (Nat.pow_le_pow_right (by decide) hi))

/-- The field read by `Bitpack_getu`, in closed form. -/
theorem getu_eq {w lsb : Nat} (word : Nat) (h : w + lsb ≤ 64) :
    Bitpack_getu word w lsb = .ok (word / 2 ^ lsb % 2 ^ w) := by
  have hw : w ≤ 64 := by omega
  unfold Bitpack_getu
  rw [uadd_eq h, in_range_iff.mpr hw, in_range_iff.mpr h]
  simp only [Bool.and_self, if_true]
  by_cases h0 : w > 0
  · rw [if_pos h0, usub_eq (by decide) (by simpa [MAX_WIDTH] using hw), not_u64_zero]
    congr 1
    apply Nat.eq_of_testBit_eq
    intro i
    have hl : lsb < 64 := by omega
    rw [testBit_shift_rightu hl, Nat.testBit_and, testBit_shift_leftu, MAX_WIDTH,
      testBit_low_mask hw, Nat.testBit_mod_two_pow, ← Nat.shiftRight_eq_div_pow,
      Nat.testBit_shiftRight]
    by_cases hi : i < w
    · have h1 : lsb + i < 64 := by omega
      simp [hi, h1]
    · simp [hi]
  · have : w = 0 := by omega
    subst this
    simp [Nat.mod_one]


/-- What `Bitpack_fitsu` returns for a width within range. -/
theorem fitsu_eq {w : Nat} (v : Nat) (hw : w ≤ 64) :
    Bitpack_fitsu v w = .ok (decide (w = 64 ∨ (1 ≤ w ∧ w ≤ 63 ∧ v < 2 ^ w))) := by
  unfold Bitpack_fitsu
  rw [in_range_iff.mpr hw, if_pos rfl]
  by_cases h64 : w = 64
  · simp [h64, MAX_WIDTH]
  · by_cases h0 : w = 0
    · simp [h0, MAX_WIDTH]
    · have hlt : w < 64 := by omega
      have hp : (2:Nat) ^ w < 2 ^ 64 := Nat.pow_lt_pow_right (by decide) hlt
      have hs : shift_leftu 1 w = 2 ^ w := by
        unfold shift_leftu MAX_WIDTH
        rw [if_pos hlt, Nat.shiftLeft_eq, Nat.one_mul, Nat.mod_eq_of_lt hp]
      rw [if_neg (by simpa [MAX_WIDTH] using h64), if_neg h0]
      simp only [hs]
      congr 1
      rw [decide_eq_decide]
      omega

/-- The value `Bitpack_newu` returns when the range checks and the fit test
pass. -/
theorem newu_eq {w lsb v : Nat} (word : Nat) (h : w + lsb ≤ 64)
    (hfit : Bitpack_fitsu v w = .ok true) :
    Bitpack_newu word w lsb v =
      .ok ((word &&& (shift_rightu (2 ^ 64 - 1) (64 - lsb) |||
        shift_leftu (2 ^ 64 - 1) (w + lsb))) ||| shift_leftu v lsb) := by
  have hw : w ≤ 64 := by omega
  have hl : lsb ≤ 64 := by omega
  unfold Bitpack_newu
  rw [uadd_eq h, in_range_iff.mpr hw, in_range_iff.mpr h, hfit, not_u64_zero,
    usub_eq (by decide) (by simpa [MAX_WIDTH] using hl)]
  simp [MAX_WIDTH]

/-- A store that returns a value passed the fit test. -/
theorem fitsu_of_newu_ok {word w lsb v r : Nat}
    (hr : Bitpack_newu word w lsb v = .ok r) : Bitpack_fitsu v w = .ok true := by
  unfold Bitpack_newu at hr
  split at hr
  · split at hr
    · cases hr
    · cases hr
    · assumption
  · cases hr

/-- Bit `j` of the word returned by a successful `Bitpack_newu`: inside the
field it is a bit of `v`, outside it is the bit of `word`. -/
theorem testBit_newu {word w lsb v r : Nat} (h : w + lsb ≤ 64)
    (hr : Bitpack_newu word w lsb v = .ok r) (j : Nat) (hj : j < 64) :
    r.testBit j = if lsb ≤ j ∧ j < lsb + w then v.testBit (j - lsb) else word.testBit j := by
  have hfit := fitsu_of_newu_ok hr
  rw [newu_eq word h hfit] at hr
  injection hr with hr
  subst hr
  have hw : w ≤ 64 := by omega
  have hl : lsb ≤ 64 := by omega
  rw [fitsu_eq v hw] at hfit
  injection hfit with hfit
  simp only [decide_eq_true_eq] at hfit
  rw [Nat.testBit_or, Nat.testBit_and, Nat.testBit_or, testBit_low_mask hl,
    testBit_shift_leftu, testBit_shift_leftu, Nat.testBit_two_pow_sub_one]
  by_cases h1 : j < lsb
  · have : ¬ lsb ≤ j := by omega
    simp [h1, this]
  · by_cases h2 : j < lsb + w
    · have h3 : lsb ≤ j := by omega
      have h4 : ¬ w + lsb ≤ j := by omega
      simp [h1, h2, h3, h4, hj]
    · have h3 : lsb ≤ j := by omega
      have h4 : w + lsb ≤ j := by omega
      have h5 : j - (w + lsb) < 64 := by omega
      have hv : v.testBit (j - lsb) = false := by
        rcases hfit with h64 | ⟨_, _, hv⟩
        · omega
        · exact testBit_of_lt_two_pow hv (by omega)
      simp [h1, h2, h3, h4, h5, hj, hv]

/-- A successful `Bitpack_newu` on a 64-bit word returns a 64-bit word. -/
theorem newu_lt {word w lsb v r : Nat} (h : w + lsb ≤ 64) (hword : word < 2 ^ 64)
    (hr : Bitpack_newu word w lsb v = .ok r) : r < 2 ^ 64 := by
  have hfit := fitsu_of_newu_ok hr
  rw [newu_eq word h hfit] at hr
  injection hr with hr
  subst hr
  apply Nat.lt_pow_two_of_testBit
  intro i hi
  have h1 : ¬ i < 64 := by omega
  rw [Nat.testBit_or, Nat.testBit_and, testBit_shift_leftu,
    testBit_of_lt_two_pow hword hi]
  simp [h1]


/-- Reading back the field just stored gives the stored value. -/
theorem getu_newu {word w lsb v r : Nat} (h : w + lsb ≤ 64) (hv : v < 2 ^ w)
    (hr : Bitpack_newu word w lsb v = .ok r) : Bitpack_getu r w lsb = .ok v := by
  rw [getu_eq r h]
  congr 1
  apply Nat.eq_of_testBit_eq
  intro i
  rw [Nat.testBit_mod_two_pow, ← Nat.shiftRight_eq_div_pow, Nat.testBit_shiftRight]
  by_cases hi : i < w
  · rw [testBit_newu h hr (lsb + i) (by omega)]
    have : lsb ≤ lsb + i ∧ lsb + i < lsb + w := by omega
    simp [hi, this]
  · rw [testBit_of_lt_two_pow hv (by omega)]
    simp [hi]

/-- A field disjoint from the stored one reads the same before and after a
successful `Bitpack_newu`. -/
theorem getu_newu_frame {word w lsb v r w' lsb' : Nat} (h : w + lsb ≤ 64)
    (h' : w' + lsb' ≤ 64)
    (hd : ∀ i, lsb' ≤ i → i < lsb' + w' → ¬ (lsb ≤ i ∧ i < lsb + w))
    (hr : Bitpack_newu word w lsb v = .ok r) :
    Bitpack_getu r w' lsb' = Bitpack_getu word w' lsb' := by
  rw [getu_eq r h', getu_eq word h']
  congr 1
  apply Nat.eq_of_testBit_eq
  intro i
  rw [Nat.testBit_mod_two_pow, Nat.testBit_mod_two_pow, ← Nat.shiftRight_eq_div_pow,
    ← Nat.shiftRight_eq_div_pow, Nat.testBit_shiftRight, Nat.testBit_shiftRight]
  by_cases hi : i < w'
  · rw [testBit_newu h hr (lsb' + i) (by omega),
      if_neg (hd (lsb' + i) (by omega) (by omega))]
  · simp [hi]

/-- Conversion to `int64_t` keeps a value that is already in range. -/
theorem to_s64_eq {n : Int} (h1 : -2 ^ 63 ≤ n) (h2 : n < 2 ^ 63) : to_s64 n = n := by
  unfold to_s64; omega

/-- What `Bitpack_fitss` returns for a width within range. -/
theorem fitss_eq {w : Nat} (v : Int) (hw : w ≤ 64) :
    Bitpack_fitss v w =
      .ok (decide (w = 64 ∨ (1 ≤ w ∧ w ≤ 63 ∧ -2 ^ (w - 1) ≤ v ∧ v < 2 ^ (w - 1)))) := by
  unfold Bitpack_fitss
  rw [in_range_iff.mpr hw, if_pos rfl]
  by_cases h64 : w = 64
  · simp [h64, MAX_WIDTH]
  · by_cases h0 : w = 0
    · simp [h0, MAX_WIDTH]
    · have hlt : w - 1 < 64 := by omega
      have hp : (2:Int) ^ (w - 1) ≤ 2 ^ 62 := pow_le_pow_right₀ (by norm_num) (by omega)
      have hp0 : (0:Int) < 2 ^ (w - 1) := by positivity
      have hu : usub w 1 = w - 1 := usub_eq hw (by omega)
      have hs1 : shift_lefts 1 (w - 1) = 2 ^ (w - 1) := by
        unfold shift_lefts MAX_WIDTH
        rw [if_pos hlt, one_mul]
        exact to_s64_eq (by omega) (by omega)
      have hs2 : shift_lefts (-1) (w - 1) = -2 ^ (w - 1) := by
        unfold shift_lefts MAX_WIDTH
        rw [if_pos hlt, neg_one_mul]
        exact to_s64_eq (by omega) (by omega)
      rw [if_neg (by simpa [MAX_WIDTH] using h64), if_neg h0]
      simp only [hu, hs1, hs2]
      refine congrArg Except.ok ?_
      rw [← Bool.decide_and, decide_eq_decide]
      constructor
      · rintro ⟨h1, h2⟩
        exact Or.inr ⟨by omega, by omega, h1, h2⟩
      · rintro (h | ⟨_, _, h1, h2⟩)
        · exact absurd h h64
        · exact ⟨h1, h2⟩

/-- The two shifts of `Bitpack_gets` sign-extend a `w`-bit field. -/
theorem sign_extend_eq {w f : Nat} (hw1 : 1 ≤ w) (hw : w ≤ 64) (hf : f < 2 ^ w) :
    shift_rights (shift_lefts (to_s64 (f : Int)) (64 - w)) (64 - w) =
      if (f : Int) < 2 ^ (w - 1) then (f : Int) else (f : Int) - 2 ^ w := by
  have hfi : (f : Int) < 2 ^ w := by exact_mod_cast hf
  have hf0 : (0 : Int) ≤ f := Int.ofNat_nonneg f
  by_cases h64 : w = 64
  · subst h64
    simp only [shift_lefts, shift_rights, MAX_WIDTH, Nat.sub_self, Nat.lt_irrefl, if_true,
      show (0 : Nat) < 64 by decide, pow_zero, mul_one, Int.ediv_one]
    unfold to_s64
    split_ifs <;> omega
  · have hk : 64 - w < 64 := by omega
    have hHP : (2 : Int) ^ (w - 1) * 2 ^ (64 - w) = 2 ^ 63 := by
      rw [← pow_add]; congr 1; omega
    have hQ : (2 : Int) ^ w = 2 * 2 ^ (w - 1) := by
      rw [← pow_succ']; congr 1; omega
    have hP : (0 : Int) < 2 ^ (64 - w) := by positivity
    have hH : (0 : Int) < 2 ^ (w - 1) := by positivity
    have hH63 : (2 : Int) ^ (w - 1) ≤ 2 ^ 62 := pow_le_pow_right₀ (by norm_num) (by omega)
    rw [to_s64_eq (by omega) (by omega)]
    unfold shift_lefts shift_rights MAX_WIDTH
    rw [if_pos hk, if_pos hk]
    generalize hPd : (2 : Int) ^ (64 - w) = P at *
    generalize hHd : (2 : Int) ^ (w - 1) = H at *
    rw [hQ] at hfi ⊢
    by_cases hlt : (f : Int) < H
    · rw [if_pos hlt]
      have hx : (f : Int) * P < 2 ^ 63 := by
        rw [← hHP]; exact mul_lt_mul_of_pos_right hlt hP
      have hx0 : (0 : Int) ≤ (f : Int) * P := mul_nonneg hf0 hP.le
      rw [to_s64_eq (by omega) hx]
      exact Int.mul_ediv_cancel _ hP.ne'
    · rw [if_neg hlt]
      have hge : H * P ≤ (f : Int) * P := mul_le_mul_of_nonneg_right (by omega) hP.le
      have hx : (f : Int) * P < 2 * H * P := mul_lt_mul_of_pos_right hfi hP
      have h2 : 2 * H * P = 2 ^ 64 := by rw [mul_assoc, hHP]; norm_num
      have hs : to_s64 ((f : Int) * P) = ((f : Int) - 2 * H) * P := by
        have : ((f : Int) - 2 * H) * P = (f : Int) * P - 2 ^ 64 := by rw [← h2]; ring
        rw [this]
        unfold to_s64
        rw [hHP] at hge
        rw [h2] at hx
        generalize (f : Int) * P = x at *
        omega
      rw [hs]
      exact Int.mul_ediv_cancel _ hP.ne'


/-- The value `Bitpack_gets` returns: the sign extension of the field read by
`Bitpack_getu`. -/
theorem gets_eq {w lsb : Nat} (word : Nat) (hw1 : 1 ≤ w) (h : w + lsb ≤ 64) :
    Bitpack_gets word w lsb =
      .ok (if ((word / 2 ^ lsb % 2 ^ w : Nat) : Int) < 2 ^ (w - 1)
        then ((word / 2 ^ lsb % 2 ^ w : Nat) : Int)
        else ((word / 2 ^ lsb % 2 ^ w : Nat) : Int) - 2 ^ w) := by
  have hw : w ≤ 64 := by omega
  have hf : word / 2 ^ lsb % 2 ^ w < 2 ^ w := Nat.mod_lt _ (by positivity)
  unfold Bitpack_gets
  rw [uadd_eq h, in_range_iff.mpr hw, in_range_iff.mpr h, getu_eq word h,
    usub_eq (by decide) (by simpa [MAX_WIDTH] using hw)]
  simp only [Bool.and_self, if_true, if_pos (show w > 0 from hw1), MAX_WIDTH]
  rw [sign_extend_eq hw1 hw hf]

/-- The low `w` bits of the `uint64_t` conversion of `v` are `v mod 2 ^ w`. -/
theorem to_u64_mod {w : Nat} (v : Int) (hw : w ≤ 64) :
    to_u64 v % 2 ^ w = (v % 2 ^ w).toNat := by
  have h1 : (0 : Int) ≤ v % 2 ^ 64 := Int.emod_nonneg _ (by norm_num)
  have h2 : (0 : Int) ≤ v % 2 ^ w := Int.emod_nonneg _ (by positivity)
  have hd : (2 : Int) ^ w ∣ 2 ^ 64 := pow_dvd_pow 2 hw
  apply Int.ofNat_inj.mp
  unfold to_u64
  rw [Int.toNat_of_nonneg h2]
  rw [Int.natCast_mod, Int.toNat_of_nonneg h1, Nat.cast_pow, Nat.cast_ofNat,
    Int.emod_emod_of_dvd v hd]

/-- The encoding `v mod 2 ^ w` always fits in `w` unsigned bits. -/
theorem fitsu_encoding {w : Nat} (v : Int) (hw1 : 1 ≤ w) (hw : w ≤ 64) :
    Bitpack_fitsu (v % 2 ^ w).toNat w = .ok true := by
  rw [fitsu_eq _ hw]
  refine congrArg Except.ok ?_
  rw [decide_eq_true_eq]
  by_cases h64 : w = 64
  · exact Or.inl h64
  · refine Or.inr ⟨hw1, by omega, ?_⟩
    have h2 : (0 : Int) ≤ v % 2 ^ w := Int.emod_nonneg _ (by positivity)
    have h3 : v % 2 ^ w < 2 ^ w := Int.emod_lt_of_pos _ (by positivity)
    apply Int.ofNat_lt.mp
    rw [Int.toNat_of_nonneg h2]
    exact_mod_cast h3

/-- A passing `Bitpack_fitss` means the width is at least 1. -/
theorem one_le_of_fitss {w : Nat} {v : Int} (hw : w ≤ 64)
    (hfit : Bitpack_fitss v w = .ok true) : 1 ≤ w := by
  rw [fitss_eq v hw] at hfit
  injection hfit with hfit
  rw [decide_eq_true_eq] at hfit
  omega

/-- `Bitpack_news` stores the two's-complement encoding of `v` through
`Bitpack_newu`. -/
theorem news_eq {w lsb : Nat} {v : Int} (word : Nat) (h : w + lsb ≤ 64)
    (hfit : Bitpack_fitss v w = .ok true) :
    Bitpack_news word w lsb v = Bitpack_newu word w lsb (v % 2 ^ w).toNat := by
  have hw : w ≤ 64 := by omega
  unfold Bitpack_news
  rw [uadd_eq h, in_range_iff.mpr hw, in_range_iff.mpr h, hfit,
    getu_eq (to_u64 v) (show w + 0 ≤ 64 from hw)]
  simp only [Bool.and_self, if_true, pow_zero, Nat.div_one]
  rw [to_u64_mod v hw]

/-- A `Bitpack_news` that returns a value passed the signed fit test. -/
theorem fitss_of_news_ok {word w lsb r : Nat} {v : Int}
    (hr : Bitpack_news word w lsb v = .ok r) : Bitpack_fitss v w = .ok true := by
  unfold Bitpack_news at hr
  split at hr
  · split at hr
    · cases hr
    · cases hr
    · assumption
  · cases hr

/-- Sign extension undoes the two's-complement encoding of a value that fits. -/
theorem sign_extend_encoding {w : Nat} {v : Int} (hw1 : 1 ≤ w)
    (h1 : -2 ^ (w - 1) ≤ v) (h2 : v < 2 ^ (w - 1)) :
    (if (((v % 2 ^ w).toNat : Nat) : Int) < 2 ^ (w - 1)
      then (((v % 2 ^ w).toNat : Nat) : Int)
      else (((v % 2 ^ w).toNat : Nat) : Int) - 2 ^ w) = v := by
  have hQ : (2 : Int) ^ w = 2 * 2 ^ (w - 1) := by
    rw [← pow_succ']; congr 1; omega
  have hH : (0 : Int) < 2 ^ (w - 1) := by positivity
  have hm : (0 : Int) ≤ v % 2 ^ w := Int.emod_nonneg _ (by positivity)
  rw [Int.toNat_of_nonneg hm, hQ]
  generalize (2 : Int) ^ (w - 1) = H at *
  by_cases hv : 0 ≤ v
  · have : v % (2 * H) = v := Int.emod_eq_of_lt hv (by omega)
    rw [this, if_pos h2]
  · have : v % (2 * H) = v + 2 * H := by
      rw [← Int.add_mul_emod_self_left v (2 * H) 1, mul_one]
      exact Int.emod_eq_of_lt (by omega) (by omega)
    rw [this, if_neg (by omega)]
    ring


/-! ## The claims about the bit-packing layer -/

/-- C1: for every width `1 ≤ w ≤ 64`, every `lsb` with `w + lsb ≤ 64` and every
unsigned `v ≤ 2 ^ w - 1`, `Bitpack_newu 0 w lsb v` returns a word, and
`Bitpack_getu` of that word at `(w, lsb)` returns `v`. -/
theorem getu_newu_zero_roundtrip (w lsb v : Nat) (hw1 : 1 ≤ w) (hw : w ≤ 64)
    (h : w + lsb ≤ 64) (hv : v ≤ 2 ^ w - 1) :
    ∃ r, Bitpack_newu 0 w lsb v = .ok r ∧ Bitpack_getu r w lsb = .ok v := by
  have hp : 0 < 2 ^ w := by positivity
  have hv' : v < 2 ^ w := by omega
  have hfit : Bitpack_fitsu v w = .ok true := by
    rw [fitsu_eq v hw]
    refine congrArg Except.ok ?_
    rw [decide_eq_true_eq]
    omega
  refine ⟨_, newu_eq 0 h hfit, ?_⟩
  exact getu_newu h hv' (newu_eq 0 h hfit)

/-- Witness of C1 at `w = 6`, `lsb = 4`, `v = 47`. -/
theorem getu_newu_zero_roundtrip_witness :
    ∃ r, Bitpack_newu 0 6 4 47 = .ok r ∧ Bitpack_getu r 6 4 = .ok 47 :=
  getu_newu_zero_roundtrip 6 4 47 (by decide) (by decide) (by decide) (by decide)

/-- C2: for every width `1 ≤ w ≤ 64`, every `lsb` with `w + lsb ≤ 64` and every
signed `v` with `-2 ^ (w - 1) ≤ v ≤ 2 ^ (w - 1) - 1`, `Bitpack_news 0 w lsb v`
returns a word, and `Bitpack_gets` of that word at `(w, lsb)` returns `v`. -/
theorem gets_news_zero_roundtrip (w lsb : Nat) (v : Int) (hw1 : 1 ≤ w) (hw : w ≤ 64)
    (h : w + lsb ≤ 64) (hlo : -2 ^ (w - 1) ≤ v) (hhi : v ≤ 2 ^ (w - 1) - 1) :
    ∃ r, Bitpack_news 0 w lsb v = .ok r ∧ Bitpack_gets r w lsb = .ok v := by
  have hhi' : v < 2 ^ (w - 1) := by omega
  have hfit : Bitpack_fitss v w = .ok true := by
    rw [fitss_eq v hw]
    refine congrArg Except.ok ?_
    rw [decide_eq_true_eq]
    by_cases h64 : w = 64
    · exact Or.inl h64
    · exact Or.inr ⟨hw1, by omega, hlo, hhi'⟩
  have hm : (v % 2 ^ w).toNat < 2 ^ w := by
    have h2 : (0 : Int) ≤ v % 2 ^ w := Int.emod_nonneg _ (by positivity)
    have h3 : v % 2 ^ w < 2 ^ w := Int.emod_lt_of_pos _ (by positivity)
    apply Int.ofNat_lt.mp
    rw [Int.toNat_of_nonneg h2]
    exact_mod_cast h3
  have hst := newu_eq 0 h (fitsu_encoding v hw1 hw)
  rw [← news_eq 0 h hfit] at hst
  refine ⟨_, hst, ?_⟩
  rw [news_eq 0 h hfit] at hst
  have hg := getu_newu h hm hst
  rw [getu_eq _ h] at hg
  injection hg with hg
  rw [gets_eq _ hw1 h, hg, sign_extend_encoding hw1 hlo hhi']

/-- Witness of C2 at `w = 5`, `lsb = 18`, `v = -16`. -/
theorem gets_news_zero_roundtrip_witness :
    ∃ r, Bitpack_news 0 5 18 (-16) = .ok r ∧ Bitpack_gets r 5 18 = .ok (-16) :=
  gets_news_zero_roundtrip 5 18 (-16) (by decide) (by decide) (by decide) (by decide)
    (by decide)

/-- The frame property for a written field that lies in the 64-bit word.  For
every word, every field `(w, lsb)` with `w + lsb ≤ 64` and every value for
which the store returns a word `r`, every field `(w', lsb')` with
`w' + lsb' ≤ 64` whose bit interval `[lsb', lsb' + w')` is disjoint from
`[lsb, lsb + w)` reads the same in `r` as in the original word. -/
theorem newu_news_frame (word w lsb w' lsb' : Nat) (h : w + lsb ≤ 64)
    (h' : w' + lsb' ≤ 64)
    (hd : ∀ i, lsb' ≤ i → i < lsb' + w' → ¬ (lsb ≤ i ∧ i < lsb + w)) :
    (∀ v r, Bitpack_newu word w lsb v = .ok r →
      Bitpack_getu r w' lsb' = Bitpack_getu word w' lsb') ∧
    (∀ v r, Bitpack_news word w lsb v = .ok r →
      Bitpack_getu r w' lsb' = Bitpack_getu word w' lsb') := by
  constructor
  · intro v r hr
    exact getu_newu_frame h h' hd hr
  · intro v r hr
    rw [news_eq word h (fitss_of_news_ok hr)] at hr
    exact getu_newu_frame h h' hd hr

/-- An instance of the frame property: storing 7 (unsigned) or -1 (signed) in
the field `(3, 3)` of 682 gives 698, whose field `(3, 0)` is that of 682. -/
theorem newu_news_frame_witness :
    (Bitpack_newu 682 3 3 7 = .ok 698 ∧ Bitpack_getu 698 3 0 = Bitpack_getu 682 3 0) ∧
    (Bitpack_news 682 3 3 (-1) = .ok 698 ∧ Bitpack_getu 698 3 0 = Bitpack_getu 682 3 0) :=
  ⟨⟨by decide, (newu_news_frame 682 3 3 3 0 (by decide) (by decide)
      (by intro i h1 h2; omega)).1 7 698 (by decide)⟩,
   ⟨by decide, (newu_news_frame 682 3 3 3 0 (by decide) (by decide)
      (by intro i h1 h2; omega)).2 (-1) 698 (by decide)⟩⟩

/-- C4: for every unsigned `v` and every width `w ≤ 64`, `Bitpack_fitsu v w`
returns, and returns true exactly when `w = 64`, or `1 ≤ w ≤ 63` and
`v < 2 ^ w`; for `w = 0` it returns false for every `v`, `v = 0` included. -/
theorem fitsu_iff (v w : Nat) (hw : w ≤ 64) :
    (∃ b, Bitpack_fitsu v w = .ok b) ∧
    (Bitpack_fitsu v w = .ok true ↔ (w = 64 ∨ (1 ≤ w ∧ w ≤ 63 ∧ v < 2 ^ w))) ∧
    Bitpack_fitsu v 0 = .ok false ∧ Bitpack_fitsu 0 0 = .ok false := by
  refine ⟨⟨_, fitsu_eq v hw⟩, ?_, ?_, ?_⟩
  · rw [fitsu_eq v hw]
    constructor
    · intro hb
      injection hb with hb
      exact of_decide_eq_true hb
    · intro hp
      exact congrArg Except.ok (decide_eq_true hp)
  · rw [fitsu_eq v (by decide)]
    refine congrArg Except.ok ?_
    rw [decide_eq_false_iff_not]
    omega
  · decide

/-- Witness of C4 at `v = 16`, `w = 4`. -/
theorem fitsu_iff_witness :
    (∃ b, Bitpack_fitsu 16 4 = .ok b) ∧
    (Bitpack_fitsu 16 4 = .ok true ↔ (4 = 64 ∨ (1 ≤ 4 ∧ 4 ≤ 63 ∧ 16 < 2 ^ 4))) ∧
    Bitpack_fitsu 16 0 = .ok false ∧ Bitpack_fitsu 0 0 = .ok false :=
  fitsu_iff 16 4 (by decide)

/-- C5: for every signed `v` and every width `w ≤ 64`, `Bitpack_fitss v w`
returns, and returns true exactly when `w = 64`, or `1 ≤ w ≤ 63` and
`-2 ^ (w - 1) ≤ v < 2 ^ (w - 1)`; for `w = 0` it returns false for every `v`,
`v = 0` included. -/
theorem fitss_iff (v : Int) (w : Nat) (hw : w ≤ 64) :
    (∃ b, Bitpack_fitss v w = .ok b) ∧
    (Bitpack_fitss v w = .ok true ↔
      (w = 64 ∨ (1 ≤ w ∧ w ≤ 63 ∧ -2 ^ (w - 1) ≤ v ∧ v < 2 ^ (w - 1)))) ∧
    Bitpack_fitss v 0 = .ok false ∧ Bitpack_fitss 0 0 = .ok false := by
  refine ⟨⟨_, fitss_eq v hw⟩, ?_, ?_, ?_⟩
  · rw [fitss_eq v hw]
    constructor
    · intro hb
      injection hb with hb
      exact of_decide_eq_true hb
    · intro hp
      exact congrArg Except.ok (decide_eq_true hp)
  · rw [fitss_eq v (by decide)]
    refine congrArg Except.ok ?_
    rw [decide_eq_false_iff_not]
    omega
  · decide

/-- Witness of C5 at `v = -8`, `w = 4`. -/
theorem fitss_iff_witness :
    (∃ b, Bitpack_fitss (-8) 4 = .ok b) ∧
    (Bitpack_fitss (-8) 4 = .ok true ↔
      (4 = 64 ∨ (1 ≤ 4 ∧ 4 ≤ 63 ∧ -2 ^ (4 - 1) ≤ (-8 : Int) ∧ (-8 : Int) < 2 ^ (4 - 1)))) ∧
    Bitpack_fitss (-8) 0 = .ok false ∧ Bitpack_fitss 0 0 = .ok false :=
  fitss_iff (-8) 4 (by decide)

/-- C6: for every word and every `w`, `lsb` with `w + lsb ≤ 64` (hence `w ≤ 64`),
`Bitpack_getu word w lsb` returns `word / 2 ^ lsb % 2 ^ w`, the zero-extended
`w`-bit field at bit `lsb`, which is 0 when `w = 0`; `getu(0x3f4, 6, 2) = 61`
and `getu(2730, 6, 4) = 42`. -/
theorem getu_field (word w lsb : Nat) (h : w + lsb ≤ 64) :
    Bitpack_getu word w lsb = .ok (word / 2 ^ lsb % 2 ^ w) ∧
    (w = 0 → Bitpack_getu word w lsb = .ok 0) ∧
    Bitpack_getu 0x3f4 6 2 = .ok 61 ∧ Bitpack_getu 2730 6 4 = .ok 42 := by
  refine ⟨getu_eq word h, ?_, by decide, by decide⟩
  intro h0
  rw [getu_eq word h, h0, pow_zero, Nat.mod_one]

/-- Witness of C6 at `word = 0x3f4`, `w = 6`, `lsb = 2`. -/
theorem getu_field_witness :
    Bitpack_getu 0x3f4 6 2 = .ok (0x3f4 / 2 ^ 2 % 2 ^ 6) ∧
    (6 = 0 → Bitpack_getu 0x3f4 6 2 = .ok 0) ∧
    Bitpack_getu 0x3f4 6 2 = .ok 61 ∧ Bitpack_getu 2730 6 4 = .ok 42 :=
  getu_field 0x3f4 6 2 (by decide)

/-- C7: for every word and every `w`, `lsb` with `w + lsb ≤ 64`: when `1 ≤ w`,
`Bitpack_gets word w lsb` returns the sign extension `s` of the field `f` read
by `Bitpack_getu`, the unique integer with `-2 ^ (w - 1) ≤ s < 2 ^ (w - 1)` and
`s ≡ f` modulo `2 ^ w`; when `w = 0` it returns 0; `gets(0x3f4, 6, 2) = -3` and
`gets(all ones, 64, 0) = -1`. -/
theorem gets_sign_extension (word w lsb : Nat) (h : w + lsb ≤ 64) :
    (1 ≤ w → ∃ (f : Nat) (s : Int), Bitpack_getu word w lsb = .ok f ∧
      Bitpack_gets word w lsb = .ok s ∧
      -2 ^ (w - 1) ≤ s ∧ s < 2 ^ (w - 1) ∧ s ≡ (f : Int) [ZMOD 2 ^ w] ∧
      ∀ t : Int, -2 ^ (w - 1) ≤ t → t < 2 ^ (w - 1) → t ≡ (f : Int) [ZMOD 2 ^ w] →
        t = s) ∧
    (w = 0 → Bitpack_gets word w lsb = .ok 0) ∧
    Bitpack_gets 0x3f4 6 2 = .ok (-3) ∧ Bitpack_gets (2 ^ 64 - 1) 64 0 = .ok (-1) := by
  refine ⟨?_, ?_, by decide, by decide⟩
  · intro hw1
    have hQ : (2 : Int) ^ w = 2 * 2 ^ (w - 1) := by
      rw [← pow_succ']; congr 1; omega
    have hH : (0 : Int) < 2 ^ (w - 1) := by positivity
    have hf : word / 2 ^ lsb % 2 ^ w < 2 ^ w := Nat.mod_lt _ (by positivity)
    have hfi : ((word / 2 ^ lsb % 2 ^ w : Nat) : Int) < 2 ^ w := by exact_mod_cast hf
    have hf0 : (0 : Int) ≤ ((word / 2 ^ lsb % 2 ^ w : Nat) : Int) := Int.ofNat_nonneg _
    refine ⟨_, _, getu_eq word h, gets_eq word hw1 h, ?_⟩
    generalize ((word / 2 ^ lsb % 2 ^ w : Nat) : Int) = f at *
    have key : ∀ s : Int, (s = if f < 2 ^ (w - 1) then f else f - 2 ^ w) →
        -2 ^ (w - 1) ≤ s ∧ s < 2 ^ (w - 1) ∧ s ≡ f [ZMOD 2 ^ w] := by
      intro s hs
      by_cases hlt : f < 2 ^ (w - 1)
      · rw [if_pos hlt] at hs
        subst hs
        exact ⟨by omega, hlt, Int.ModEq.refl _⟩
      · rw [if_neg hlt] at hs
        subst hs
        refine ⟨by omega, by omega, ?_⟩
        apply Int.ModEq.symm
        rw [Int.modEq_iff_dvd]
        exact ⟨-1, by ring⟩
    obtain ⟨k1, k2, k3⟩ := key _ rfl
    refine ⟨k1, k2, k3, ?_⟩
    intro t t1 t2 t3
    have hts := (t3.trans k3.symm).symm
    rw [Int.modEq_iff_dvd] at hts
    have habs : |t - (if f < 2 ^ (w - 1) then f else f - 2 ^ w)| < 2 ^ w := by
      rw [abs_lt]
      constructor <;> omega
    have := Int.eq_zero_of_abs_lt_dvd hts habs
    omega
  · intro h0
    subst h0
    unfold Bitpack_gets
    rw [uadd_eq h, in_range_iff.mpr (by decide), in_range_iff.mpr h]
    simp

/-- Witness of C7 at `word = 0x3f4`, `w = 6`, `lsb = 2`. -/
theorem gets_sign_extension_witness :
    ∃ (f : Nat) (s : Int), Bitpack_getu 0x3f4 6 2 = .ok f ∧
      Bitpack_gets 0x3f4 6 2 = .ok s ∧
      -2 ^ (6 - 1) ≤ s ∧ s < 2 ^ (6 - 1) ∧ s ≡ (f : Int) [ZMOD 2 ^ 6] ∧
      ∀ t : Int, -2 ^ (6 - 1) ≤ t → t < 2 ^ (6 - 1) → t ≡ (f : Int) [ZMOD 2 ^ 6] →
        t = s :=
  (gets_sign_extension 0x3f4 6 2 (by decide)).1 (by decide)

/-- A value that fails the fit test makes `Bitpack_newu` raise
`Bitpack_Overflow`. -/
theorem newu_overflow {w lsb v : Nat} (word : Nat) (h : w + lsb ≤ 64)
    (hfit : Bitpack_fitsu v w = .ok false) :
    Bitpack_newu word w lsb v = .error .Bitpack_Overflow := by
  unfold Bitpack_newu
  rw [uadd_eq h, in_range_iff.mpr (show w ≤ 64 by omega), in_range_iff.mpr h, hfit]
  rfl

/-- A value that fails the signed fit test makes `Bitpack_news` raise
`Bitpack_Overflow`. -/
theorem news_overflow {w lsb : Nat} {v : Int} (word : Nat) (h : w + lsb ≤ 64)
    (hfit : Bitpack_fitss v w = .ok false) :
    Bitpack_news word w lsb v = .error .Bitpack_Overflow := by
  unfold Bitpack_news
  rw [uadd_eq h, in_range_iff.mpr (show w ≤ 64 by omega), in_range_iff.mpr h, hfit]
  rfl

/-- The range assertions fire when `width` exceeds 64, and when the sum
`width + lsb` exceeds 64 and is still representable in 32 bits. -/
theorem assert_fails_of_out_of_range (word w lsb v : Nat) (s : Int)
    (hr : 64 < w ∨ (64 < w + lsb ∧ w + lsb < 2 ^ 32)) :
    Bitpack_getu word w lsb = .error .Assert_Failed ∧
    Bitpack_gets word w lsb = .error .Assert_Failed ∧
    Bitpack_newu word w lsb v = .error .Assert_Failed ∧
    Bitpack_news word w lsb s = .error .Assert_Failed ∧
    (64 < w → Bitpack_fitsu v w = .error .Assert_Failed ∧
      Bitpack_fitss s w = .error .Assert_Failed) := by
  have hc : (in_range w && in_range (uadd w lsb)) = false := by
    rcases hr with h1 | ⟨h1, h2⟩
    · have : in_range w = false := by simp [in_range, MAX_WIDTH, h1]
      rw [this]; rfl
    · have : in_range (uadd w lsb) = false := by
        unfold uadd
        rw [Nat.mod_eq_of_lt h2]
        simp [in_range, MAX_WIDTH, h1]
      rw [this, Bool.and_false]
  refine ⟨?_, ?_, ?_, ?_, ?_⟩
  · unfold Bitpack_getu; rw [hc]; rfl
  · unfold Bitpack_gets; rw [hc]; rfl
  · unfold Bitpack_newu; rw [hc]; rfl
  · unfold Bitpack_news; rw [hc]; rfl
  · intro h1
    have : in_range w = false := by simp [in_range, MAX_WIDTH, h1]
    constructor
    · unfold Bitpack_fitsu; rw [this]; rfl
    · unfold Bitpack_fitss; rw [this]; rfl

/-- Outside the field model: with `width = 2` and `lsb = 4294967295` the 32-bit
sum wraps to 1, the range assertion passes, and the store returns the word with
bit 0 cleared. -/
theorem newu_wrapped_sum_store :
    uadd 2 4294967295 = 1 ∧ Bitpack_newu 1 2 4294967295 0 = .ok 0 ∧
    Bitpack_getu 1 1 0 = .ok 1 ∧ Bitpack_getu 0 1 0 = .ok 0 := by
  decide

/-- C3: the stores do not leave every bit outside the written field unchanged.
With `width = 2` and `lsb = 4294967295` the 32-bit sum `width + lsb` wraps to 1,
the range assertion passes, and `Bitpack_newu` and `Bitpack_news` of the value 0
into the word 1 succeed and return 0: the field `(1, 0)`, whose bit interval
`[0, 1)` is disjoint from `[4294967295, 4294967297)`, reads 1 in the word and 0
in the result. -/
theorem frame_broken_by_wrapped_sum :
    Bitpack_newu 1 2 4294967295 0 = .ok 0 ∧ Bitpack_news 1 2 4294967295 0 = .ok 0 ∧
    1 + 0 ≤ 64 ∧ (∀ i, 0 ≤ i → i < 0 + 1 → ¬ (4294967295 ≤ i ∧ i < 4294967295 + 2)) ∧
    Bitpack_getu 1 1 0 = .ok 1 ∧ Bitpack_getu 0 1 0 = .ok 0 ∧
    Bitpack_getu 0 1 0 ≠ Bitpack_getu 1 1 0 := by
  refine ⟨by decide, by decide, by decide, fun i _ h1 h2 => ?_, by decide, by decide,
    by decide⟩
  omega

/-- C8: for every word, `v` and every `w`, `lsb` with `w + lsb ≤ 64` (hence
`w ≤ 64`), `Bitpack_newu word w lsb v` raises `Bitpack_Overflow` exactly when
`Bitpack_fitsu v w` is false, and otherwise returns a value; every call with
`w = 0` raises `Bitpack_Overflow`, also with `v = 0`. -/
theorem newu_overflow_iff (word w lsb v : Nat) (h : w + lsb ≤ 64) :
    (Bitpack_newu word w lsb v = .error .Bitpack_Overflow ↔
      Bitpack_fitsu v w = .ok false) ∧
    (Bitpack_fitsu v w ≠ .ok false → ∃ r, Bitpack_newu word w lsb v = .ok r) ∧
    (w = 0 → Bitpack_newu word w lsb v = .error .Bitpack_Overflow ∧
      Bitpack_newu word w lsb 0 = .error .Bitpack_Overflow) := by
  have hw : w ≤ 64 := by omega
  have hb := fitsu_eq v hw
  generalize decide (w = 64 ∨ (1 ≤ w ∧ w ≤ 63 ∧ v < 2 ^ w)) = b at hb
  refine ⟨?_, ?_, ?_⟩
  · cases b
    · exact ⟨fun _ => hb, fun _ => newu_overflow word h hb⟩
    · rw [newu_eq word h hb, hb]
      constructor <;> intro hc <;> cases hc
  · intro hne
    cases b
    · exact absurd hb hne
    · exact ⟨_, newu_eq word h hb⟩
  · intro h0
    subst h0
    exact ⟨newu_overflow word h (fitsu_eq v hw), newu_overflow word h (fitsu_eq 0 hw)⟩

/-- Witness of C8 at `word = 0`, `w = 3`, `lsb = 0`, `v = 8`. -/
theorem newu_overflow_iff_witness :
    (Bitpack_newu 0 3 0 8 = .error .Bitpack_Overflow ↔
      Bitpack_fitsu 8 3 = .ok false) ∧
    (Bitpack_fitsu 8 3 ≠ .ok false → ∃ r, Bitpack_newu 0 3 0 8 = .ok r) ∧
    (3 = 0 → Bitpack_newu 0 3 0 8 = .error .Bitpack_Overflow ∧
      Bitpack_newu 0 3 0 0 = .error .Bitpack_Overflow) :=
  newu_overflow_iff 0 3 0 8 (by decide)

/-- C9: for every word, signed `v` and every `w`, `lsb` with `w + lsb ≤ 64`
(hence `w ≤ 64`), `Bitpack_news word w lsb v` raises `Bitpack_Overflow` exactly
when `Bitpack_fitss v w` is false and otherwise returns a value; a returned
value is the one `Bitpack_newu word w lsb (v mod 2 ^ w)` returns, so the field
reads back as the `w`-bit two's-complement encoding `v mod 2 ^ w`;
`news(-128, 2, 2, -1)` is -116 as a signed 64-bit value. -/
theorem news_overflow_iff (word w lsb : Nat) (v : Int) (h : w + lsb ≤ 64) :
    (Bitpack_news word w lsb v = .error .Bitpack_Overflow ↔
      Bitpack_fitss v w = .ok false) ∧
    (Bitpack_fitss v w ≠ .ok false → ∃ r, Bitpack_news word w lsb v = .ok r) ∧
    (∀ r, Bitpack_news word w lsb v = .ok r →
      Bitpack_newu word w lsb (v % 2 ^ w).toNat = .ok r ∧
      Bitpack_getu r w lsb = .ok (v % 2 ^ w).toNat) ∧
    Bitpack_news (to_u64 (-128)) 2 2 (-1) = .ok (to_u64 (-116)) ∧
    to_s64 (to_u64 (-116)) = -116 := by
  have hw : w ≤ 64 := by omega
  have hm : (v % 2 ^ w).toNat < 2 ^ w := by
    have h2 : (0 : Int) ≤ v % 2 ^ w := Int.emod_nonneg _ (by positivity)
    have h3 : v % 2 ^ w < 2 ^ w := Int.emod_lt_of_pos _ (by positivity)
    apply Int.ofNat_lt.mp
    rw [Int.toNat_of_nonneg h2]
    exact_mod_cast h3
  have hb := fitss_eq v hw
  generalize decide (w = 64 ∨ (1 ≤ w ∧ w ≤ 63 ∧ -2 ^ (w - 1) ≤ v ∧ v < 2 ^ (w - 1))) = b
    at hb
  have hok : Bitpack_fitss v w = .ok true → ∃ r, Bitpack_news word w lsb v = .ok r := by
    intro ht
    rw [news_eq word h ht]
    exact ⟨_, newu_eq word h (fitsu_encoding v (one_le_of_fitss hw ht) hw)⟩
  refine ⟨?_, ?_, ?_, by decide, by decide⟩
  · cases b
    · exact ⟨fun _ => hb, fun _ => news_overflow word h hb⟩
    · obtain ⟨r, hr⟩ := hok hb
      rw [hr, hb]
      constructor <;> intro hc <;> cases hc
  · intro hne
    cases b
    · exact absurd hb hne
    · exact hok hb
  · intro r hr
    have ht := fitss_of_news_ok hr
    rw [news_eq word h ht] at hr
    exact ⟨hr, getu_newu h hm hr⟩

/-- Witness of C9 at `word = 2 ^ 64 - 128`, `w = 2`, `lsb = 2`, `v = -1`. -/
theorem news_overflow_iff_witness :
    Bitpack_newu (to_u64 (-128)) 2 2 ((-1 : Int) % 2 ^ 2).toNat = .ok (to_u64 (-116)) ∧
      Bitpack_getu (to_u64 (-116)) 2 2 = .ok ((-1 : Int) % 2 ^ 2).toNat :=
  (news_overflow_iff (to_u64 (-128)) 2 2 (-1) (by decide)).2.2.1 (to_u64 (-116))
    (by decide)

/-- C10 (the range assertion adds `width + lsb` in 32-bit unsigned arithmetic):
with `width = 1` and `lsb = 4294967295` the integer sum exceeds 64, the sum the
code computes wraps to 0, and all four accessors return a value. -/
theorem range_check_wraps :
    64 < 1 + 4294967295 ∧ uadd 1 4294967295 = 0 ∧
    Bitpack_getu 5 1 4294967295 = .ok 0 ∧
    Bitpack_gets 5 1 4294967295 = .ok 0 ∧
    Bitpack_newu 5 1 4294967295 1 = .ok 5 ∧
    Bitpack_news 5 1 4294967295 (-1) = .ok 5 := by
  decide

/-! ## Codewords -/

/-- Storing into a word whose low `lsb + w` bits are clear adds the shifted
value. -/
theorem newu_add {word w lsb v : Nat} (hw1 : 1 ≤ w) (h : w + lsb ≤ 64)
    (hv : v < 2 ^ w) (hword : word < 2 ^ 64) (hz : word % 2 ^ (lsb + w) = 0) :
    Bitpack_newu word w lsb v = .ok (word + v * 2 ^ lsb) := by
  have hw : w ≤ 64 := by omega
  have hfit : Bitpack_fitsu v w = .ok true := by
    rw [fitsu_eq v hw]
    refine congrArg Except.ok ?_
    rw [decide_eq_true_eq]
    omega
  have hr := newu_eq word h hfit
  rw [hr]
  refine congrArg Except.ok ?_
  obtain ⟨q, hq⟩ := Nat.dvd_of_mod_eq_zero hz
  have hsum : word + v * 2 ^ lsb = 2 ^ lsb * (2 ^ w * q + v) := by
    rw [hq, pow_add]; ring
  apply Nat.eq_of_testBit_eq
  intro j
  by_cases hj : j < 64
  · rw [testBit_newu h hr j hj, hsum, Nat.testBit_mul_pow_two,
      Nat.testBit_mul_pow_two_add q hv]
    by_cases h1 : lsb ≤ j
    · by_cases h2 : j < lsb + w
      · have h3 : j - lsb < w := by omega
        simp [h1, h2, h3]
      · have h3 : ¬ j - lsb < w := by omega
        have h4 : j - lsb - w = j - (lsb + w) := by omega
        have h5 : lsb + w ≤ j := by omega
        rw [hq, Nat.testBit_mul_pow_two]
        simp [h1, h2, h3, h4, h5]
    · have h2 : ¬ lsb + w ≤ j := by omega
      rw [hq, Nat.testBit_mul_pow_two]
      simp [h1, h2]
  · have h64 : 64 ≤ j := by omega
    have hlt := newu_lt h hword hr
    rw [testBit_of_lt_two_pow hlt h64, hsum, Nat.testBit_mul_pow_two,
      Nat.testBit_mul_pow_two_add q hv]
    have h1 : lsb ≤ j := by omega
    have h3 : ¬ j - lsb < w := by omega
    have h4 : j - lsb - w = j - (lsb + w) := by omega
    have h5 : lsb + w ≤ j := by omega
    have hw0 := testBit_of_lt_two_pow hword h64
    rw [hq, Nat.testBit_mul_pow_two] at hw0
    simp only [ge_iff_le, h5, decide_True, Bool.true_and] at hw0
    simp [h1, h3, h4, hw0]

/-- The signed store into a word whose low `lsb + w` bits are clear adds the
shifted two's-complement encoding. -/
theorem news_add {word w lsb : Nat} {v : Int} (hw1 : 1 ≤ w) (h : w + lsb ≤ 64)
    (hlo : -2 ^ (w - 1) ≤ v) (hhi : v < 2 ^ (w - 1)) (hword : word < 2 ^ 64)
    (hz : word % 2 ^ (lsb + w) = 0) :
    Bitpack_news word w lsb v = .ok (word + (v % 2 ^ w).toNat * 2 ^ lsb) := by
  have hw : w ≤ 64 := by omega
  have hfit : Bitpack_fitss v w = .ok true := by
    rw [fitss_eq v hw]
    refine congrArg Except.ok ?_
    rw [decide_eq_true_eq]
    by_cases h64 : w = 64
    · exact Or.inl h64
    · exact Or.inr ⟨hw1, by omega, hlo, hhi⟩
  have hm : (v % 2 ^ w).toNat < 2 ^ w := by
    have h2 : (0 : Int) ≤ v % 2 ^ w := Int.emod_nonneg _ (by positivity)
    have h3 : v % 2 ^ w < 2 ^ w := Int.emod_lt_of_pos _ (by positivity)
    apply Int.ofNat_lt.mp
    rw [Int.toNat_of_nonneg h2]
    exact_mod_cast h3
  rw [news_eq word h hfit]
  exact newu_add hw1 h hm hword hz

/-- The word `apply_dct2word` builds from fields within their ranges. -/
theorem dct2word_eq {A Pb Pr : Nat} {B C D : Int} (hA : A ≤ 511)
    (hB : -16 ≤ B ∧ B ≤ 15) (hC : -16 ≤ C ∧ C ≤ 15) (hD : -16 ≤ D ∧ D ≤ 15)
    (hPb : Pb ≤ 15) (hPr : Pr ≤ 15) :
    apply_dct2word { a := A, b := B, c := C, d := D, pb := Pb, pr := Pr } =
      .ok (A * 2 ^ 23 + (B % 32).toNat * 2 ^ 18 + (C % 32).toNat * 2 ^ 13 +
        (D % 32).toNat * 2 ^ 8 + Pb * 2 ^ 4 + Pr) := by
  have hb : (B % 32).toNat < 32 := by omega
  have hc : (C % 32).toNat < 32 := by omega
  have hd : (D % 32).toNat < 32 := by omega
  have e1 : Bitpack_newu 0 9 23 A = .ok (0 + A * 2 ^ 23) :=
    newu_add (by decide) (by decide) (by omega) (by omega) (by omega)
  have e2 : Bitpack_news (0 + A * 2 ^ 23) 5 18 B =
      .ok (0 + A * 2 ^ 23 + (B % 2 ^ 5).toNat * 2 ^ 18) :=
    news_add (by decide) (by decide) (by omega) (by omega)
      (by omega) (by omega)
  have e3 : Bitpack_news (0 + A * 2 ^ 23 + (B % 2 ^ 5).toNat * 2 ^ 18) 5 13 C =
      .ok (0 + A * 2 ^ 23 + (B % 2 ^ 5).toNat * 2 ^ 18 + (C % 2 ^ 5).toNat * 2 ^ 13) :=
    news_add (by decide) (by decide) (by omega) (by omega)
      (by omega) (by omega)
  have e4 : Bitpack_news
      (0 + A * 2 ^ 23 + (B % 2 ^ 5).toNat * 2 ^ 18 + (C % 2 ^ 5).toNat * 2 ^ 13) 5 8 D =
      .ok (0 + A * 2 ^ 23 + (B % 2 ^ 5).toNat * 2 ^ 18 + (C % 2 ^ 5).toNat * 2 ^ 13 +
        (D % 2 ^ 5).toNat * 2 ^ 8) :=
    news_add (by decide) (by decide) (by omega) (by omega)
      (by omega) (by omega)
  have e5 : Bitpack_newu
      (0 + A * 2 ^ 23 + (B % 2 ^ 5).toNat * 2 ^ 18 + (C % 2 ^ 5).toNat * 2 ^ 13 +
        (D % 2 ^ 5).toNat * 2 ^ 8) 4 4 Pb =
      .ok (0 + A * 2 ^ 23 + (B % 2 ^ 5).toNat * 2 ^ 18 + (C % 2 ^ 5).toNat * 2 ^ 13 +
        (D % 2 ^ 5).toNat * 2 ^ 8 + Pb * 2 ^ 4) :=
    newu_add (by decide) (by decide) (by omega) (by omega)
      (by omega)
  have e6 : Bitpack_newu
      (0 + A * 2 ^ 23 + (B % 2 ^ 5).toNat * 2 ^ 18 + (C % 2 ^ 5).toNat * 2 ^ 13 +
        (D % 2 ^ 5).toNat * 2 ^ 8 + Pb * 2 ^ 4) 4 0 Pr =
      .ok (0 + A * 2 ^ 23 + (B % 2 ^ 5).toNat * 2 ^ 18 + (C % 2 ^ 5).toNat * 2 ^ 13 +
        (D % 2 ^ 5).toNat * 2 ^ 8 + Pb * 2 ^ 4 + Pr * 2 ^ 0) :=
    newu_add (by decide) (by decide) (by omega) (by omega)
      (by omega)
  unfold apply_dct2word
  simp only [A_WIDTH, A_LSB, BCD_WIDTH, B_LSB, C_LSB, D_LSB, PBR_WIDTH, PB_LSB, PR_LSB,
    bind, Except.bind, e1, e2, e3, e4, e5, e6, pure, Except.pure]
  norm_num


/-- The fields read back from a word laid out as by `apply_dct2word`, for
unsigned field values `b`, `c`, `d` below 32. -/
theorem word2dct_fields {A b c d Pb Pr w : Nat} (hA : A ≤ 511) (hb : b < 32)
    (hc : c < 32) (hd : d < 32) (hPb : Pb ≤ 15) (hPr : Pr ≤ 15)
    (hw : A * 2 ^ 23 + b * 2 ^ 18 + c * 2 ^ 13 + d * 2 ^ 8 + Pb * 2 ^ 4 + Pr = w) :
    w / 2 ^ 23 % 2 ^ 9 = A ∧ w / 2 ^ 18 % 2 ^ 5 = b ∧ w / 2 ^ 13 % 2 ^ 5 = c ∧
      w / 2 ^ 8 % 2 ^ 5 = d ∧ w / 2 ^ 4 % 2 ^ 4 = Pb ∧ w / 2 ^ 0 % 2 ^ 4 = Pr := by
  subst hw
  refine ⟨?_, ?_, ?_, ?_, ?_, ?_⟩ <;> omega

/-- Sign extension of the 5-bit encoding of a value in `[-16, 15]`. -/
theorem sign_extend_five {B : Int} (hB : -16 ≤ B ∧ B ≤ 15) :
    (if (((B % 32).toNat : Nat) : Int) < 2 ^ (5 - 1) then (((B % 32).toNat : Nat) : Int)
      else (((B % 32).toNat : Nat) : Int) - 2 ^ 5) = B := by
  have h := sign_extend_encoding (w := 5) (v := B) (by decide) (by norm_num; omega)
    (by norm_num; omega)
  norm_num at h ⊢
  exact h

/-- The fields `apply_word2dct` reads from a word laid out as by
`apply_dct2word`. -/
theorem word2dct_eq {A Pb Pr : Nat} {B C D : Int} (hA : A ≤ 511)
    (hB : -16 ≤ B ∧ B ≤ 15) (hC : -16 ≤ C ∧ C ≤ 15) (hD : -16 ≤ D ∧ D ≤ 15)
    (hPb : Pb ≤ 15) (hPr : Pr ≤ 15) :
    apply_word2dct (A * 2 ^ 23 + (B % 32).toNat * 2 ^ 18 + (C % 32).toNat * 2 ^ 13 +
        (D % 32).toNat * 2 ^ 8 + Pb * 2 ^ 4 + Pr) =
      .ok { a := A, b := B, c := C, d := D, pb := Pb, pr := Pr } := by
  have hb : (B % 32).toNat < 32 := by omega
  have hc : (C % 32).toNat < 32 := by omega
  have hd : (D % 32).toNat < 32 := by omega
  obtain ⟨fa, fb, fc, fd, fpb, fpr⟩ := word2dct_fields hA hb hc hd hPb hPr rfl
  generalize A * 2 ^ 23 + (B % 32).toNat * 2 ^ 18 + (C % 32).toNat * 2 ^ 13 +
        (D % 32).toNat * 2 ^ 8 + Pb * 2 ^ 4 + Pr = w at fa fb fc fd fpb fpr ⊢
  have ga : Bitpack_getu w 9 23 = .ok A := by
    rw [getu_eq w (by decide), fa]
  have gb : Bitpack_gets w 5 18 = .ok B := by
    rw [gets_eq w (by decide) (by decide), fb, sign_extend_five hB]
  have gpb : Bitpack_getu w 4 4 = .ok Pb := by
    rw [getu_eq w (by decide), fpb]
  have gpr : Bitpack_getu w 4 0 = .ok Pr := by
    rw [getu_eq w (by decide), fpr]
  have gc : Bitpack_gets w 5 13 = .ok C := by
    rw [gets_eq w (by decide) (by decide), fc, sign_extend_five hC]
  have gd : Bitpack_gets w 5 8 = .ok D := by
    rw [gets_eq w (by decide) (by decide), fd, sign_extend_five hD]
  unfold apply_word2dct A_WIDTH A_LSB BCD_WIDTH B_LSB C_LSB D_LSB PBR_WIDTH PB_LSB PR_LSB
  rw [ga, gb, gc, gd, gpb, gpr]
  rfl

/-- C11: codeword layout.  For every quantized tuple with `0 ≤ A ≤ 511`,
`-16 ≤ B, C, D ≤ 15` and `0 ≤ Pb, Pr ≤ 15`, `apply_dct2word` returns the word
`A * 2 ^ 23 + (B mod 32) * 2 ^ 18 + (C mod 32) * 2 ^ 13 + (D mod 32) * 2 ^ 8 +
Pb * 2 ^ 4 + Pr`, which is below `2 ^ 32`; `A = 256` with all other fields 0
gives `0x80000000`. -/
theorem dct2word_layout (A Pb Pr : Nat) (B C D : Int) (hA : A ≤ 511)
    (hB : -16 ≤ B ∧ B ≤ 15) (hC : -16 ≤ C ∧ C ≤ 15) (hD : -16 ≤ D ∧ D ≤ 15)
    (hPb : Pb ≤ 15) (hPr : Pr ≤ 15) :
    apply_dct2word { a := A, b := B, c := C, d := D, pb := Pb, pr := Pr } =
      .ok (A * 2 ^ 23 + (B % 32).toNat * 2 ^ 18 + (C % 32).toNat * 2 ^ 13 +
        (D % 32).toNat * 2 ^ 8 + Pb * 2 ^ 4 + Pr) ∧
    A * 2 ^ 23 + (B % 32).toNat * 2 ^ 18 + (C % 32).toNat * 2 ^ 13 +
        (D % 32).toNat * 2 ^ 8 + Pb * 2 ^ 4 + Pr < 2 ^ 32 ∧
    apply_dct2word { a := 256, b := 0, c := 0, d := 0, pb := 0, pr := 0 } =
      .ok 0x80000000 := by
  refine ⟨dct2word_eq hA hB hC hD hPb hPr, by omega, by decide⟩

/-- Witness of C11 at `A = 300`, `B = -16`, `C = 15`, `D = -1`, `Pb = 7`,
`Pr = 15`. -/
theorem dct2word_layout_witness :
    apply_dct2word { a := 300, b := -16, c := 15, d := -1, pb := 7, pr := 15 } =
      .ok (300 * 2 ^ 23 + ((-16 : Int) % 32).toNat * 2 ^ 18 +
        ((15 : Int) % 32).toNat * 2 ^ 13 + ((-1 : Int) % 32).toNat * 2 ^ 8 +
        7 * 2 ^ 4 + 15) :=
  (dct2word_layout 300 7 15 (-16) 15 (-1) (by decide) (by decide) (by decide)
    (by decide) (by decide) (by decide)).1

/-- C12: unpacking reverses packing.  For every quantized tuple with
`0 ≤ A ≤ 511`, `-16 ≤ B, C, D ≤ 15` and `0 ≤ Pb, Pr ≤ 15`, `apply_dct2word`
returns a word and `apply_word2dct` of that word returns exactly the tuple. -/
theorem word2dct_dct2word (A Pb Pr : Nat) (B C D : Int) (hA : A ≤ 511)
    (hB : -16 ≤ B ∧ B ≤ 15) (hC : -16 ≤ C ∧ C ≤ 15) (hD : -16 ≤ D ∧ D ≤ 15)
    (hPb : Pb ≤ 15) (hPr : Pr ≤ 15) :
    ∃ word, apply_dct2word { a := A, b := B, c := C, d := D, pb := Pb, pr := Pr } =
        .ok word ∧
      apply_word2dct word = .ok { a := A, b := B, c := C, d := D, pb := Pb, pr := Pr } :=
  ⟨_, dct2word_eq hA hB hC hD hPb hPr, word2dct_eq hA hB hC hD hPb hPr⟩

/-- Witness of C12 at `A = 300`, `B = -16`, `C = 15`, `D = -1`, `Pb = 7`,
`Pr = 15`. -/
theorem word2dct_dct2word_witness :
    ∃ word, apply_dct2word { a := 300, b := -16, c := 15, d := -1, pb := 7, pr := 15 } =
        .ok word ∧
      apply_word2dct word =
        .ok { a := 300, b := -16, c := 15, d := -1, pb := 7, pr := 15 } :=
  word2dct_dct2word 300 7 15 (-16) 15 (-1) (by decide) (by decide) (by decide)
    (by decide) (by decide) (by decide)

/-! ## Quantization -/

section Quantization

variable {α : Type} [LinearOrderedField α] [FloorRing α]

omit [FloorRing α] in
/-- `Formulas_set_range` returns a value between its bounds. -/
theorem set_range_mem (pixel : α) {lower upper : α} (h : lower ≤ upper) :
    lower ≤ Formulas_set_range pixel lower upper ∧
      Formulas_set_range pixel lower upper ≤ upper := by
  unfold Formulas_set_range
  split_ifs with h1 h2
  · exact ⟨le_refl _, h⟩
  · exact ⟨h, le_refl _⟩
  · exact ⟨not_lt.mp h1, not_lt.mp h2⟩

/-- `roundf` is the nearest integer, a halfway case going away from zero. -/
theorem roundf_near (y : α) :
    (0 ≤ y → y - 1 / 2 < (roundf y : α) ∧ (roundf y : α) ≤ y + 1 / 2) ∧
    (y < 0 → y - 1 / 2 ≤ (roundf y : α) ∧ (roundf y : α) < y + 1 / 2) := by
  unfold roundf
  constructor
  · intro h
    rw [if_pos h]
    have h1 := Int.floor_le (y + 1 / 2)
    have h2 := Int.lt_floor_add_one (y + 1 / 2)
    constructor <;> linarith
  · intro h
    rw [if_neg (not_le.mpr h)]
    have h1 := Int.le_ceil (y - 1 / 2)
    have h2 := Int.ceil_lt_add_one (y - 1 / 2)
    constructor <;> linarith

/-- `roundf` keeps a value between two integers between them. -/
theorem roundf_mem {y : α} {lo hi : Int} (hlo : lo ≤ 0) (hhi : 0 ≤ hi)
    (h1 : (lo : α) ≤ y) (h2 : y ≤ (hi : α)) : lo ≤ roundf y ∧ roundf y ≤ hi := by
  unfold roundf
  split_ifs with h0
  · constructor
    · exact le_trans hlo (Int.floor_nonneg.mpr (by linarith))
    · have : ⌊y + 1 / 2⌋ < hi + 1 := by
        rw [Int.floor_lt]
        push_cast
        linarith
      omega
  · constructor
    · have : lo - 1 < ⌈y - 1 / 2⌉ := by
        rw [Int.lt_ceil]
        push_cast
        linarith
      omega
    · have : ⌈y - 1 / 2⌉ ≤ 0 := by
        rw [Int.ceil_le]
        push_cast
        linarith [not_le.mp h0]
      omega

/-- An integer rounds to itself. -/
theorem roundf_intCast (q : Int) : roundf (q : α) = q := by
  unfold roundf
  split_ifs with h
  · rw [Int.floor_eq_iff]
    constructor
    · linarith
    · linarith
  · rw [Int.ceil_eq_iff]
    constructor
    · linarith
    · linarith

/-- The conversion to `signed` keeps a value that an `int` holds. -/
theorem to_signed_id {n : Int} (h1 : -2 ^ 31 ≤ n) (h2 : n < 2 ^ 31) : to_signed n = n := by
  unfold to_signed
  rw [if_pos ⟨h1, h2⟩]

/-- Above the range of `int` the conversion to `signed` gives `INT_MIN`. -/
theorem to_signed_above {n : Int} (h : 2 ^ 31 ≤ n) : to_signed n = -2 ^ 31 := by
  unfold to_signed
  rw [if_neg (fun hc => by omega)]

/-- `Formulas_quantize` is the rounded value when an `int` holds it. -/
theorem quantize_eq (x denom upper : α) (h1 : -2 ^ 31 ≤ roundf ((x / denom) * upper))
    (h2 : roundf ((x / denom) * upper) < 2 ^ 31) :
    Formulas_quantize x denom upper = roundf ((x / denom) * upper) := by
  unfold Formulas_quantize
  exact to_signed_id h1 h2

/-- A value between `INT_MIN` and `INT_MAX` rounds to a value of `int`. -/
theorem roundf_int_range {y : α} (h1 : -2 ^ 31 ≤ y) (h2 : y ≤ 2 ^ 31 - 1) :
    -2 ^ 31 ≤ roundf y ∧ roundf y < 2 ^ 31 := by
  have h := roundf_mem (y := y) (show (-2 ^ 31 : Int) ≤ 0 by norm_num)
    (show (0 : Int) ≤ 2 ^ 31 - 1 by norm_num) (by push_cast; linarith) (by push_cast; linarith)
  omega

/-- The rounded `a` of a value in `[0, 1]` lies in `[0, 511]`. -/
theorem roundf_a_mem {a : α} (h0 : 0 ≤ a) (h1 : a ≤ 1) :
    0 ≤ roundf ((a / 1) * (A_RANGE : α)) ∧ roundf ((a / 1) * (A_RANGE : α)) ≤ 511 := by
  unfold A_RANGE
  apply roundf_mem (le_refl _) (by norm_num)
  · push_cast
    rw [div_one]
    positivity
  · push_cast
    rw [div_one]
    linarith

/-- The quantized `a` of a value in `[0, 1]` is the rounded value. -/
theorem quantize_a_eq {a : α} (h0 : 0 ≤ a) (h1 : a ≤ 1) :
    Formulas_quantize a 1 A_RANGE = roundf ((a / 1) * (A_RANGE : α)) := by
  obtain ⟨r0, r1⟩ := roundf_a_mem h0 h1
  exact quantize_eq a 1 A_RANGE (by omega) (by omega)

/-- The quantized `a` of a value in `[0, 1]` lies in `[0, 511]`. -/
theorem quantize_a_mem {a : α} (h0 : 0 ≤ a) (h1 : a ≤ 1) :
    0 ≤ Formulas_quantize a 1 A_RANGE ∧ Formulas_quantize a 1 A_RANGE ≤ 511 := by
  rw [quantize_a_eq h0 h1]
  exact roundf_a_mem h0 h1

/-- The rounded `b`, `c` or `d` of any value, after the clamp to `[-0.3, 0.3]`,
lies in `[-15, 15]`. -/
theorem roundf_bcd_mem (b : α) :
    -15 ≤ roundf ((Formulas_set_range b (-1 * BCD_DENOM) BCD_DENOM / BCD_DENOM) *
        (BCD_RANGE : α)) ∧
      roundf ((Formulas_set_range b (-1 * BCD_DENOM) BCD_DENOM / BCD_DENOM) *
        (BCD_RANGE : α)) ≤ 15 := by
  have hr : (-1 * BCD_DENOM : α) ≤ BCD_DENOM := by unfold BCD_DENOM; norm_num
  obtain ⟨h1, h2⟩ := set_range_mem b hr
  generalize Formulas_set_range b (-1 * BCD_DENOM) BCD_DENOM = x at h1 h2
  unfold BCD_DENOM at h1 h2
  unfold BCD_DENOM BCD_RANGE
  apply roundf_mem (by norm_num) (by norm_num)
  · push_cast
    rw [div_mul_eq_mul_div, le_div_iff₀ (by norm_num)]
    linarith
  · push_cast
    rw [div_mul_eq_mul_div, div_le_iff₀ (by norm_num)]
    linarith

/-- The quantized `b`, `c` or `d` of any value, after the clamp to
`[-0.3, 0.3]`, is the rounded value. -/
theorem quantize_bcd_eq (b : α) :
    Formulas_quantize (Formulas_set_range b (-1 * BCD_DENOM) BCD_DENOM) BCD_DENOM BCD_RANGE =
      roundf ((Formulas_set_range b (-1 * BCD_DENOM) BCD_DENOM / BCD_DENOM) *
        (BCD_RANGE : α)) := by
  obtain ⟨r0, r1⟩ := roundf_bcd_mem b
  exact quantize_eq _ BCD_DENOM BCD_RANGE (by omega) (by omega)

/-- The quantized `b`, `c` or `d` of any value, after the clamp to
`[-0.3, 0.3]`, lies in `[-15, 15]`. -/
theorem quantize_bcd_mem (b : α) :
    -15 ≤ Formulas_quantize (Formulas_set_range b (-1 * BCD_DENOM) BCD_DENOM)
        BCD_DENOM BCD_RANGE ∧
      Formulas_quantize (Formulas_set_range b (-1 * BCD_DENOM) BCD_DENOM)
        BCD_DENOM BCD_RANGE ≤ 15 := by
  rw [quantize_bcd_eq b]
  exact roundf_bcd_mem b


/-- C14, amended: quantized ranges, floats read as exact numbers.  For every
`x` whose rounded value `roundf ((x / denom) * upper)` is a value of `signed`
(from `-2 ^ 31` to `2 ^ 31 - 1`), `Formulas_quantize x denom upper` is that
rounded value, where `roundf` is the nearest integer with halfway cases away
from zero; for a block with `a` in `[0, 1]` the quantized `A` is
`roundf (a * 511)` and lies in `[0, 511]`; for every `b` the quantized `B` is
`roundf (clamp(b, -0.3, 0.3) / 0.3 * 15)` and lies in `[-15, 15]`, and the same
holds for `C` and `D`. -/
theorem quantize_ranges (index_of_chroma : α → Nat) (block : DCT α) (x denom upper : α)
    (hx : -2 ^ 31 ≤ roundf ((x / denom) * upper) ∧ roundf ((x / denom) * upper) < 2 ^ 31)
    (ha0 : 0 ≤ block.a) (ha1 : block.a ≤ 1) :
    Formulas_quantize x denom upper = roundf ((x / denom) * upper) ∧
    ((0 ≤ (x / denom) * upper →
        (x / denom) * upper - 1 / 2 < (Formulas_quantize x denom upper : α) ∧
        (Formulas_quantize x denom upper : α) ≤ (x / denom) * upper + 1 / 2) ∧
      ((x / denom) * upper < 0 →
        (x / denom) * upper - 1 / 2 ≤ (Formulas_quantize x denom upper : α) ∧
        (Formulas_quantize x denom upper : α) < (x / denom) * upper + 1 / 2)) ∧
    ((apply_quantize_dct index_of_chroma block).a : Int) = roundf (block.a * 511) ∧
    (apply_quantize_dct index_of_chroma block).a ≤ 511 ∧
    ((apply_quantize_dct index_of_chroma block).b =
        roundf (Formulas_set_range block.b (-(3 / 10)) (3 / 10) / (3 / 10) * 15) ∧
      -15 ≤ (apply_quantize_dct index_of_chroma block).b ∧
      (apply_quantize_dct index_of_chroma block).b ≤ 15) ∧
    ((apply_quantize_dct index_of_chroma block).c =
        roundf (Formulas_set_range block.c (-(3 / 10)) (3 / 10) / (3 / 10) * 15) ∧
      -15 ≤ (apply_quantize_dct index_of_chroma block).c ∧
      (apply_quantize_dct index_of_chroma block).c ≤ 15) ∧
    ((apply_quantize_dct index_of_chroma block).d =
        roundf (Formulas_set_range block.d (-(3 / 10)) (3 / 10) / (3 / 10) * 15) ∧
      -15 ≤ (apply_quantize_dct index_of_chroma block).d ∧
      (apply_quantize_dct index_of_chroma block).d ≤ 15) := by
  have hneg : (-1 * BCD_DENOM : α) = -(3 / 10) := by unfold BCD_DENOM; ring
  have hbcd : ∀ b : α,
      Formulas_quantize (Formulas_set_range b (-1 * BCD_DENOM) BCD_DENOM)
        BCD_DENOM BCD_RANGE =
      roundf (Formulas_set_range b (-(3 / 10)) (3 / 10) / (3 / 10) * 15) := by
    intro b
    rw [quantize_bcd_eq b, hneg]
    rfl
  obtain ⟨qa0, qa1⟩ := quantize_a_mem ha0 ha1
  have hA : ((to_u64 (Formulas_quantize block.a 1 A_RANGE) : Nat) : Int) =
      Formulas_quantize block.a 1 A_RANGE := by
    unfold to_u64
    omega
  have hA' : Formulas_quantize block.a 1 A_RANGE = roundf (block.a * 511) := by
    rw [quantize_a_eq ha0 ha1]
    unfold A_RANGE
    rw [div_one]
  have hq := quantize_eq x denom upper hx.1 hx.2
  refine ⟨hq, by rw [hq]; exact roundf_near _, ?_, ?_, ?_, ?_, ?_⟩
  · show ((to_u64 (Formulas_quantize block.a 1 A_RANGE) : Nat) : Int) = _
    rw [hA, hA']
  · show to_u64 (Formulas_quantize block.a 1 A_RANGE) ≤ 511
    omega
  · exact ⟨hbcd block.b, quantize_bcd_mem block.b⟩
  · exact ⟨hbcd block.c, quantize_bcd_mem block.c⟩
  · exact ⟨hbcd block.d, quantize_bcd_mem block.d⟩

/-- Witness of C14 on the rationals: the block with `a = 1/2` and
`b = c = d = 2/5`, and `x = 7/2`, `denom = 1`, `upper = 1`. -/
theorem quantize_ranges_witness :
    Formulas_quantize (7 / 2 : ℚ) 1 1 = roundf ((7 / 2 : ℚ) / 1 * 1) ∧
    ((apply_quantize_dct (fun _ => 0)
        ({ pb := 0, pr := 0, a := 1 / 2, b := 2 / 5, c := 2 / 5, d := 2 / 5 } : DCT ℚ)).a : Int) =
      roundf ((1 / 2 : ℚ) * 511) ∧
    (apply_quantize_dct (fun _ => 0)
        ({ pb := 0, pr := 0, a := 1 / 2, b := 2 / 5, c := 2 / 5, d := 2 / 5 } : DCT ℚ)).a ≤ 511 :=
  have h := quantize_ranges (fun _ => 0)
    ({ pb := 0, pr := 0, a := 1 / 2, b := 2 / 5, c := 2 / 5, d := 2 / 5 } : DCT ℚ)
    (7 / 2) 1 1 (roundf_int_range (by norm_num) (by norm_num)) (by norm_num) (by norm_num)
  ⟨h.1, h.2.2.1, h.2.2.2.1⟩

/-- Counterexample to C14 as stated: at `x = 5000000000`, `denom = upper = 1`
the rounded value is 5000000000, which no `signed` holds, and
`Formulas_quantize` returns `-2 ^ 31`. -/
theorem quantize_beyond_signed :
    roundf ((5000000000 : ℚ) / 1 * 1) = 5000000000 ∧
    Formulas_quantize (5000000000 : ℚ) 1 1 = -2 ^ 31 ∧
    Formulas_quantize (5000000000 : ℚ) 1 1 ≠ roundf ((5000000000 : ℚ) / 1 * 1) := by
  have hr : roundf ((5000000000 : ℚ) / 1 * 1) = 5000000000 := by
    have h := roundf_intCast (α := ℚ) 5000000000
    have e : (5000000000 : ℚ) / 1 * 1 = ((5000000000 : Int) : ℚ) := by norm_num
    rw [e]
    exact h
  have hq : Formulas_quantize (5000000000 : ℚ) 1 1 = -2 ^ 31 := by
    unfold Formulas_quantize
    rw [hr]
    exact to_signed_above (by norm_num)
  refine ⟨hr, hq, ?_⟩
  rw [hq, hr]
  norm_num

/-- C13: `Bitpack_Overflow` is unreachable in compression, floats read as exact
numbers.  For every block tuple `apply_cv2dct` produces from a cv grid and every
chroma quantizer with indices in `[0, 15]`, the fields `apply_quantize_dct`
produces pass `Bitpack_fitsu A 9`, `Bitpack_fitss B 5`, `Bitpack_fitss C 5`,
`Bitpack_fitss D 5`, `Bitpack_fitsu Pb 4` and `Bitpack_fitsu Pr 4`, and
`apply_dct2word` returns a word: no store raises. -/
theorem overflow_unreachable (index_of_chroma : α → Nat) (image : UArray2 (CVideo α))
    (i j : Nat) (block : DCT α) (hidx : ∀ x, index_of_chroma x ≤ 15)
    (hblock : apply_cv2dct i j image = .ok block) :
    Bitpack_fitsu (apply_quantize_dct index_of_chroma block).a A_WIDTH = .ok true ∧
    Bitpack_fitss (apply_quantize_dct index_of_chroma block).b BCD_WIDTH = .ok true ∧
    Bitpack_fitss (apply_quantize_dct index_of_chroma block).c BCD_WIDTH = .ok true ∧
    Bitpack_fitss (apply_quantize_dct index_of_chroma block).d BCD_WIDTH = .ok true ∧
    Bitpack_fitsu (apply_quantize_dct index_of_chroma block).pb PBR_WIDTH = .ok true ∧
    Bitpack_fitsu (apply_quantize_dct index_of_chroma block).pr PBR_WIDTH = .ok true ∧
    ∃ word, apply_dct2word (apply_quantize_dct index_of_chroma block) = .ok word := by
  have ha : (0 : α) ≤ block.a ∧ block.a ≤ 1 := by
    unfold apply_cv2dct at hblock
    simp only [bind, Except.bind, pure, Except.pure] at hblock
    split at hblock
    · cases hblock
    · injection hblock with hblock
      subst hblock
      exact set_range_mem _ (zero_le_one : (MIN_A : α) ≤ MAX_A)
  obtain ⟨qa0, qa1⟩ := quantize_a_mem ha.1 ha.2
  have hA : to_u64 (Formulas_quantize block.a 1 A_RANGE) ≤ 511 := by
    unfold to_u64
    omega
  have hb := quantize_bcd_mem block.b
  have hc := quantize_bcd_mem block.c
  have hd := quantize_bcd_mem block.d
  have hpb := hidx block.pb
  have hpr := hidx block.pr
  have fu : ∀ (v w : Nat), 1 ≤ w → w ≤ 63 → v < 2 ^ w → Bitpack_fitsu v w = .ok true := by
    intro v w h1 h2 h3
    rw [fitsu_eq v (by omega)]
    exact congrArg Except.ok (decide_eq_true (Or.inr ⟨h1, h2, h3⟩))
  have fs : ∀ (v : Int), -15 ≤ v ∧ v ≤ 15 → Bitpack_fitss v 5 = .ok true := by
    intro v hv
    rw [fitss_eq v (by decide)]
    exact congrArg Except.ok (decide_eq_true (Or.inr ⟨by decide, by decide,
      by norm_num; omega, by norm_num; omega⟩))
  refine ⟨fu _ _ (by decide) (by decide) ?_, fs _ hb, fs _ hc, fs _ hd,
    fu _ _ (by decide) (by decide) ?_, fu _ _ (by decide) (by decide) ?_, _,
    dct2word_eq hA ⟨by omega, hb.2⟩ ⟨by omega, hc.2⟩ ⟨by omega, hd.2⟩ hpb hpr⟩
  · show to_u64 (Formulas_quantize block.a 1 A_RANGE) < 2 ^ A_WIDTH
    unfold A_WIDTH
    omega
  · show index_of_chroma block.pb < 2 ^ PBR_WIDTH
    unfold PBR_WIDTH
    omega
  · show index_of_chroma block.pr < 2 ^ PBR_WIDTH
    unfold PBR_WIDTH
    omega


/-- Witness of C13 on the rationals: the single block of a 2 x 2 cv grid, with a
chroma quantizer that always returns 7. -/
theorem overflow_unreachable_witness :
    ∃ word, apply_dct2word (apply_quantize_dct (fun _ : ℚ => 7)
      { pb := Formulas_average [0, 1 / 4, -(1 / 4), 0] 4,
        pr := Formulas_average [0, 0, 1 / 2, 0] 4,
        a := Formulas_calculate_a 1 (1 / 2) 0 (3 / 4),
        b := Formulas_calculate_b 1 (1 / 2) 0 (3 / 4),
        c := Formulas_calculate_c 1 (1 / 2) 0 (3 / 4),
        d := Formulas_calculate_d 1 (1 / 2) 0 (3 / 4) }) = .ok word :=
  (overflow_unreachable (fun _ : ℚ => 7)
    { width := 2, height := 2,
      elems := [{ y := 1, pb := 0, pr := 0 }, { y := 1 / 2, pb := 1 / 4, pr := 0 },
        { y := 0, pb := -(1 / 4), pr := 1 / 2 }, { y := 3 / 4, pb := 0, pr := 0 }] }
    0 0 _ (fun _ => (by decide : (7 : Nat) ≤ 15)) rfl).2.2.2.2.2.2

end Quantization

/-! ## The compressed stream -/

/-- The loop of `apply_write_binary` ends at a negative `lsb`. -/
theorem write_loop_neg (word : Nat) {lsb : Int} (h : lsb < 0) :
    write_loop word lsb = .ok [] := by
  rw [write_loop, if_neg (by omega)]

/-- One round of the loop of `apply_write_binary` at a bit position of the
word. -/
theorem write_loop_step (word lsb : Nat) (h : 8 + lsb ≤ 64) :
    write_loop word (lsb : Int) =
      match write_loop word ((lsb : Int) - 8) with
      | .error e => .error e
      | .ok out => .ok (word / 2 ^ lsb % 2 ^ 8 :: out) := by
  have h1 : to_unsigned (lsb : Int) = lsb := by unfold to_unsigned; omega
  have h2 : to_int ((lsb : Int) - (BYTE_WIDTH : Nat)) = (lsb : Int) - 8 := by
    unfold to_int BYTE_WIDTH; omega
  rw [write_loop, if_pos (by omega), h1, h2]
  unfold BYTE_WIDTH
  rw [getu_eq word h]
  simp only [Nat.mod_mod]

/-- The four bytes `apply_write_binary` writes for a cell with code length 32. -/
theorem apply_write_binary_eq (cell : Nat) :
    apply_write_binary cell 32 =
      .ok [cell % 2 ^ 32 / 2 ^ 24 % 2 ^ 8, cell % 2 ^ 32 / 2 ^ 16 % 2 ^ 8,
        cell % 2 ^ 32 / 2 ^ 8 % 2 ^ 8, cell % 2 ^ 32 / 2 ^ 0 % 2 ^ 8] := by
  have hb : to_int ((32 : Int) - (BYTE_WIDTH : Nat)) = ((24 : Nat) : Int) := by decide
  unfold apply_write_binary
  simp only [hb]
  generalize cell % 2 ^ 32 = word
  have e0 : write_loop word (((0 : Nat) : Int) - 8) = .ok [] := write_loop_neg word (by decide)
  have e1 := write_loop_step word 0 (by decide)
  rw [e0] at e1
  have c1 : ((8 : Nat) : Int) - 8 = ((0 : Nat) : Int) := by decide
  have e2 := write_loop_step word 8 (by decide)
  rw [c1, e1] at e2
  have c2 : ((16 : Nat) : Int) - 8 = ((8 : Nat) : Int) := by decide
  have e3 := write_loop_step word 16 (by decide)
  rw [c2, e2] at e3
  have c3 : ((24 : Nat) : Int) - 8 = ((16 : Nat) : Int) := by decide
  have e4 := write_loop_step word 24 (by decide)
  rw [c3, e3] at e4
  exact e4

/-- C15: for every codeword `w < 2 ^ 32` in a grid cell and code length 32,
`apply_write_binary` writes exactly four bytes, most significant first:
`w / 2 ^ 24 mod 256`, `w / 2 ^ 16 mod 256`, `w / 2 ^ 8 mod 256`, `w mod 256`;
`0x80000000` is written as `80 00 00 00`. -/
theorem write_binary_big_endian (w : Nat) (hw : w < 2 ^ 32) :
    apply_write_binary w 32 =
      .ok [w / 2 ^ 24 % 256, w / 2 ^ 16 % 256, w / 2 ^ 8 % 256, w % 256] ∧
    apply_write_binary 0x80000000 32 = .ok [0x80, 0x00, 0x00, 0x00] := by
  have h1 := apply_write_binary_eq w
  have h2 := apply_write_binary_eq 0x80000000
  rw [Nat.mod_eq_of_lt hw] at h1
  norm_num at h1 h2
  exact ⟨h1, h2⟩

/-- Witness of C15 at `w = 0x01020304`. -/
theorem write_binary_big_endian_witness :
    apply_write_binary 0x01020304 32 =
      .ok [0x01020304 / 2 ^ 24 % 256, 0x01020304 / 2 ^ 16 % 256,
        0x01020304 / 2 ^ 8 % 256, 0x01020304 % 256] :=
  (write_binary_big_endian 0x01020304 (by decide)).1


/-- The bytes `small_map_write` writes for code length 32: four per cell, in the
order of the cells. -/
theorem small_map_write_eq (cells : List Nat) :
    small_map_write 32 cells =
      .ok (cells.map (fun cell => [cell % 2 ^ 32 / 2 ^ 24 % 2 ^ 8,
        cell % 2 ^ 32 / 2 ^ 16 % 2 ^ 8, cell % 2 ^ 32 / 2 ^ 8 % 2 ^ 8,
        cell % 2 ^ 32 / 2 ^ 0 % 2 ^ 8])).flatten := by
  induction cells with
  | nil => rfl
  | cons cell cells ih =>
    unfold small_map_write
    rw [apply_write_binary_eq cell, ih]
    rfl

/-- Four bytes are written per cell. -/
theorem length_flatten_four {β : Type} (f : β → List Nat) (hf : ∀ x, (f x).length = 4)
    (cells : List β) : (cells.map f).flatten.length = 4 * cells.length := by
  induction cells with
  | nil => rfl
  | cons cell cells ih =>
    rw [List.map_cons, List.flatten_cons, List.length_append, ih, hf, List.length_cons]
    omega

/-- The header `fprintf` writes for the format `HEADER`. -/
theorem fprintf_header (width height : Nat) :
    fprintf (c_str HEADER) [width, height] =
      c_str "COMP40 Compressed image format 2\n" ++
        (print_unsigned width ++ 32 :: print_unsigned height) := by
  have h1 : c_str HEADER = [67, 79, 77, 80, 52, 48, 32, 67, 111, 109, 112, 114, 101, 115,
      115, 101, 100, 32, 105, 109, 97, 103, 101, 32, 102, 111, 114, 109, 97, 116, 32, 50,
      10, 37, 117, 32, 37, 117] := by decide
  have h2 : c_str "COMP40 Compressed image format 2\n" = [67, 79, 77, 80, 52, 48, 32, 67,
      111, 109, 112, 114, 101, 115, 115, 101, 100, 32, 105, 109, 97, 103, 101, 32, 102,
      111, 114, 109, 97, 116, 32, 50, 10] := by decide
  rw [h1, h2]
  simp [fprintf]

/-- The two streams `IO_write_binary` writes for block size 2 and code length
32. -/
theorem write_binary_eq (image : UArray2 Nat) (hw : 2 * image.width < 2 ^ 31)
    (hh : 2 * image.height < 2 ^ 31) :
    IO_write_binary image 2 32 =
      .ok (c_str "COMP40 Compressed image format 2\n" ++
          (print_unsigned (2 * image.width) ++ 32 :: print_unsigned (2 * image.height)) ++
          [10],
        (image.elems.map (fun cell => [cell % 2 ^ 32 / 2 ^ 24 % 2 ^ 8,
          cell % 2 ^ 32 / 2 ^ 16 % 2 ^ 8, cell % 2 ^ 32 / 2 ^ 8 % 2 ^ 8,
          cell % 2 ^ 32 / 2 ^ 0 % 2 ^ 8])).flatten) := by
  have h1 : to_unsigned (to_int ((image.width : Int) * 2)) = 2 * image.width := by
    unfold to_unsigned to_int; omega
  have h2 : to_unsigned (to_int ((image.height : Int) * 2)) = 2 * image.height := by
    unfold to_unsigned to_int; omega
  unfold IO_write_binary
  simp only [h1, h2, small_map_write_eq, fprintf_header, DELIMITER]


/-- The numeral `%u` prints is the decimal representation of the value. -/
theorem print_unsigned_eq (n : Nat) : print_unsigned n = c_str (toString n) := by
  rfl

/-- C16: for every codeword grid of block width `bw` and block height `bh`,
`IO_write_binary` with block size 2 and code length 32 writes to `fp` exactly
the header `COMP40 Compressed image format 2`, a newline, `2 * bw` and
`2 * bh` in decimal separated by one space, and one newline, and writes to
standard output exactly `4 * bw * bh` bytes, the codewords in row-major order,
four bytes each; with `fp = stdout` the stream is the header followed by these
bytes.  A 4 x 2 image (two blocks) gives the header with `4 2` followed by
exactly 8 bytes. -/
theorem write_binary_stream (image : UArray2 Nat)
    (hwf : image.elems.length = image.width * image.height)
    (hw : 2 * image.width < 2 ^ 31) (hh : 2 * image.height < 2 ^ 31) :
    (∃ written, IO_write_binary image 2 32 = .ok written ∧
      written.1 = c_str "COMP40 Compressed image format 2\n" ++
        c_str (toString (2 * image.width)) ++ c_str " " ++
        c_str (toString (2 * image.height)) ++ c_str "\n" ∧
      written.2 = (image.elems.map (fun w => [w % 2 ^ 32 / 2 ^ 24 % 256,
        w % 2 ^ 32 / 2 ^ 16 % 256, w % 2 ^ 32 / 2 ^ 8 % 256, w % 2 ^ 32 % 256])).flatten ∧
      written.2.length = 4 * image.width * image.height ∧
      stdout_of written = written.1 ++ written.2) ∧
    (∀ c0 c1 : Nat, ∃ body,
      IO_write_binary { width := 2, height := 1, elems := [c0, c1] } 2 32 =
        .ok (c_str "COMP40 Compressed image format 2\n4 2\n", body) ∧
      body.length = 8) := by
  constructor
  · refine ⟨_, write_binary_eq image hw hh, ?_, ?_, ?_, rfl⟩
    · show _ ++ (print_unsigned _ ++ 32 :: print_unsigned _) ++ [10] = _
      rw [print_unsigned_eq, print_unsigned_eq]
      have h1 : c_str " " = [32] := by decide
      have h2 : c_str "\n" = [10] := by decide
      rw [h1, h2]
      simp only [List.append_assoc, List.singleton_append]
    · show List.flatten _ = List.flatten _
      norm_num
    · refine (length_flatten_four _ ?_ image.elems).trans ?_
      · intro cell
        rfl
      · rw [hwf, Nat.mul_assoc]
  · intro c0 c1
    have hhdr : c_str "COMP40 Compressed image format 2\n" ++
        (print_unsigned (2 * 2) ++ 32 :: print_unsigned (2 * 1)) ++ [10] =
        c_str "COMP40 Compressed image format 2\n4 2\n" := by decide
    have h := write_binary_eq { width := 2, height := 1, elems := [c0, c1] }
      (show 2 * 2 < 2 ^ 31 by decide) (show 2 * 1 < 2 ^ 31 by decide)
    exact ⟨_, h.trans (congrArg Except.ok (Prod.ext hhdr rfl)), rfl⟩

/-- Witness of C16: the 1 x 1 block grid holding `0x80000000`. -/
theorem write_binary_stream_witness :
    ∃ written, IO_write_binary { width := 1, height := 1, elems := [0x80000000] } 2 32 =
        .ok written ∧
      written.1 = c_str "COMP40 Compressed image format 2\n" ++
        c_str (toString (2 * 1)) ++ c_str " " ++ c_str (toString (2 * 1)) ++ c_str "\n" ∧
      written.2 = ([0x80000000].map (fun w => [w % 2 ^ 32 / 2 ^ 24 % 256,
        w % 2 ^ 32 / 2 ^ 16 % 256, w % 2 ^ 32 / 2 ^ 8 % 256, w % 2 ^ 32 % 256])).flatten ∧
      written.2.length = 4 * 1 * 1 ∧
      stdout_of written = written.1 ++ written.2 :=
  (write_binary_stream { width := 1, height := 1, elems := [0x80000000] } (by decide)
    (by decide) (by decide)).1


/-- The loop of `apply_read_binary` ends at a negative `lsb` without reading. -/
theorem read_loop_neg (fp : List Nat) (word : Nat) {lsb : Int} (h : lsb < 0) :
    read_loop fp word lsb = .ok (word, fp) := by
  cases fp with
  | nil => rw [read_loop, if_neg (by omega)]
  | cons byte fp => rw [read_loop, if_neg (by omega)]

/-- One round of the loop of `apply_read_binary`: the byte read is added at bit
`lsb` of a word whose bits below `lsb + 8` are clear. -/
theorem read_loop_step (fp : List Nat) {word byte : Nat} (lsb : Nat) (h : 8 + lsb ≤ 64)
    (hb : byte < 256) (hword : word < 2 ^ 64) (hz : word % 2 ^ (lsb + 8) = 0) :
    read_loop (byte :: fp) word (lsb : Int) =
      read_loop fp (word + byte * 2 ^ lsb) ((lsb : Int) - 8) := by
  have h1 : to_unsigned (lsb : Int) = lsb := by unfold to_unsigned; omega
  have h2 : to_int ((lsb : Int) - (BYTE_WIDTH : Nat)) = (lsb : Int) - 8 := by
    unfold to_int BYTE_WIDTH; omega
  rw [read_loop, if_pos (by omega), h1, h2]
  unfold BYTE_WIDTH
  rw [newu_add (by decide) h (by omega) hword hz]

/-- The word `apply_read_binary` builds from four bytes, most significant
first, and the stream it leaves. -/
theorem apply_read_binary_eq (b3 b2 b1 b0 : Nat) (rest : List Nat) (h3 : b3 < 256)
    (h2 : b2 < 256) (h1 : b1 < 256) (h0 : b0 < 256) :
    apply_read_binary 32 (b3 :: b2 :: b1 :: b0 :: rest) =
      .ok (b3 * 2 ^ 24 + b2 * 2 ^ 16 + b1 * 2 ^ 8 + b0, rest) := by
  have hb : to_int ((32 : Int) - (BYTE_WIDTH : Nat)) = ((24 : Nat) : Int) := by decide
  have c3 : ((24 : Nat) : Int) - 8 = ((16 : Nat) : Int) := by decide
  have c2 : ((16 : Nat) : Int) - 8 = ((8 : Nat) : Int) := by decide
  have c1 : ((8 : Nat) : Int) - 8 = ((0 : Nat) : Int) := by decide
  unfold apply_read_binary
  simp only [hb]
  rw [read_loop_step _ 24 (by decide) h3 (by decide) (by decide), c3,
    read_loop_step _ 16 (by decide) h2 (by omega) (by omega), c2,
    read_loop_step _ 8 (by decide) h1 (by omega) (by omega), c1,
    read_loop_step _ 0 (by decide) h0 (by omega) (by omega),
    read_loop_neg _ _ (by decide)]
  refine congrArg Except.ok (Prod.ext ?_ rfl)
  show 0 + b3 * 2 ^ 24 + b2 * 2 ^ 16 + b1 * 2 ^ 8 + b0 * 2 ^ 0 = _
  omega

/-- On a stream of fewer than four bytes `apply_read_binary` fails its
assertion: `getc` returns `EOF`. -/
theorem apply_read_binary_short (fp : List Nat) (hlen : fp.length < 4)
    (hb : ∀ b ∈ fp, b < 256) :
    apply_read_binary 32 fp = .error .Assert_Failed := by
  have hh : to_int ((32 : Int) - (BYTE_WIDTH : Nat)) = ((24 : Nat) : Int) := by decide
  have c3 : ((24 : Nat) : Int) - 8 = ((16 : Nat) : Int) := by decide
  have c2 : ((16 : Nat) : Int) - 8 = ((8 : Nat) : Int) := by decide
  have c1 : ((8 : Nat) : Int) - 8 = ((0 : Nat) : Int) := by decide
  have hnil : ∀ (word : Nat) (lsb : Nat),
      read_loop [] word (lsb : Int) = .error .Assert_Failed := by
    intro word lsb
    rw [read_loop, if_pos (by omega)]
  unfold apply_read_binary
  simp only [hh]
  match fp, hlen, hb with
  | [], _, _ => exact hnil _ _
  | [b3], _, hb =>
    have h3 : b3 < 256 := hb b3 (by simp)
    rw [read_loop_step _ 24 (by decide) h3 (by decide) (by decide), c3]
    exact hnil _ _
  | [b3, b2], _, hb =>
    have h3 : b3 < 256 := hb b3 (by simp)
    have h2 : b2 < 256 := hb b2 (by simp)
    rw [read_loop_step _ 24 (by decide) h3 (by decide) (by decide), c3,
      read_loop_step _ 16 (by decide) h2 (by omega) (by omega), c2]
    exact hnil _ _
  | [b3, b2, b1], _, hb =>
    have h3 : b3 < 256 := hb b3 (by simp)
    have h2 : b2 < 256 := hb b2 (by simp)
    have h1 : b1 < 256 := hb b1 (by simp)
    rw [read_loop_step _ 24 (by decide) h3 (by decide) (by decide), c3,
      read_loop_step _ 16 (by decide) h2 (by omega) (by omega), c2,
      read_loop_step _ 8 (by decide) h1 (by omega) (by omega), c1]
    exact hnil _ _
  | _ :: _ :: _ :: _ :: _, hlen, _ =>
    simp only [List.length_cons] at hlen
    omega


/-- A stream with fewer than `4 * cells` bytes makes `small_map_read` fail an
assertion. -/
theorem small_map_read_short (cells : Nat) (fp : List Nat) (hlen : fp.length < 4 * cells)
    (hb : ∀ b ∈ fp, b < 256) :
    small_map_read 32 cells fp = .error .Assert_Failed := by
  induction cells generalizing fp with
  | zero => omega
  | succ n ih =>
    unfold small_map_read
    match fp, hlen, hb with
    | b3 :: b2 :: b1 :: b0 :: rest, hlen, hb =>
      rw [apply_read_binary_eq b3 b2 b1 b0 rest (hb b3 (by simp)) (hb b2 (by simp))
        (hb b1 (by simp)) (hb b0 (by simp))]
      have hrest : rest.length < 4 * n := by
        simp only [List.length_cons] at hlen
        omega
      simp only [ih rest hrest (fun b hm => hb b (by simp [hm]))]
    | [], _, hb => rw [apply_read_binary_short [] (by simp) hb]
    | [_], _, hb => rw [apply_read_binary_short _ (by simp) hb]
    | [_, _], _, hb => rw [apply_read_binary_short _ (by simp) hb]
    | [_, _, _], _, hb => rw [apply_read_binary_short _ (by simp) hb]

/-- A stream with at least `4 * cells` bytes is read into `cells` words, each
built from four bytes in turn, most significant first; the bytes after them are
left unread. -/
theorem small_map_read_ok (cells : Nat) (fp : List Nat) (hlen : 4 * cells ≤ fp.length)
    (hb : ∀ b ∈ fp, b < 256) :
    ∃ words, small_map_read 32 cells fp = .ok (words, fp.drop (4 * cells)) ∧
      words.length = cells ∧
      ∀ k, k < cells → words.getD k 0 =
        fp.getD (4 * k) 0 * 2 ^ 24 + fp.getD (4 * k + 1) 0 * 2 ^ 16 +
          fp.getD (4 * k + 2) 0 * 2 ^ 8 + fp.getD (4 * k + 3) 0 := by
  induction cells generalizing fp with
  | zero => exact ⟨[], rfl, rfl, fun k hk => absurd hk (Nat.not_lt_zero k)⟩
  | succ n ih =>
    match fp, hlen, hb with
    | b3 :: b2 :: b1 :: b0 :: rest, hlen, hb =>
      have hrest : 4 * n ≤ rest.length := by
        simp only [List.length_cons] at hlen
        omega
      obtain ⟨words, hw, hl, hk⟩ := ih rest hrest (fun b hm => hb b (by simp [hm]))
      refine ⟨(b3 * 2 ^ 24 + b2 * 2 ^ 16 + b1 * 2 ^ 8 + b0) :: words, ?_, ?_, ?_⟩
      · unfold small_map_read
        rw [apply_read_binary_eq b3 b2 b1 b0 rest (hb b3 (by simp)) (hb b2 (by simp))
          (hb b1 (by simp)) (hb b0 (by simp))]
        simp only [hw]
        have : 4 * (n + 1) = 4 * n + 1 + 1 + 1 + 1 := by omega
        rw [this]
        rfl
      · rw [List.length_cons, hl]
      · intro k hlt
        cases k with
        | zero => rfl
        | succ k =>
          have e0 : 4 * (k + 1) = 4 * k + 1 + 1 + 1 + 1 := by omega
          have e1 : 4 * (k + 1) + 1 = 4 * k + 1 + 1 + 1 + 1 + 1 := by omega
          have e2 : 4 * (k + 1) + 2 = 4 * k + 2 + 1 + 1 + 1 + 1 := by omega
          have e3 : 4 * (k + 1) + 3 = 4 * k + 3 + 1 + 1 + 1 + 1 := by omega
          rw [e1, e2, e3, e0]
          simp only [List.getD_cons_succ]
          exact hk k (by omega)
    | [], hlen, _ => simp only [List.length_nil] at hlen; omega
    | [_], hlen, _ => simp only [List.length_cons, List.length_nil] at hlen; omega
    | [_, _], hlen, _ => simp only [List.length_cons, List.length_nil] at hlen; omega
    | [_, _, _], hlen, _ => simp only [List.length_cons, List.length_nil] at hlen; omega

/-- Reading back the bytes written for a list of codewords below `2 ^ 32` gives
the codewords, and leaves the bytes that follow. -/
theorem small_map_read_written (cells rest : List Nat) (hc : ∀ w ∈ cells, w < 2 ^ 32) :
    small_map_read 32 cells.length
        ((cells.map (fun cell => [cell % 2 ^ 32 / 2 ^ 24 % 2 ^ 8,
          cell % 2 ^ 32 / 2 ^ 16 % 2 ^ 8, cell % 2 ^ 32 / 2 ^ 8 % 2 ^ 8,
          cell % 2 ^ 32 / 2 ^ 0 % 2 ^ 8])).flatten ++ rest) =
      .ok (cells, rest) := by
  induction cells with
  | nil => rfl
  | cons cell cells ih =>
    have hlt : cell < 2 ^ 32 := hc cell (by simp)
    rw [List.map_cons, List.flatten_cons, List.length_cons]
    unfold small_map_read
    simp only [List.cons_append, List.nil_append]
    rw [apply_read_binary_eq (cell % 2 ^ 32 / 2 ^ 24 % 2 ^ 8) (cell % 2 ^ 32 / 2 ^ 16 % 2 ^ 8)
      (cell % 2 ^ 32 / 2 ^ 8 % 2 ^ 8) (cell % 2 ^ 32 / 2 ^ 0 % 2 ^ 8) _ (by omega) (by omega)
      (by omega) (by omega)]
    simp only [ih (fun w hm => hc w (by simp [hm]))]
    refine congrArg Except.ok (Prod.ext ?_ rfl)
    show _ :: cells = cell :: cells
    congr 1
    omega


/-- The byte of a decimal digit. -/
theorem digitChar_toNat : ∀ d, d < 10 → (Nat.digitChar d).toNat = 48 + d := by
  decide

/-- Scanning a printed numeral accumulates its value. -/
theorem scan_digits_toDigitsCore (fuel : Nat) :
    ∀ (n : Nat) (ds : List Char), n < fuel → ∃ k, ∀ (acc : Nat) (rest : List Nat),
      scan_digits acc ((Nat.toDigitsCore 10 fuel n ds).map Char.toNat ++ rest) =
        scan_digits (acc * 10 ^ k + n) (ds.map Char.toNat ++ rest) := by
  induction fuel with
  | zero => intro n ds h; omega
  | succ fuel ih =>
    intro n ds hn
    have hd : (Nat.digitChar (n % 10)).toNat = 48 + n % 10 :=
      digitChar_toNat _ (Nat.mod_lt _ (by decide))
    have hdig : isdigit (48 + n % 10) = true := by
      have : n % 10 < 10 := Nat.mod_lt _ (by decide)
      simp only [isdigit, Bool.and_eq_true, decide_eq_true_eq]
      omega
    unfold Nat.toDigitsCore
    by_cases h0 : n / 10 = 0
    · refine ⟨1, fun acc rest => ?_⟩
      simp only [h0, if_true, List.map_cons, List.cons_append, hd]
      rw [scan_digits, if_pos hdig]
      congr 1
      omega
    · obtain ⟨k, hk⟩ := ih (n / 10) (Nat.digitChar (n % 10) :: ds) (by omega)
      refine ⟨k + 1, fun acc rest => ?_⟩
      simp only [h0, if_false]
      rw [hk acc rest]
      simp only [List.map_cons, List.cons_append, hd]
      rw [scan_digits, if_pos hdig]
      congr 1
      rw [pow_succ]
      have := Nat.div_add_mod n 10
      have e : acc * (10 ^ k * 10) = acc * 10 ^ k * 10 := by ring
      omega

/-- A printed numeral starts with a digit. -/
theorem toDigitsCore_head (fuel : Nat) :
    ∀ (n : Nat) (ds : List Char), ∃ d tl,
      (Nat.toDigitsCore 10 (fuel + 1) n ds).map Char.toNat = d :: tl ∧ isdigit d = true := by
  induction fuel with
  | zero =>
    intro n ds
    have hd : (Nat.digitChar (n % 10)).toNat = 48 + n % 10 :=
      digitChar_toNat _ (Nat.mod_lt _ (by decide))
    have hdig : isdigit (48 + n % 10) = true := by
      have : n % 10 < 10 := Nat.mod_lt _ (by decide)
      simp only [isdigit, Bool.and_eq_true, decide_eq_true_eq]
      omega
    unfold Nat.toDigitsCore
    by_cases h0 : n / 10 = 0
    · refine ⟨48 + n % 10, ds.map Char.toNat, ?_, hdig⟩
      simp only [h0, if_true, List.map_cons, hd]
    · refine ⟨48 + n % 10, ds.map Char.toNat, ?_, hdig⟩
      simp only [h0, if_false]
      unfold Nat.toDigitsCore
      simp only [List.map_cons, hd]
  | succ fuel ih =>
    intro n ds
    have hd : (Nat.digitChar (n % 10)).toNat = 48 + n % 10 :=
      digitChar_toNat _ (Nat.mod_lt _ (by decide))
    have hdig : isdigit (48 + n % 10) = true := by
      have : n % 10 < 10 := Nat.mod_lt _ (by decide)
      simp only [isdigit, Bool.and_eq_true, decide_eq_true_eq]
      omega
    rw [Nat.toDigitsCore]
    by_cases h0 : n / 10 = 0
    · refine ⟨48 + n % 10, ds.map Char.toNat, ?_, hdig⟩
      simp only [h0, if_true, List.map_cons, hd]
    · simp only [h0, if_false]
      exact ih (n / 10) _

/-- A byte that is a digit is neither white space nor a sign. -/
theorem isdigit_not_space {d : Nat} (h : isdigit d = true) :
    isspace d = false ∧ d ≠ 45 ∧ d ≠ 43 := by
  simp only [isdigit, Bool.and_eq_true, decide_eq_true_eq] at h
  refine ⟨?_, by omega, by omega⟩
  simp only [isspace, Bool.or_eq_false_iff, beq_eq_false_iff_ne, ne_eq,
    Bool.and_eq_false_iff, decide_eq_false_iff_not]
  omega

/-- A `%u` conversion on a printed numeral followed by a byte that is not a
digit reads the numeral and stops at that byte. -/
theorem scan_unsigned_print (n c : Nat) (rest : List Nat) (hn : n < 2 ^ 32)
    (hc : isdigit c = false) :
    scan_unsigned (print_unsigned n ++ c :: rest) = some (n, c :: rest) := by
  obtain ⟨d, tl, hd, hdig⟩ := toDigitsCore_head n n []
  obtain ⟨k, hk⟩ := scan_digits_toDigitsCore (n + 1) n [] (by omega)
  obtain ⟨hs, h45, h43⟩ := isdigit_not_space hdig
  have hval := hk 0 (c :: rest)
  simp only [List.map_nil, List.nil_append, Nat.zero_mul, Nat.zero_add] at hval
  rw [scan_digits, if_neg (by simp [hc])] at hval
  have hp : print_unsigned n = d :: tl := hd
  have hval' : scan_digits 0 (d :: (tl ++ c :: rest)) = (n, c :: rest) := by
    rw [← List.cons_append, ← hp]
    exact hval
  unfold scan_unsigned
  rw [hp, List.cons_append]
  rw [skip_space, if_neg (by simp [hs])]
  rw [scan_sign, if_neg h45, if_neg h43]
  simp only [hdig, if_true, hval', Bool.false_eq_true, if_false]
  congr 2
  unfold to_unsigned
  omega

/-- White space is not skipped past a printed numeral. -/
theorem skip_space_print (n : Nat) (rest : List Nat) :
    skip_space (print_unsigned n ++ rest) = print_unsigned n ++ rest := by
  obtain ⟨d, tl, hd, hdig⟩ := toDigitsCore_head n n []
  have hp : print_unsigned n = d :: tl := hd
  rw [hp, List.cons_append, skip_space, if_neg (by simp [(isdigit_not_space hdig).1])]


/-- The directives of the format `HEADER`. -/
theorem parse_format_header :
    parse_format (c_str HEADER) =
      [Directive.lit 67, Directive.lit 79, Directive.lit 77, Directive.lit 80,
        Directive.lit 52, Directive.lit 48, Directive.space,
        Directive.lit 67, Directive.lit 111, Directive.lit 109, Directive.lit 112,
        Directive.lit 114, Directive.lit 101, Directive.lit 115, Directive.lit 115,
        Directive.lit 101, Directive.lit 100, Directive.space,
        Directive.lit 105, Directive.lit 109, Directive.lit 97, Directive.lit 103,
        Directive.lit 101, Directive.space,
        Directive.lit 102, Directive.lit 111, Directive.lit 114, Directive.lit 109,
        Directive.lit 97, Directive.lit 116, Directive.space,
        Directive.lit 50, Directive.space, Directive.conv_u, Directive.space,
        Directive.conv_u] := by
  decide

/-- `fscanf` on the header `IO_write_binary` writes assigns the two dimensions
and stops before the delimiter. -/
theorem fscanf_written (w h : Nat) (body : List Nat) (hw : w < 2 ^ 32) (hh : h < 2 ^ 32) :
    fscanf (c_str HEADER) (c_str "COMP40 Compressed image format 2\n" ++
        (print_unsigned w ++ 32 :: print_unsigned h) ++ [10] ++ body) =
      ([w, h], 10 :: body) := by
  have h2 : c_str "COMP40 Compressed image format 2\n" = [67, 79, 77, 80, 52, 48, 32, 67,
      111, 109, 112, 114, 101, 115, 115, 101, 100, 32, 105, 109, 97, 103, 101, 32, 102,
      111, 114, 109, 97, 116, 32, 50, 10] := by decide
  have e1 := scan_unsigned_print w 32 (print_unsigned h ++ 10 :: body) hw (by decide)
  have e2 := scan_unsigned_print h 10 body hh (by decide)
  have e3 := skip_space_print w (32 :: (print_unsigned h ++ 10 :: body))
  have e4 := skip_space_print h (10 :: body)
  unfold fscanf
  rw [parse_format_header, h2]
  simp [run_format, skip_space, isspace, e1, e2, e3, e4]


/-- After a header that declares `W` and `H`, `IO_read_binary` with block size
2 reads `(W / 2) * (H / 2)` cells from the bytes that follow the delimiter. -/
theorem read_binary_of_scan {input body : List Nat} {W H : Nat}
    (hscan : fscanf (c_str HEADER) input = ([W, H], 10 :: body)) :
    IO_read_binary input 2 32 =
      match small_map_read 32 (W / 2 * (H / 2)) body with
      | .error e => .error e
      | .ok r => .ok { width := W / 2, height := H / 2, elems := r.1 } := by
  have h2 : to_unsigned 2 = 2 := by decide
  unfold IO_read_binary
  simp only [hscan, DELIMITER, if_true, h2]

/-- C17: wire round trip.  For every grid of codewords below `2 ^ 32` (with
`width * height` cells and dimensions whose doubles are values of `int`),
`IO_read_binary` applied to the stream `IO_write_binary` writes with block size
2 and code length 32 returns the same grid: same width, same height and the
same codeword in every cell.  Per word, the four bytes `b3 b2 b1 b0` read in
order are rebuilt into `b3 * 2 ^ 24 + b2 * 2 ^ 16 + b1 * 2 ^ 8 + b0`. -/
theorem read_write_roundtrip (image : UArray2 Nat)
    (hwf : image.elems.length = image.width * image.height)
    (hc : ∀ w ∈ image.elems, w < 2 ^ 32)
    (hw : 2 * image.width < 2 ^ 31) (hh : 2 * image.height < 2 ^ 31) :
    (∃ written, IO_write_binary image 2 32 = .ok written ∧
      IO_read_binary (stdout_of written) 2 32 = .ok image) ∧
    (∀ b3 b2 b1 b0 : Nat, ∀ rest : List Nat, b3 < 256 → b2 < 256 → b1 < 256 → b0 < 256 →
      apply_read_binary 32 (b3 :: b2 :: b1 :: b0 :: rest) =
        .ok (b3 * 2 ^ 24 + b2 * 2 ^ 16 + b1 * 2 ^ 8 + b0, rest)) := by
  refine ⟨⟨_, write_binary_eq image hw hh, ?_⟩, fun b3 b2 b1 b0 rest h3 h2 h1 h0 =>
    apply_read_binary_eq b3 b2 b1 b0 rest h3 h2 h1 h0⟩
  have hscan := fscanf_written (2 * image.width) (2 * image.height)
    ((image.elems.map (fun cell => [cell % 2 ^ 32 / 2 ^ 24 % 2 ^ 8,
      cell % 2 ^ 32 / 2 ^ 16 % 2 ^ 8, cell % 2 ^ 32 / 2 ^ 8 % 2 ^ 8,
      cell % 2 ^ 32 / 2 ^ 0 % 2 ^ 8])).flatten) (by omega) (by omega)
  have hread := small_map_read_written image.elems [] hc
  rw [List.append_nil, hwf] at hread
  have e1 : 2 * image.width / 2 = image.width := by omega
  have e2 : 2 * image.height / 2 = image.height := by omega
  unfold stdout_of
  rw [read_binary_of_scan hscan, e1, e2, hread]

/-- Witness of C17: the 2 x 1 grid holding `0x80000000` and `0x01020304`. -/
theorem read_write_roundtrip_witness :
    ∃ written,
      IO_write_binary { width := 2, height := 1, elems := [0x80000000, 0x01020304] } 2 32 =
        .ok written ∧
      IO_read_binary (stdout_of written) 2 32 =
        .ok { width := 2, height := 1, elems := [0x80000000, 0x01020304] } :=
  (read_write_roundtrip { width := 2, height := 1, elems := [0x80000000, 0x01020304] }
    (by decide) (by decide) (by decide) (by decide)).1

/-- C18: a truncated compressed stream is a hard error.  For every header that
declares `W` and `H`, if fewer than `4 * (W / 2) * (H / 2)` bytes follow the
header's newline, `IO_read_binary` fails an assertion and returns no grid; this
holds for every input whose header `fscanf` accepts, and so for the header
`IO_write_binary` writes. -/
theorem read_truncated_aborts (input body : List Nat) (W H : Nat)
    (hb : ∀ b ∈ body, b < 256) (hlen : body.length < 4 * (W / 2) * (H / 2)) :
    (fscanf (c_str HEADER) input = ([W, H], 10 :: body) →
      IO_read_binary input 2 32 = .error .Assert_Failed) ∧
    (W < 2 ^ 32 → H < 2 ^ 32 →
      IO_read_binary (c_str "COMP40 Compressed image format 2\n" ++ c_str (toString W) ++
        c_str " " ++ c_str (toString H) ++ c_str "\n" ++ body) 2 32 =
        .error .Assert_Failed) := by
  have key : ∀ inp, fscanf (c_str HEADER) inp = ([W, H], 10 :: body) →
      IO_read_binary inp 2 32 = .error .Assert_Failed := by
    intro inp hscan
    rw [read_binary_of_scan hscan,
      small_map_read_short _ body (by rw [← Nat.mul_assoc]; exact hlen) hb]
  refine ⟨key input, fun hW hH => key _ ?_⟩
  have h := fscanf_written W H body hW hH
  have h1 : c_str " " = [32] := by decide
  have h2 : c_str "\n" = [10] := by decide
  rw [← print_unsigned_eq, ← print_unsigned_eq, h1, h2]
  simp only [List.append_assoc, List.singleton_append] at h ⊢
  exact h

/-- Witness of C18: the header declares a 4 x 2 image (8 bytes), 7 follow. -/
theorem read_truncated_aborts_witness :
    IO_read_binary (c_str "COMP40 Compressed image format 2\n" ++ c_str (toString 4) ++
        c_str " " ++ c_str (toString 2) ++ c_str "\n" ++ [128, 0, 0, 0, 1, 2, 3]) 2 32 =
      .error .Assert_Failed :=
  (read_truncated_aborts [] [128, 0, 0, 0, 1, 2, 3] 4 2 (by decide) (by decide)).2
    (by decide) (by decide)


/-- The white space a white-space directive reads. -/
theorem skip_space_spec (input : List Nat) :
    ∃ ws, input = ws ++ skip_space input ∧ ∀ c ∈ ws, isspace c = true := by
  induction input with
  | nil => exact ⟨[], rfl, fun c hc => absurd hc (List.not_mem_nil c)⟩
  | cons c input ih =>
    by_cases hc : isspace c = true
    · obtain ⟨ws, h1, h2⟩ := ih
      refine ⟨c :: ws, ?_, ?_⟩
      · rw [skip_space, if_pos hc, List.cons_append, ← h1]
      · intro x hx
        rcases List.mem_cons.mp hx with rfl | hx
        · exact hc
        · exact h2 x hx
    · refine ⟨[], ?_, fun c hc => absurd hc (List.not_mem_nil c)⟩
      rw [skip_space, if_neg hc, List.nil_append]

/-- The digits a `%u` conversion reads. -/
theorem scan_digits_spec (input : List Nat) :
    ∀ acc, ∃ digits, input = digits ++ (scan_digits acc input).2 ∧
      ∀ d ∈ digits, isdigit d = true := by
  induction input with
  | nil => intro acc; exact ⟨[], rfl, fun c hc => absurd hc (List.not_mem_nil c)⟩
  | cons c input ih =>
    intro acc
    by_cases hc : isdigit c = true
    · obtain ⟨ds, h1, h2⟩ := ih (acc * 10 + (c - 48))
      refine ⟨c :: ds, ?_, ?_⟩
      · rw [scan_digits, if_pos hc, List.cons_append, ← h1]
      · intro x hx
        rcases List.mem_cons.mp hx with rfl | hx
        · exact hc
        · exact h2 x hx
    · refine ⟨[], ?_, fun c hc => absurd hc (List.not_mem_nil c)⟩
      rw [scan_digits, if_neg hc, List.nil_append]

/-- What a successful `%u` conversion has read: white space, an optional sign
and at least one digit. -/
theorem scan_unsigned_spec {input rest : List Nat} {v : Nat}
    (h : scan_unsigned input = some (v, rest)) :
    ∃ ws sign digits, input = ws ++ sign ++ digits ++ rest ∧
      (∀ c ∈ ws, isspace c = true) ∧ (sign = [] ∨ sign = [45] ∨ sign = [43]) ∧
      digits ≠ [] ∧ ∀ d ∈ digits, isdigit d = true := by
  obtain ⟨ws, hws, hsp⟩ := skip_space_spec input
  have hsign : ∃ sign, skip_space input = sign ++ (scan_sign (skip_space input)).2 ∧
      (sign = [] ∨ sign = [45] ∨ sign = [43]) := by
    cases hk : skip_space input with
    | nil => exact ⟨[], rfl, Or.inl rfl⟩
    | cons c tl =>
      by_cases h45 : c = 45
      · exact ⟨[45], by rw [scan_sign, if_pos h45, h45]; rfl, Or.inr (Or.inl rfl)⟩
      · by_cases h43 : c = 43
        · exact ⟨[43], by rw [scan_sign, if_neg h45, if_pos h43, h43]; rfl,
            Or.inr (Or.inr rfl)⟩
        · exact ⟨[], by rw [scan_sign, if_neg h45, if_neg h43]; rfl, Or.inl rfl⟩
  obtain ⟨sign, hsg, hsgn⟩ := hsign
  unfold scan_unsigned at h
  simp only at h
  generalize (scan_sign (skip_space input)).1 = neg at h
  generalize (scan_sign (skip_space input)).2 = after at h hsg
  cases after with
  | nil => simp at h
  | cons c tl =>
    simp only at h
    by_cases hc : isdigit c = true
    · rw [if_pos hc] at h
      injection h with h
      injection h with hv hr
      obtain ⟨ds, hd1, hd2⟩ := scan_digits_spec (c :: tl) 0
      rw [hr] at hd1
      refine ⟨ws, sign, ds, ?_, hsp, hsgn, ?_, hd2⟩
      · rw [List.append_assoc, List.append_assoc, ← hd1, ← hsg, ← hws]
      · intro hnil
        rw [hnil, List.nil_append] at hd1
        have htl : (scan_digits 0 (c :: tl)).2 = rest := hr
        rw [scan_digits, if_pos hc] at htl
        obtain ⟨ds', hd1', _⟩ := scan_digits_spec tl (0 * 10 + (c - 48))
        rw [htl] at hd1'
        have := congrArg List.length hd1
        rw [hd1'] at this
        simp only [List.length_cons, List.length_append] at this
        omega
    · rw [if_neg hc] at h
      cases h


/-- A run of ordinary characters of the format that does not stop the scan has
been read from the input, byte for byte. -/
theorem run_format_lits (s : List Nat) (ds : List Directive) :
    ∀ input, (run_format (s.map Directive.lit ++ ds) input).1 ≠ [] →
      ∃ rest, input = s ++ rest ∧
        run_format (s.map Directive.lit ++ ds) input = run_format ds rest := by
  induction s with
  | nil => intro input _; exact ⟨input, rfl, rfl⟩
  | cons c s ih =>
    intro input h
    rw [List.map_cons, List.cons_append] at h ⊢
    cases input with
    | nil => exact absurd rfl h
    | cons d tl =>
      rw [run_format] at h ⊢
      by_cases hd : d = c
      · simp only [hd, if_true] at h ⊢
        obtain ⟨rest, h1, h2⟩ := ih tl h
        exact ⟨rest, by rw [h1, List.cons_append], h2⟩
      · simp only [hd, if_false] at h
        exact absurd rfl h

/-- A word of the format followed by a white-space directive: the word is read
byte for byte, then any run of white space. -/
theorem run_format_word (s : List Nat) (ds : List Directive) (input : List Nat)
    (h : (run_format (s.map Directive.lit ++ Directive.space :: ds) input).1 ≠ []) :
    ∃ ws rest, input = s ++ ws ++ rest ∧ (∀ c ∈ ws, isspace c = true) ∧
      run_format (s.map Directive.lit ++ Directive.space :: ds) input =
        run_format ds rest := by
  obtain ⟨rest, h1, h2⟩ := run_format_lits s (Directive.space :: ds) input h
  obtain ⟨ws, h3, h4⟩ := skip_space_spec rest
  refine ⟨ws, skip_space rest, ?_, h4, ?_⟩
  · rw [List.append_assoc, ← h3, h1]
  · rw [h2, run_format]

/-- A `%u` directive that does not stop the scan has read a numeral. -/
theorem run_format_conv (ds : List Directive) (input : List Nat)
    (h : (run_format (Directive.conv_u :: ds) input).1 ≠ []) :
    ∃ v rest ws sign digits, input = ws ++ sign ++ digits ++ rest ∧
      (∀ c ∈ ws, isspace c = true) ∧ (sign = [] ∨ sign = [45] ∨ sign = [43]) ∧
      digits ≠ [] ∧ (∀ d ∈ digits, isdigit d = true) ∧
      run_format (Directive.conv_u :: ds) input =
        (v :: (run_format ds rest).1, (run_format ds rest).2) := by
  rw [run_format] at h ⊢
  cases hs : scan_unsigned input with
  | none => rw [hs] at h; exact absurd rfl h
  | some p =>
    obtain ⟨v, rest⟩ := p
    obtain ⟨ws, sign, digits, h1, h2, h3, h4, h5⟩ := scan_unsigned_spec hs
    exact ⟨v, rest, ws, sign, digits, h1, h2, h3, h4, h5, rfl⟩

/-- The shape of every input whose header `fscanf` accepts with two
assignments: the five words of `HEADER` in order, each followed by a run of
white space that may be empty, then two numerals (an optional sign and at
least one digit) separated by a run of white space that may be empty. -/
theorem fscanf_header_shape {input rest : List Nat} {W H : Nat}
    (h : fscanf (c_str HEADER) input = ([W, H], rest)) :
    ∃ s1 s2 s3 s4 s5 s6 sign1 digits1 sign2 digits2,
      input = c_str "COMP40" ++ s1 ++ c_str "Compressed" ++ s2 ++ c_str "image" ++ s3 ++
        c_str "format" ++ s4 ++ c_str "2" ++ s5 ++ sign1 ++ digits1 ++ s6 ++ sign2 ++
        digits2 ++ rest ∧
      (∀ c ∈ s1 ++ s2 ++ s3 ++ s4 ++ s5 ++ s6, isspace c = true) ∧
      (sign1 = [] ∨ sign1 = [45] ∨ sign1 = [43]) ∧ digits1 ≠ [] ∧
      (∀ d ∈ digits1, isdigit d = true) ∧
      (sign2 = [] ∨ sign2 = [45] ∨ sign2 = [43]) ∧ digits2 ≠ [] ∧
      (∀ d ∈ digits2, isdigit d = true) := by
  have hfmt : parse_format (c_str HEADER) =
      (c_str "COMP40").map Directive.lit ++ Directive.space ::
      ((c_str "Compressed").map Directive.lit ++ Directive.space ::
      ((c_str "image").map Directive.lit ++ Directive.space ::
      ((c_str "format").map Directive.lit ++ Directive.space ::
      ((c_str "2").map Directive.lit ++ Directive.space ::
      [Directive.conv_u, Directive.space, Directive.conv_u])))) := by decide
  unfold fscanf at h
  rw [hfmt] at h
  have hne : ∀ {ds : List Directive} {x : List Nat},
      run_format ds x = ([W, H], rest) → (run_format ds x).1 ≠ [] := by
    intro ds x hx
    rw [hx]
    exact List.cons_ne_nil _ _
  obtain ⟨s1, x1, e1, w1, r1⟩ := run_format_word _ _ _ (hne h)
  rw [r1] at h
  obtain ⟨s2, x2, e2, w2, r2⟩ := run_format_word _ _ _ (hne h)
  rw [r2] at h
  obtain ⟨s3, x3, e3, w3, r3⟩ := run_format_word _ _ _ (hne h)
  rw [r3] at h
  obtain ⟨s4, x4, e4, w4, r4⟩ := run_format_word _ _ _ (hne h)
  rw [r4] at h
  obtain ⟨s5, x5, e5, w5, r5⟩ := run_format_word _ _ _ (hne h)
  rw [r5] at h
  obtain ⟨v1, y, ws1, sign1, digits1, e6, w6, g1, n1, d1, r6⟩ := run_format_conv _ _ (hne h)
  rw [r6] at h
  have hH : (run_format [Directive.space, Directive.conv_u] y).1 = [H] := by
    have := congrArg Prod.fst h
    simp only [List.cons.injEq] at this
    exact this.2
  have hrest : (run_format [Directive.space, Directive.conv_u] y).2 = rest :=
    congrArg Prod.snd h
  rw [run_format] at hH hrest
  obtain ⟨s6, e7, w7⟩ := skip_space_spec y
  have hne2 : (run_format [Directive.conv_u] (skip_space y)).1 ≠ [] := by
    rw [hH]
    exact List.cons_ne_nil _ _
  obtain ⟨v2, z, ws2, sign2, digits2, e8, w8, g2, n2, d2, r7⟩ := run_format_conv _ _ hne2
  rw [r7] at hrest
  have hz : z = rest := hrest
  refine ⟨s1, s2, s3, s4, s5 ++ ws1, s6 ++ ws2, sign1, digits1, sign2, digits2, ?_, ?_,
    g1, n1, d1, g2, n2, d2⟩
  · rw [e1, e2, e3, e4, e5, e6, e7, e8, hz]
    simp only [List.append_assoc]
  · intro c hc
    simp only [List.mem_append] at hc
    rcases hc with (((((hc | hc) | hc) | hc) | (hc | hc)) | (hc | hc))
    · exact w1 c hc
    · exact w2 c hc
    · exact w3 c hc
    · exact w4 c hc
    · exact w5 c hc
    · exact w6 c hc
    · exact w7 c hc
    · exact w8 c hc


/-- A grid is returned only after `fscanf` has assigned two values and the next
byte is the delimiter. -/
theorem scan_of_read_binary_ok {input : List Nat} {g : UArray2 Nat}
    (h : IO_read_binary input 2 32 = .ok g) :
    ∃ W H body, fscanf (c_str HEADER) input = ([W, H], 10 :: body) := by
  unfold IO_read_binary at h
  simp only at h
  generalize fscanf (c_str HEADER) input = scanned at h
  obtain ⟨vals, rest⟩ := scanned
  match vals, rest, h with
  | [W, H], c :: body, h =>
    simp only at h
    by_cases hc : c = DELIMITER
    · exact ⟨W, H, body, by rw [hc]; rfl⟩
    · rw [if_neg hc] at h
      cases h
  | [W, H], [], h => cases h
  | [], _, h => cases h
  | [_], _, h => cases h
  | _ :: _ :: _ :: _, _, h => cases h

/-- Without two assignments followed by the delimiter the call fails an
assertion. -/
theorem read_binary_no_scan {input : List Nat}
    (h : ¬ ∃ W H body, fscanf (c_str HEADER) input = ([W, H], 10 :: body)) :
    IO_read_binary input 2 32 = .error .Assert_Failed := by
  unfold IO_read_binary
  simp only
  generalize hs : fscanf (c_str HEADER) input = scanned at h
  obtain ⟨vals, rest⟩ := scanned
  match vals, rest, h with
  | [W, H], c :: body, h =>
    simp only
    by_cases hc : c = DELIMITER
    · exact absurd ⟨W, H, body, by rw [hc]; rfl⟩ h
    · rw [if_neg hc]
  | [W, H], [], h => rfl
  | [], _, h => rfl
  | [_], _, h => rfl
  | _ :: _ :: _ :: _, _, h => rfl

/-- After an accepted header the outcome depends only on whether
`4 * (W / 2) * (H / 2)` bytes are there. -/
theorem read_binary_body {input body : List Nat} {W H : Nat}
    (hscan : fscanf (c_str HEADER) input = ([W, H], 10 :: body))
    (hb : ∀ b ∈ body, b < 256) :
    (body.length < 4 * (W / 2) * (H / 2) →
      IO_read_binary input 2 32 = .error .Assert_Failed) ∧
    (4 * (W / 2) * (H / 2) ≤ body.length →
      ∃ g, IO_read_binary input 2 32 = .ok g ∧ g.width = W / 2 ∧ g.height = H / 2 ∧
        g.elems.length = W / 2 * (H / 2) ∧
        ∀ k, k < W / 2 * (H / 2) → g.elems.getD k 0 =
          body.getD (4 * k) 0 * 2 ^ 24 + body.getD (4 * k + 1) 0 * 2 ^ 16 +
            body.getD (4 * k + 2) 0 * 2 ^ 8 + body.getD (4 * k + 3) 0) := by
  constructor
  · intro hlen
    rw [read_binary_of_scan hscan,
      small_map_read_short _ body (by rw [← Nat.mul_assoc]; exact hlen) hb]
  · intro hlen
    obtain ⟨words, h1, h2, h3⟩ :=
      small_map_read_ok (W / 2 * (H / 2)) body (by rw [← Nat.mul_assoc]; exact hlen) hb
    refine ⟨{ width := W / 2, height := H / 2, elems := words }, ?_, rfl, rfl, h2, h3⟩
    rw [read_binary_of_scan hscan, h1]

/-- C19, as the code has it: after a header that declares `W` and `H`,
`IO_read_binary` aborts when fewer than `4 * (W / 2) * (H / 2)` bytes follow
the header; when that many or more follow, it returns the
`(W / 2) x (H / 2)` grid built from the first `4 * (W / 2) * (H / 2)` bytes and
does not look at the bytes after them. -/
theorem read_body_length (input body : List Nat) (W H : Nat)
    (hscan : fscanf (c_str HEADER) input = ([W, H], 10 :: body))
    (hb : ∀ b ∈ body, b < 256) :
    (body.length < 4 * (W / 2) * (H / 2) →
      IO_read_binary input 2 32 = .error .Assert_Failed) ∧
    (4 * (W / 2) * (H / 2) ≤ body.length →
      ∃ g, IO_read_binary input 2 32 = .ok g ∧ g.width = W / 2 ∧ g.height = H / 2 ∧
        g.elems.length = W / 2 * (H / 2) ∧
        ∀ k, k < W / 2 * (H / 2) → g.elems.getD k 0 =
          body.getD (4 * k) 0 * 2 ^ 24 + body.getD (4 * k + 1) 0 * 2 ^ 16 +
            body.getD (4 * k + 2) 0 * 2 ^ 8 + body.getD (4 * k + 3) 0) := by
  constructor
  · intro hlen
    rw [read_binary_of_scan hscan,
      small_map_read_short _ body (by rw [← Nat.mul_assoc]; exact hlen) hb]
  · intro hlen
    obtain ⟨words, h1, h2, h3⟩ :=
      small_map_read_ok (W / 2 * (H / 2)) body (by rw [← Nat.mul_assoc]; exact hlen) hb
    refine ⟨{ width := W / 2, height := H / 2, elems := words }, ?_, rfl, rfl, h2, h3⟩
    rw [read_binary_of_scan hscan, h1]

/-- Witness of the amended C19: a header declaring 2 x 2 followed by 5 bytes. -/
theorem read_body_length_witness :
    ∃ g, IO_read_binary (c_str "COMP40 Compressed image format 2\n2 2\n" ++
        [1, 2, 3, 4, 5]) 2 32 = .ok g ∧ g.width = 2 / 2 ∧ g.height = 2 / 2 ∧
      g.elems.length = 2 / 2 * (2 / 2) ∧
      ∀ k, k < 2 / 2 * (2 / 2) → g.elems.getD k 0 =
        [1, 2, 3, 4, 5].getD (4 * k) 0 * 2 ^ 24 + [1, 2, 3, 4, 5].getD (4 * k + 1) 0 * 2 ^ 16 +
          [1, 2, 3, 4, 5].getD (4 * k + 2) 0 * 2 ^ 8 + [1, 2, 3, 4, 5].getD (4 * k + 3) 0 :=
  (read_body_length (c_str "COMP40 Compressed image format 2\n2 2\n" ++ [1, 2, 3, 4, 5])
    [1, 2, 3, 4, 5] 2 2 (by decide) (by decide)).2 (by decide)

/-- Counterexample to C19 as stated: the header declares a 2 x 2 image, whose
body is 4 bytes; 5 bytes follow, and `IO_read_binary` returns a grid. -/
theorem read_longer_body_accepted :
    [1, 2, 3, 4, 5].length ≠ 4 * (2 / 2) * (2 / 2) ∧
    IO_read_binary (c_str "COMP40 Compressed image format 2\n2 2\n" ++ [1, 2, 3, 4, 5]) 2 32 =
      .ok { width := 1, height := 1, elems := [16909060] } := by
  decide

/-- Counterexample to C20 as stated: a space instead of the newline after
`format 2`, and two spaces between the dimensions; neither input begins with
the exact header, and `IO_read_binary` returns a grid for both. -/
theorem read_accepts_other_whitespace :
    (c_str "COMP40 Compressed image format 2 2 2\n" ++ [1, 2, 3, 4]).take 33 ≠
      c_str "COMP40 Compressed image format 2\n" ∧
    IO_read_binary (c_str "COMP40 Compressed image format 2 2 2\n" ++ [1, 2, 3, 4]) 2 32 =
      .ok { width := 1, height := 1, elems := [16909060] } ∧
    (c_str "COMP40 Compressed image format 2\n2  2\n" ++ [1, 2, 3, 4]).take 36 ≠
      c_str "COMP40 Compressed image format 2\n2 2" ∧
    IO_read_binary (c_str "COMP40 Compressed image format 2\n2  2\n" ++ [1, 2, 3, 4]) 2 32 =
      .ok { width := 1, height := 1, elems := [16909060] } := by
  decide

/-- C20, as the code has it: `IO_read_binary` returns a grid only if the input
matches the `fscanf` format `HEADER` and a newline follows: the words `COMP40`,
`Compressed`, `image`, `format`, `2` in this order, each followed by a run of
white space that may be empty, then `W` and `H` as decimal numerals with an
optional sign, separated by a run of white space that may be empty, then one
newline byte.  Every other input is rejected by a failed assertion. -/
theorem read_header_shape (input : List Nat) :
    (∀ g, IO_read_binary input 2 32 = .ok g →
      ∃ s1 s2 s3 s4 s5 s6 sign1 digits1 sign2 digits2 body,
        input = c_str "COMP40" ++ s1 ++ c_str "Compressed" ++ s2 ++ c_str "image" ++ s3 ++
          c_str "format" ++ s4 ++ c_str "2" ++ s5 ++ sign1 ++ digits1 ++ s6 ++ sign2 ++
          digits2 ++ (10 :: body) ∧
        (∀ c ∈ s1 ++ s2 ++ s3 ++ s4 ++ s5 ++ s6, isspace c = true) ∧
        (sign1 = [] ∨ sign1 = [45] ∨ sign1 = [43]) ∧ digits1 ≠ [] ∧
        (∀ d ∈ digits1, isdigit d = true) ∧
        (sign2 = [] ∨ sign2 = [45] ∨ sign2 = [43]) ∧ digits2 ≠ [] ∧
        (∀ d ∈ digits2, isdigit d = true)) ∧
    ((∀ b ∈ input, b < 256) →
      (∃ g, IO_read_binary input 2 32 = .ok g) ∨
        IO_read_binary input 2 32 = .error .Assert_Failed) := by
  constructor
  · intro g hg
    obtain ⟨W, H, body, hscan⟩ := scan_of_read_binary_ok hg
    obtain ⟨s1, s2, s3, s4, s5, s6, sign1, digits1, sign2, digits2, h⟩ :=
      fscanf_header_shape hscan
    exact ⟨s1, s2, s3, s4, s5, s6, sign1, digits1, sign2, digits2, body, h⟩
  · intro hb
    by_cases hs : ∃ W H body, fscanf (c_str HEADER) input = ([W, H], 10 :: body)
    · obtain ⟨W, H, body, hscan⟩ := hs
      obtain ⟨s1, s2, s3, s4, s5, s6, sign1, digits1, sign2, digits2, hin, _⟩ :=
        fscanf_header_shape hscan
      have hbody : ∀ b ∈ body, b < 256 := by
        intro b hm
        apply hb b
        rw [hin]
        simp only [List.mem_append, List.mem_cons]
        exact Or.inr (Or.inr hm)
      obtain ⟨hshort, hlong⟩ := read_binary_body hscan hbody
      by_cases hlen : body.length < 4 * (W / 2) * (H / 2)
      · exact Or.inr (hshort hlen)
      · obtain ⟨g, hg, _⟩ := hlong (by omega)
        exact Or.inl ⟨g, hg⟩
    · exact Or.inr (read_binary_no_scan hs)

/-- Witness of the amended C20: the header `IO_write_binary` writes for a 2 x 2
image, followed by four bytes, has the stated shape. -/
theorem read_header_shape_witness :
    ∃ s1 s2 s3 s4 s5 s6 sign1 digits1 sign2 digits2 body,
      c_str "COMP40 Compressed image format 2\n2 2\n" ++ [1, 2, 3, 4] =
        c_str "COMP40" ++ s1 ++ c_str "Compressed" ++ s2 ++ c_str "image" ++ s3 ++
          c_str "format" ++ s4 ++ c_str "2" ++ s5 ++ sign1 ++ digits1 ++ s6 ++ sign2 ++
          digits2 ++ (10 :: body) ∧
      (∀ c ∈ s1 ++ s2 ++ s3 ++ s4 ++ s5 ++ s6, isspace c = true) ∧
      (sign1 = [] ∨ sign1 = [45] ∨ sign1 = [43]) ∧ digits1 ≠ [] ∧
      (∀ d ∈ digits1, isdigit d = true) ∧
      (sign2 = [] ∨ sign2 = [45] ∨ sign2 = [43]) ∧ digits2 ≠ [] ∧
      (∀ d ∈ digits2, isdigit d = true) :=
  (read_header_shape (c_str "COMP40 Compressed image format 2\n2 2\n" ++ [1, 2, 3, 4])).1
    { width := 1, height := 1, elems := [16909060] } (by decide)

/-! ## Traversal lemmas -/

theorem map_range_spec {β : Type} (f : Nat → Except Error β) (n : Nat)
    (h : ∀ k < n, ∃ v, f k = .ok v) :
    ∃ cells, map_range f n = .ok cells ∧ cells.length = n ∧
      ∀ k < n, ∃ v, cells.get? k = some v ∧ f k = .ok v := by
  induction n with
  | zero => exact ⟨[], rfl, rfl, fun k hk => absurd hk (Nat.not_lt_zero k)⟩
  | succ n ih =>
    obtain ⟨cells, h1, h2, h3⟩ := ih (fun k hk => h k (Nat.lt_succ_of_lt hk))
    obtain ⟨v, hv⟩ := h n (Nat.lt_succ_self n)
    refine ⟨cells ++ [v], ?_, ?_, ?_⟩
    · simp only [map_range, h1, hv]
    · simp [h2]
    · intro k hk
      rcases Nat.lt_succ_iff_lt_or_eq.mp hk with hk | hk
      · obtain ⟨u, hu1, hu2⟩ := h3 k hk
        refine ⟨u, ?_, hu2⟩
        rw [List.get?_eq_getElem?] at hu1 ⊢
        rw [List.getElem?_append_left (by omega)]
        exact hu1
      · subst hk
        refine ⟨v, ?_, hv⟩
        rw [List.get?_eq_getElem?, ← h2]
        simp

theorem cell_index {w h c r : Nat} (hc : c < w) (hr : r < h) :
    r * w + c < w * h ∧ (r * w + c) % w = c ∧ (r * w + c) / w = r := by
  have hw : 0 < w := by omega
  refine ⟨?_, ?_, ?_⟩
  · calc r * w + c < r * w + w := by omega
      _ = (r + 1) * w := by ring
      _ ≤ h * w := Nat.mul_le_mul_right w hr
      _ = w * h := Nat.mul_comm h w
  · rw [Nat.add_comm, Nat.add_mul_mod_self_right]
    exact Nat.mod_eq_of_lt hc
  · rw [Nat.add_comm, Nat.add_mul_div_right _ _ hw, Nat.div_eq_of_lt hc, Nat.zero_add]

theorem index_cell {w h k : Nat} (hk : k < w * h) :
    k % w < w ∧ k / w < h ∧ k / w * w + k % w = k := by
  have hw : 0 < w := by
    rcases Nat.eq_zero_or_pos w with h0 | h0
    · subst h0
      simp at hk
    · exact h0
  refine ⟨Nat.mod_lt _ hw, Nat.div_lt_of_lt_mul hk, ?_⟩
  rw [Nat.mul_comm]
  exact Nat.div_add_mod k w

theorem at_wf {β : Type} (image : UArray2 β)
    (hwf : image.elems.length = image.width * image.height) {c r : Nat}
    (hc : c < image.width) (hr : r < image.height) :
    ∃ v, UArray2_at image c r = .ok v ∧ image.elems.get? (r * image.width + c) = some v := by
  have hlt : r * image.width + c < image.elems.length := by
    rw [hwf]
    exact (cell_index hc hr).1
  refine ⟨image.elems.get ⟨_, hlt⟩, ?_, List.get?_eq_get hlt⟩
  unfold UArray2_at
  rw [if_pos ⟨hc, hr⟩, List.get?_eq_get hlt]

theorem at_of_get {β : Type} (image : UArray2 β) {c r : Nat} {v : β}
    (hc : c < image.width) (hr : r < image.height)
    (hv : image.elems.get? (r * image.width + c) = some v) :
    UArray2_at image c r = .ok v := by
  unfold UArray2_at
  rw [if_pos ⟨hc, hr⟩, hv]

theorem map_default_spec {β : Type} (w h : Nat) (apply : Nat → Nat → Except Error β)
    (hok : ∀ c < w, ∀ r < h, ∃ v, apply c r = .ok v) :
    ∃ out, map_default w h apply = .ok out ∧ out.width = w ∧ out.height = h ∧
      out.elems.length = w * h ∧ ∀ c < w, ∀ r < h, UArray2_at out c r = apply c r := by
  obtain ⟨cells, h1, h2, h3⟩ := map_range_spec (fun k => apply (k % w) (k / w)) (w * h)
    (fun k hk => hok _ (index_cell hk).1 _ (index_cell hk).2.1)
  refine ⟨{ width := w, height := h, elems := cells }, ?_, rfl, rfl, h2, ?_⟩
  · unfold map_default
    rw [h1]
  · intro c hc r hr
    obtain ⟨hlt, hm, hd⟩ := cell_index hc hr
    obtain ⟨v, hv1, hv2⟩ := h3 _ hlt
    simp only [hm, hd] at hv2
    rw [hv2]
    exact at_of_get { width := w, height := h, elems := cells } hc hr hv1

/-! ## Trimming (`Formulas_get_even`, `IO_read_plain_image`) -/

theorem get_even_eq (n : Nat) (hn : n < 2 ^ 32) : Formulas_get_even n = n - n % 2 := by
  unfold Formulas_get_even usub
  split_ifs with h
  · omega
  · omega

theorem read_plain_image_spec (image : Pnm_ppm)
    (hW : image.width < 2 ^ 32) (hH : image.height < 2 ^ 32)
    (hw : image.pixels.width = image.width) (hh : image.pixels.height = image.height)
    (hwf : image.pixels.elems.length = image.width * image.height) :
    ∃ out, IO_read_plain_image image = .ok out ∧
      out.width = image.width - image.width % 2 ∧
      out.height = image.height - image.height % 2 ∧
      out.denominator = image.denominator ∧
      out.pixels.width = out.width ∧ out.pixels.height = out.height ∧
      out.pixels.elems.length = out.width * out.height ∧
      ∀ c < out.width, ∀ r < out.height, ∃ p,
        UArray2_at image.pixels c r = .ok p ∧ UArray2_at out.pixels c r = .ok p := by
  have hin : ∀ c < image.width - image.width % 2, ∀ r < image.height - image.height % 2,
      ∃ p, UArray2_at image.pixels c r = .ok p := by
    intro c hc r hr
    obtain ⟨p, hp, _⟩ := at_wf image.pixels (by rw [hw, hh]; exact hwf)
      (show c < image.pixels.width by omega) (show r < image.pixels.height by omega)
    exact ⟨p, hp⟩
  unfold IO_read_plain_image
  simp only [get_even_eq _ hW, get_even_eq _ hH]
  rw [if_pos ⟨Nat.sub_le _ _, Nat.sub_le _ _⟩]
  split_ifs with ht
  · obtain ⟨new, h1, h2, h3, h4, h5⟩ := map_default_spec (image.width - image.width % 2)
      (image.height - image.height % 2) (fun i j => apply_trim i j image) hin
    rw [h1]
    refine ⟨_, rfl, rfl, rfl, rfl, h2, h3, h4, ?_⟩
    intro c hc r hr
    obtain ⟨p, hp⟩ := hin c hc r hr
    refine ⟨p, hp, ?_⟩
    rw [show UArray2_at new c r = apply_trim c r image from h5 c hc r hr]
    exact hp
  · have e1 : image.width - image.width % 2 = image.width := by omega
    have e2 : image.height - image.height % 2 = image.height := by omega
    refine ⟨image, rfl, e1.symm, e2.symm, rfl, hw, hh, hwf, ?_⟩
    intro c hc r hr
    obtain ⟨p, hp⟩ := hin c (by omega) r (by omega)
    exact ⟨p, hp, hp⟩

/-- C21: trimming.  For every `unsigned` dimension `n`,
`Formulas_get_even n = n - n % 2`: it is even, at most `n`, differs from `n` by
at most 1 and is `n` when `n` is even.  For every image of width `W` and height
`H` (as `Pnm_ppmread` returns it: a `W` by `H` grid), `IO_read_plain_image`
returns an image of width `get_even W` and height `get_even H`, with the same
denominator, whose pixel at `(c, r)` is the input pixel at `(c, r)` for every
`c < get_even W` and `r < get_even H`. -/
theorem trim_spec (image : Pnm_ppm)
    (hW : image.width < 2 ^ 32) (hH : image.height < 2 ^ 32)
    (hw : image.pixels.width = image.width) (hh : image.pixels.height = image.height)
    (hwf : image.pixels.elems.length = image.width * image.height) :
    (∀ n : Nat, n < 2 ^ 32 →
      Formulas_get_even n = n - n % 2 ∧ Formulas_get_even n % 2 = 0 ∧
      Formulas_get_even n ≤ n ∧ n - Formulas_get_even n ≤ 1 ∧
      (n % 2 = 0 → Formulas_get_even n = n)) ∧
    ∃ out, IO_read_plain_image image = .ok out ∧
      out.width = Formulas_get_even image.width ∧
      out.height = Formulas_get_even image.height ∧
      out.denominator = image.denominator ∧
      out.pixels.width = Formulas_get_even image.width ∧
      out.pixels.height = Formulas_get_even image.height ∧
      ∀ c < Formulas_get_even image.width, ∀ r < Formulas_get_even image.height, ∃ p,
        UArray2_at image.pixels c r = .ok p ∧ UArray2_at out.pixels c r = .ok p := by
  constructor
  · intro n hn
    rw [get_even_eq n hn]
    omega
  · obtain ⟨out, h1, h2, h3, h4, h5, h6, _, h8⟩ := read_plain_image_spec image hW hH hw hh hwf
    rw [get_even_eq _ hW, get_even_eq _ hH]
    refine ⟨out, h1, h2, h3, h4, h5.trans h2, h6.trans h3, ?_⟩
    rw [← h2, ← h3]
    exact h8

/-- Witness of C21: a 3 x 2 image loses its last column. -/
theorem trim_spec_witness :
    ∃ out,
      IO_read_plain_image
        { width := 3, height := 2, denominator := 255,
          pixels :=
            { width := 3, height := 2,
              elems := [⟨1, 2, 3⟩, ⟨4, 5, 6⟩, ⟨7, 8, 9⟩, ⟨10, 11, 12⟩, ⟨13, 14, 15⟩,
                ⟨16, 17, 18⟩] } } = .ok out ∧
      out.width = Formulas_get_even 3 ∧ out.height = Formulas_get_even 2 ∧
      out.denominator = 255 ∧
      out.pixels.width = Formulas_get_even 3 ∧ out.pixels.height = Formulas_get_even 2 ∧
      ∀ c < Formulas_get_even 3, ∀ r < Formulas_get_even 2, ∃ p,
        UArray2_at
          ({ width := 3, height := 2,
             elems := [⟨1, 2, 3⟩, ⟨4, 5, 6⟩, ⟨7, 8, 9⟩, ⟨10, 11, 12⟩, ⟨13, 14, 15⟩,
               ⟨16, 17, 18⟩] } : UArray2 Pnm_rgb) c r = .ok p ∧
        UArray2_at out.pixels c r = .ok p :=
  (trim_spec
    { width := 3, height := 2, denominator := 255,
      pixels :=
        { width := 3, height := 2,
          elems := [⟨1, 2, 3⟩, ⟨4, 5, 6⟩, ⟨7, 8, 9⟩, ⟨10, 11, 12⟩, ⟨13, 14, 15⟩,
            ⟨16, 17, 18⟩] } }
    (by decide) (by decide) rfl rfl rfl).2

/-! ## Pixel and block formulas -/

section PixelFormulas

variable {α : Type} [LinearOrderedField α]

theorem set_range_eq_clamp (pixel : α) {lower upper : α} (h : lower ≤ upper) :
    Formulas_set_range pixel lower upper = max lower (min pixel upper) := by
  unfold Formulas_set_range
  split_ifs with h1 h2
  · rw [max_eq_left]
    exact le_trans (min_le_left _ _) (le_of_lt h1)
  · rw [min_eq_right (le_of_lt h2), max_eq_right h]
  · rw [min_eq_left (not_lt.mp h2), max_eq_right (not_lt.mp h1)]

theorem set_range_id {pixel lower upper : α} (h1 : lower ≤ pixel) (h2 : pixel ≤ upper) :
    Formulas_set_range pixel lower upper = pixel := by
  unfold Formulas_set_range
  rw [if_neg (not_lt.mpr h1), if_neg (not_lt.mpr h2)]

theorem average_four (w x y z : α) : Formulas_average [w, x, y, z] 4 = (w + x + y + z) / 4 := by
  simp [Formulas_average]

theorem half_le_half : (-(1 / 2) : α) ≤ 1 / 2 := by norm_num

/-- C22: forward pixel transform, floats read as exact numbers.  For all
`r`, `g`, `b`, `Formulas_calculate_y` is `0.299r + 0.587g + 0.114b` clamped to
`[0, 1]`, `Formulas_calculate_pb` is `-0.168736r - 0.331264g + 0.5b` clamped to
`[-0.5, 0.5]` and `Formulas_calculate_pr` is `0.5r - 0.418688g - 0.081312b`
clamped to `[-0.5, 0.5]`, so `y` lies in `[0, 1]` and `pb`, `pr` in
`[-0.5, 0.5]`; the extremes are attained: `pb(1, 1, 0) = -0.5`,
`pb(0, 0, 1) = 0.5`, `pr(0, 1, 1) = -0.5`, `pr(1, 0, 0) = 0.5`. -/
theorem forward_pixel_transform (r g b : α) :
    Formulas_calculate_y r g b =
      max 0 (min (299 / 1000 * r + 587 / 1000 * g + 114 / 1000 * b) 1) ∧
    Formulas_calculate_pb r g b =
      max (-(1 / 2)) (min (-(168736 / 1000000) * r - 331264 / 1000000 * g + 1 / 2 * b) (1 / 2)) ∧
    Formulas_calculate_pr r g b =
      max (-(1 / 2)) (min (1 / 2 * r - 418688 / 1000000 * g - 81312 / 1000000 * b) (1 / 2)) ∧
    (0 ≤ Formulas_calculate_y r g b ∧ Formulas_calculate_y r g b ≤ 1) ∧
    (-(1 / 2) ≤ Formulas_calculate_pb r g b ∧ Formulas_calculate_pb r g b ≤ 1 / 2) ∧
    (-(1 / 2) ≤ Formulas_calculate_pr r g b ∧ Formulas_calculate_pr r g b ≤ 1 / 2) ∧
    Formulas_calculate_pb (1 : α) 1 0 = -(1 / 2) ∧
    Formulas_calculate_pb (0 : α) 0 1 = 1 / 2 ∧
    Formulas_calculate_pr (0 : α) 1 1 = -(1 / 2) ∧
    Formulas_calculate_pr (1 : α) 0 0 = 1 / 2 := by
  refine ⟨set_range_eq_clamp _ zero_le_one, set_range_eq_clamp _ half_le_half,
    set_range_eq_clamp _ half_le_half, set_range_mem _ zero_le_one,
    set_range_mem _ half_le_half, set_range_mem _ half_le_half, ?_, ?_, ?_, ?_⟩
  · unfold Formulas_calculate_pb MIN_PBR MAX_PBR
    rw [set_range_id (by norm_num) (by norm_num)]
    norm_num
  · unfold Formulas_calculate_pb MIN_PBR MAX_PBR
    rw [set_range_id (by norm_num) (by norm_num)]
    norm_num
  · unfold Formulas_calculate_pr MIN_PBR MAX_PBR
    rw [set_range_id (by norm_num) (by norm_num)]
    norm_num
  · unfold Formulas_calculate_pr MIN_PBR MAX_PBR
    rw [set_range_id (by norm_num) (by norm_num)]
    norm_num

theorem cv2dct_of_pixels {image : UArray2 (CVideo α)} {i j : Nat} {p1 p2 p3 p4 : CVideo α}
    (h : get_pixel image (i * 2) (j * 2) = .ok (p1, p2, p3, p4)) :
    apply_cv2dct i j image = .ok
      { pb := Formulas_average [p1.pb, p2.pb, p3.pb, p4.pb] 4,
        pr := Formulas_average [p1.pr, p2.pr, p3.pr, p4.pr] 4,
        a := Formulas_calculate_a p1.y p2.y p3.y p4.y,
        b := Formulas_calculate_b p1.y p2.y p3.y p4.y,
        c := Formulas_calculate_c p1.y p2.y p3.y p4.y,
        d := Formulas_calculate_d p1.y p2.y p3.y p4.y } := by
  unfold apply_cv2dct BLOCKSIZE
  simp only [h]
  rfl

/-- C24: block transform, floats read as exact numbers.
`Formulas_average xs n` is the sum of the first `n` elements over `n` (17.75 for
`1, 5, 25, 40`); for all `y1 .. y4`, `a` is their mean clamped to `[0, 1]` and
`b`, `c`, `d` are `(y4 + y3 - y2 - y1) / 4`, `(y4 - y3 + y2 - y1) / 4`,
`(y4 - y3 - y2 + y1) / 4` clamped to `[-0.5, 0.5]`; and the `pb` and `pr` of the
block `apply_cv2dct` computes from four pixels are the means of the four `pb`
and of the four `pr`, in `[-0.5, 0.5]` whenever the four inputs are. -/
theorem block_transform (xs : List α) (n : Nat) (y1 y2 y3 y4 : α)
    (image : UArray2 (CVideo α)) (i j : Nat) (p1 p2 p3 p4 : CVideo α)
    (h : get_pixel image (i * 2) (j * 2) = .ok (p1, p2, p3, p4)) :
    Formulas_average xs n = (xs.take n).sum / (n : α) ∧
    Formulas_average [(1 : α), 5, 25, 40] 4 = 1775 / 100 ∧
    Formulas_calculate_a y1 y2 y3 y4 = max 0 (min ((y1 + y2 + y3 + y4) / 4) 1) ∧
    Formulas_calculate_b y1 y2 y3 y4 = max (-(1 / 2)) (min ((y4 + y3 - y2 - y1) / 4) (1 / 2)) ∧
    Formulas_calculate_c y1 y2 y3 y4 = max (-(1 / 2)) (min ((y4 - y3 + y2 - y1) / 4) (1 / 2)) ∧
    Formulas_calculate_d y1 y2 y3 y4 = max (-(1 / 2)) (min ((y4 - y3 - y2 + y1) / 4) (1 / 2)) ∧
    ∃ block, apply_cv2dct i j image = .ok block ∧
      block.pb = (p1.pb + p2.pb + p3.pb + p4.pb) / 4 ∧
      block.pr = (p1.pr + p2.pr + p3.pr + p4.pr) / 4 ∧
      ((∀ p ∈ [p1, p2, p3, p4], -(1 / 2) ≤ p.pb ∧ p.pb ≤ 1 / 2) →
        -(1 / 2) ≤ block.pb ∧ block.pb ≤ 1 / 2) ∧
      ((∀ p ∈ [p1, p2, p3, p4], -(1 / 2) ≤ p.pr ∧ p.pr ≤ 1 / 2) →
        -(1 / 2) ≤ block.pr ∧ block.pr ≤ 1 / 2) := by
  refine ⟨?_, ?_, ?_, set_range_eq_clamp _ half_le_half, set_range_eq_clamp _ half_le_half,
    set_range_eq_clamp _ half_le_half, _, cv2dct_of_pixels h, average_four _ _ _ _,
    average_four _ _ _ _, ?_, ?_⟩
  · unfold Formulas_average
    have key : ∀ (l : List α) (s : α), l.foldl (fun sum x => sum + x) s = s + l.sum := by
      intro l
      induction l with
      | nil => intro s; simp
      | cons x l ih => intro s; rw [List.foldl_cons, ih, List.sum_cons, add_assoc]
    rw [key, zero_add]
  · rw [average_four]
    norm_num
  · show Formulas_set_range (Formulas_average [y1, y2, y3, y4] 4) 0 1 = _
    rw [average_four]
    exact set_range_eq_clamp _ zero_le_one
  · intro hp
    simp only [List.mem_cons, List.mem_singleton, List.not_mem_nil, or_false,
      forall_eq_or_imp, forall_eq] at hp
    obtain ⟨⟨a1, a2⟩, ⟨b1, b2⟩, ⟨c1, c2⟩, ⟨d1, d2⟩⟩ := hp
    show _ ≤ Formulas_average [p1.pb, p2.pb, p3.pb, p4.pb] 4 ∧
      Formulas_average [p1.pb, p2.pb, p3.pb, p4.pb] 4 ≤ _
    rw [average_four]
    constructor
    · rw [le_div_iff₀ (by norm_num)]; linarith
    · rw [div_le_iff₀ (by norm_num)]; linarith
  · intro hp
    simp only [List.mem_cons, List.mem_singleton, List.not_mem_nil, or_false,
      forall_eq_or_imp, forall_eq] at hp
    obtain ⟨⟨a1, a2⟩, ⟨b1, b2⟩, ⟨c1, c2⟩, ⟨d1, d2⟩⟩ := hp
    show _ ≤ Formulas_average [p1.pr, p2.pr, p3.pr, p4.pr] 4 ∧
      Formulas_average [p1.pr, p2.pr, p3.pr, p4.pr] 4 ≤ _
    rw [average_four]
    constructor
    · rw [le_div_iff₀ (by norm_num)]; linarith
    · rw [div_le_iff₀ (by norm_num)]; linarith

end PixelFormulas

/-- Witness of C24: the block of a 2 x 2 grid of rational pixels. -/
theorem block_transform_witness :
    ∃ block : DCT ℚ,
      apply_cv2dct 0 0
        ({ width := 2, height := 2,
           elems := [⟨1, 1 / 2, 0⟩, ⟨1 / 2, -(1 / 2), 1 / 4⟩, ⟨0, 0, 0⟩,
             ⟨1 / 4, 1 / 4, 1 / 2⟩] } : UArray2 (CVideo ℚ)) = Except.ok block ∧
      block.pb = (1 / 2 + -(1 / 2) + 0 + 1 / 4) / 4 ∧ block.pr = (0 + 1 / 4 + 0 + 1 / 2) / 4 :=
  let t := (block_transform ([] : List ℚ) 0 0 0 0 0
    ({ width := 2, height := 2,
       elems := [⟨1, 1 / 2, 0⟩, ⟨1 / 2, -(1 / 2), 1 / 4⟩, ⟨0, 0, 0⟩,
         ⟨1 / 4, 1 / 4, 1 / 2⟩] } : UArray2 (CVideo ℚ))
    0 0 ⟨1, 1 / 2, 0⟩ ⟨1 / 2, -(1 / 2), 1 / 4⟩ ⟨0, 0, 0⟩ ⟨1 / 4, 1 / 4, 1 / 2⟩ rfl).2.2.2.2.2.2
  ⟨t.choose, t.choose_spec.1, t.choose_spec.2.1, t.choose_spec.2.2.1⟩

section InverseFormulas

variable {α : Type} [LinearOrderedField α]

/-- C25: the inverse block transform undoes the forward one, floats read as
exact numbers.  For `y1 .. y4` in `[0, 1]` and `a`, `b`, `c`, `d` computed from
them by `Formulas_calculate_a/b/c/d`, `Formulas_calculate_y1 .. y4` of
`(a, b, c, d)` return `y1 .. y4`; and for arbitrary `a`, `b`, `c`, `d` each of
the four results lies in `[0, 1]`. -/
theorem inverse_block_transform (y1 y2 y3 y4 a b c d : α)
    (h1 : 0 ≤ y1 ∧ y1 ≤ 1) (h2 : 0 ≤ y2 ∧ y2 ≤ 1) (h3 : 0 ≤ y3 ∧ y3 ≤ 1)
    (h4 : 0 ≤ y4 ∧ y4 ≤ 1) :
    Formulas_calculate_y1 (Formulas_calculate_a y1 y2 y3 y4) (Formulas_calculate_b y1 y2 y3 y4)
      (Formulas_calculate_c y1 y2 y3 y4) (Formulas_calculate_d y1 y2 y3 y4) = y1 ∧
    Formulas_calculate_y2 (Formulas_calculate_a y1 y2 y3 y4) (Formulas_calculate_b y1 y2 y3 y4)
      (Formulas_calculate_c y1 y2 y3 y4) (Formulas_calculate_d y1 y2 y3 y4) = y2 ∧
    Formulas_calculate_y3 (Formulas_calculate_a y1 y2 y3 y4) (Formulas_calculate_b y1 y2 y3 y4)
      (Formulas_calculate_c y1 y2 y3 y4) (Formulas_calculate_d y1 y2 y3 y4) = y3 ∧
    Formulas_calculate_y4 (Formulas_calculate_a y1 y2 y3 y4) (Formulas_calculate_b y1 y2 y3 y4)
      (Formulas_calculate_c y1 y2 y3 y4) (Formulas_calculate_d y1 y2 y3 y4) = y4 ∧
    (0 ≤ Formulas_calculate_y1 a b c d ∧ Formulas_calculate_y1 a b c d ≤ 1) ∧
    (0 ≤ Formulas_calculate_y2 a b c d ∧ Formulas_calculate_y2 a b c d ≤ 1) ∧
    (0 ≤ Formulas_calculate_y3 a b c d ∧ Formulas_calculate_y3 a b c d ≤ 1) ∧
    (0 ≤ Formulas_calculate_y4 a b c d ∧ Formulas_calculate_y4 a b c d ≤ 1) := by
  obtain ⟨l1, u1⟩ := h1
  obtain ⟨l2, u2⟩ := h2
  obtain ⟨l3, u3⟩ := h3
  obtain ⟨l4, u4⟩ := h4
  have ha : Formulas_calculate_a y1 y2 y3 y4 = (y1 + y2 + y3 + y4) / 4 := by
    show Formulas_set_range (Formulas_average [y1, y2, y3, y4] 4) 0 1 = _
    rw [average_four]
    apply set_range_id
    · rw [le_div_iff₀ (by norm_num)]; linarith
    · rw [div_le_iff₀ (by norm_num)]; linarith
  have hb : Formulas_calculate_b y1 y2 y3 y4 = (y4 + y3 - y2 - y1) / 4 := by
    show Formulas_set_range _ (-(1 / 2)) (1 / 2) = _
    apply set_range_id
    · rw [le_div_iff₀ (by norm_num)]; linarith
    · rw [div_le_iff₀ (by norm_num)]; linarith
  have hc : Formulas_calculate_c y1 y2 y3 y4 = (y4 - y3 + y2 - y1) / 4 := by
    show Formulas_set_range _ (-(1 / 2)) (1 / 2) = _
    apply set_range_id
    · rw [le_div_iff₀ (by norm_num)]; linarith
    · rw [div_le_iff₀ (by norm_num)]; linarith
  have hd : Formulas_calculate_d y1 y2 y3 y4 = (y4 - y3 - y2 + y1) / 4 := by
    show Formulas_set_range _ (-(1 / 2)) (1 / 2) = _
    apply set_range_id
    · rw [le_div_iff₀ (by norm_num)]; linarith
    · rw [div_le_iff₀ (by norm_num)]; linarith
  rw [ha, hb, hc, hd]
  refine ⟨?_, ?_, ?_, ?_, set_range_mem _ zero_le_one, set_range_mem _ zero_le_one,
    set_range_mem _ zero_le_one, set_range_mem _ zero_le_one⟩
  · have e : (y1 + y2 + y3 + y4) / 4 - (y4 + y3 - y2 - y1) / 4 - (y4 - y3 + y2 - y1) / 4 +
        (y4 - y3 - y2 + y1) / 4 = y1 := by ring
    show Formulas_set_range _ 0 1 = _
    rw [e]
    exact set_range_id l1 u1
  · have e : (y1 + y2 + y3 + y4) / 4 - (y4 + y3 - y2 - y1) / 4 + (y4 - y3 + y2 - y1) / 4 -
        (y4 - y3 - y2 + y1) / 4 = y2 := by ring
    show Formulas_set_range _ 0 1 = _
    rw [e]
    exact set_range_id l2 u2
  · have e : (y1 + y2 + y3 + y4) / 4 + (y4 + y3 - y2 - y1) / 4 - (y4 - y3 + y2 - y1) / 4 -
        (y4 - y3 - y2 + y1) / 4 = y3 := by ring
    show Formulas_set_range _ 0 1 = _
    rw [e]
    exact set_range_id l3 u3
  · have e : (y1 + y2 + y3 + y4) / 4 + (y4 + y3 - y2 - y1) / 4 + (y4 - y3 + y2 - y1) / 4 +
        (y4 - y3 - y2 + y1) / 4 = y4 := by ring
    show Formulas_set_range _ 0 1 = _
    rw [e]
    exact set_range_id l4 u4

end InverseFormulas

/-- Witness of C25: the block of lumas `0, 1/2, 1, 1/4` over the rationals. -/
theorem inverse_block_transform_witness :
    Formulas_calculate_y1 (Formulas_calculate_a (0 : ℚ) (1 / 2) 1 (1 / 4))
      (Formulas_calculate_b (0 : ℚ) (1 / 2) 1 (1 / 4))
      (Formulas_calculate_c (0 : ℚ) (1 / 2) 1 (1 / 4))
      (Formulas_calculate_d (0 : ℚ) (1 / 2) 1 (1 / 4)) = 0 :=
  (inverse_block_transform (0 : ℚ) (1 / 2) 1 (1 / 4) 0 0 0 0
    ⟨by norm_num, by norm_num⟩ ⟨by norm_num, by norm_num⟩ ⟨by norm_num, by norm_num⟩
    ⟨by norm_num, by norm_num⟩).1

/-! ## Maps over the cells of a grid -/

theorem at_mem {β : Type} {image : UArray2 β} {c r : Nat} {v : β}
    (h : UArray2_at image c r = .ok v) : v ∈ image.elems := by
  unfold UArray2_at at h
  split_ifs at h with hb
  cases hg : image.elems.get? (r * image.width + c) with
  | none => rw [hg] at h; cases h
  | some x =>
    rw [hg] at h
    cases h
    exact List.get?_mem hg

theorem map_cells_spec {β γ : Type} (image : UArray2 β)
    (hwf : image.elems.length = image.width * image.height) (f : β → Except Error γ)
    (apply : Nat → Nat → Except Error γ)
    (happly : ∀ c r x, UArray2_at image c r = .ok x → apply c r = f x)
    (hok : ∀ x ∈ image.elems, ∃ y, f x = .ok y) :
    ∃ out, map_default image.width image.height apply = .ok out ∧
      out.width = image.width ∧ out.height = image.height ∧
      out.elems.length = image.width * image.height ∧
      ∀ c < image.width, ∀ r < image.height, ∃ x y,
        UArray2_at image c r = .ok x ∧ f x = .ok y ∧ UArray2_at out c r = .ok y := by
  have hcell : ∀ c < image.width, ∀ r < image.height, ∃ x y,
      UArray2_at image c r = .ok x ∧ f x = .ok y ∧ apply c r = .ok y := by
    intro c hc r hr
    obtain ⟨x, hx, _⟩ := at_wf image hwf hc hr
    obtain ⟨y, hy⟩ := hok x (at_mem hx)
    exact ⟨x, y, hx, hy, (happly c r x hx).trans hy⟩
  obtain ⟨out, h1, h2, h3, h4, h5⟩ := map_default_spec image.width image.height apply
    (fun c hc r hr => by
      obtain ⟨x, y, _, _, h⟩ := hcell c hc r hr
      exact ⟨y, h⟩)
  refine ⟨out, h1, h2, h3, h4, fun c hc r hr => ?_⟩
  obtain ⟨x, y, hx, hy, h⟩ := hcell c hc r hr
  exact ⟨x, y, hx, hy, (h5 c hc r hr).trans h⟩

section Normalization

variable {α : Type} [LinearOrderedField α]

theorem normalize_cells (image : UArray2 Pnm_rgb) (denom : Nat)
    (hwf : image.elems.length = image.width * image.height) :
    ∃ out : UArray2 (Normalized_rgb α), Transform_normalize image denom = .ok out ∧
      out.width = image.width ∧ out.height = image.height ∧
      out.elems.length = image.width * image.height ∧
      ∀ c < image.width, ∀ r < image.height, ∃ pixel normed,
        UArray2_at image c r = .ok pixel ∧ UArray2_at out c r = .ok normed ∧
        normed.red = Formulas_normalize pixel.red denom ∧
        normed.green = Formulas_normalize pixel.green denom ∧
        normed.blue = Formulas_normalize pixel.blue denom := by
  obtain ⟨out, h1, h2, h3, h4, h5⟩ := map_cells_spec image hwf
    (fun input => (.ok { red := Formulas_normalize input.red denom,
                         green := Formulas_normalize input.green denom,
                         blue := Formulas_normalize input.blue denom } :
      Except Error (Normalized_rgb α)))
    (fun i j => apply_normalization i j image denom)
    (fun c r x hx => by simp only [apply_normalization, hx]; rfl)
    (fun x _ => ⟨_, rfl⟩)
  refine ⟨out, h1, h2, h3, h4, fun c hc r hr => ?_⟩
  obtain ⟨x, y, hx, hy, hout⟩ := h5 c hc r hr
  cases hy
  exact ⟨x, _, hx, hout, rfl, rfl, rfl⟩

/-- C28: normalization, floats read as exact numbers.  For every channel value
`p` and every denominator `denom >= 1`, `Formulas_normalize p denom` is
`p / denom` clamped to `[0, 1]`: it lies in `[0, 1]` and is `p / denom` when
`p <= denom`.  `Transform_normalize` returns a grid of the same width and
height whose cell `(col, row)` holds `Formulas_normalize` of the red, green and
blue of the input pixel at `(col, row)`. -/
theorem normalize_spec (p denom : Nat) (image : UArray2 Pnm_rgb) (hd : 1 ≤ denom)
    (hwf : image.elems.length = image.width * image.height) :
    (Formulas_normalize p denom : α) = max 0 (min ((p : α) / (denom : α)) 1) ∧
    (0 ≤ (Formulas_normalize p denom : α) ∧ (Formulas_normalize p denom : α) ≤ 1) ∧
    (p ≤ denom → (Formulas_normalize p denom : α) = (p : α) / (denom : α)) ∧
    ∃ out : UArray2 (Normalized_rgb α), Transform_normalize image denom = .ok out ∧
      out.width = image.width ∧ out.height = image.height ∧
      ∀ c < image.width, ∀ r < image.height, ∃ pixel normed,
        UArray2_at image c r = .ok pixel ∧ UArray2_at out c r = .ok normed ∧
        normed.red = Formulas_normalize pixel.red denom ∧
        normed.green = Formulas_normalize pixel.green denom ∧
        normed.blue = Formulas_normalize pixel.blue denom := by
  have hpos : (0 : α) < (denom : α) := by
    have : 0 < denom := hd
    exact_mod_cast this
  refine ⟨set_range_eq_clamp _ zero_le_one, set_range_mem _ zero_le_one, fun hp => ?_, ?_⟩
  · apply set_range_id
    · positivity
    · rw [div_le_one hpos]
      exact_mod_cast hp
  · obtain ⟨out, h1, h2, h3, _, h5⟩ := normalize_cells (α := α) image denom hwf
    exact ⟨out, h1, h2, h3, h5⟩

end Normalization

/-- Witness of C28: channel 51 over denominator 255, and a 1 x 1 image. -/
theorem normalize_spec_witness :
    (Formulas_normalize 51 255 : ℚ) = max 0 (min ((51 : ℚ) / (255 : ℚ)) 1) ∧
    (51 ≤ 255 → (Formulas_normalize 51 255 : ℚ) = (51 : ℚ) / (255 : ℚ)) :=
  let t := normalize_spec (α := ℚ) 51 255 { width := 1, height := 1, elems := [⟨51, 0, 255⟩] }
    (by decide) rfl
  ⟨t.1, t.2.2.1⟩

section InversePixel

variable {α : Type} [LinearOrderedField α] [FloorRing α]

theorem quantize_channel {x : α} (h0 : 0 ≤ x) (h1 : x ≤ 1) {denom : Nat}
    (hd : denom < 2 ^ 31) :
    (to_unsigned (Formulas_quantize x 1 (denom : α)) : Int) = roundf (x * (denom : α)) ∧
      to_unsigned (Formulas_quantize x 1 (denom : α)) ≤ denom := by
  have hden : (0 : α) ≤ (denom : α) := Nat.cast_nonneg denom
  have hm : (0 : Int) ≤ roundf (x * (denom : α)) ∧ roundf (x * (denom : α)) ≤ (denom : Int) := by
    apply roundf_mem (le_refl _) (Int.natCast_nonneg denom)
    · push_cast
      positivity
    · push_cast
      exact mul_le_of_le_one_left hden h1
  obtain ⟨m0, m1⟩ := hm
  have hlt31 : roundf (x * (denom : α)) < 2 ^ 31 := by
    have : (denom : Int) < 2 ^ 31 := by exact_mod_cast hd
    omega
  have e : x / 1 * (denom : α) = x * (denom : α) := by rw [div_one]
  have hq : Formulas_quantize x 1 (denom : α) = roundf (x * (denom : α)) := by
    rw [quantize_eq x 1 (denom : α) (by rw [e]; omega) (by rw [e]; omega), e]
  rw [hq]
  unfold to_unsigned
  have hlt : roundf (x * (denom : α)) < 2 ^ 32 := by omega
  rw [Int.emod_eq_of_lt m0 hlt]
  constructor
  · exact Int.toNat_of_nonneg m0
  · omega

theorem cv2rgb_cells (image : UArray2 (CVideo α)) (denom : Nat)
    (hwf : image.elems.length = image.width * image.height) :
    ∃ out, Transform_cv_to_rgb image denom = .ok out ∧
      out.width = image.width ∧ out.height = image.height ∧
      out.elems.length = image.width * image.height ∧
      ∀ c < image.width, ∀ r < image.height, ∃ cv,
        UArray2_at image c r = .ok cv ∧ UArray2_at out c r = .ok (apply_cv2rgb cv denom) := by
  obtain ⟨out, h1, h2, h3, h4, h5⟩ := map_cells_spec image hwf
    (fun cv => (.ok (apply_cv2rgb cv denom) : Except Error Pnm_rgb))
    (fun i j => do
      let cv ← UArray2_at image i j
      pure (apply_cv2rgb cv denom))
    (fun c r x hx => by simp only [hx]; rfl)
    (fun x _ => ⟨_, rfl⟩)
  refine ⟨out, h1, h2, h3, h4, fun c hc r hr => ?_⟩
  obtain ⟨x, y, hx, hy, hout⟩ := h5 c hc r hr
  cases hy
  exact ⟨x, hx, hout⟩

/-- C23, amended: inverse pixel transform, floats read as exact numbers.  For
all `y`, `pb`, `pr` and every denominator `denom` with `1 ≤ denom < 2 ^ 31`
(one the `signed` result of `Formulas_quantize` can hold), the pixel
`apply_cv2rgb` writes has red `roundf (clamp(y + 1.402 pr, 0, 1) * denom)`, green
`roundf (clamp(y - 0.344136 pb - 0.714136 pr, 0, 1) * denom)` and blue
`roundf (clamp(y + 1.772 pb, 0, 1) * denom)`, so every channel lies in
`[0, denom]`. -/
theorem inverse_pixel_transform (cv : CVideo α) (denom : Nat) (h1 : 1 ≤ denom)
    (h2 : denom < 2 ^ 31) :
    ((apply_cv2rgb cv denom).red : Int) =
      roundf (max 0 (min (cv.y + 1402 / 1000 * cv.pr) 1) * (denom : α)) ∧
    ((apply_cv2rgb cv denom).green : Int) =
      roundf (max 0 (min (cv.y - 344136 / 1000000 * cv.pb - 714136 / 1000000 * cv.pr) 1) *
        (denom : α)) ∧
    ((apply_cv2rgb cv denom).blue : Int) =
      roundf (max 0 (min (cv.y + 1772 / 1000 * cv.pb) 1) * (denom : α)) ∧
    (apply_cv2rgb cv denom).red ≤ denom ∧ (apply_cv2rgb cv denom).green ≤ denom ∧
    (apply_cv2rgb cv denom).blue ≤ denom := by
  have hd : denom < 2 ^ 31 := by omega
  have er : Formulas_set_range (Formulas_calculate_inverse_r cv.y cv.pb cv.pr) 0 1 =
      max 0 (min (cv.y + 1402 / 1000 * cv.pr) 1) := by
    rw [set_range_eq_clamp _ zero_le_one]
    unfold Formulas_calculate_inverse_r
    rw [one_mul, zero_mul, add_zero]
  have eg : Formulas_set_range (Formulas_calculate_inverse_g cv.y cv.pb cv.pr) 0 1 =
      max 0 (min (cv.y - 344136 / 1000000 * cv.pb - 714136 / 1000000 * cv.pr) 1) := by
    rw [set_range_eq_clamp _ zero_le_one]
    unfold Formulas_calculate_inverse_g
    rw [one_mul]
  have eb : Formulas_set_range (Formulas_calculate_inverse_b cv.y cv.pb cv.pr) 0 1 =
      max 0 (min (cv.y + 1772 / 1000 * cv.pb) 1) := by
    rw [set_range_eq_clamp _ zero_le_one]
    unfold Formulas_calculate_inverse_b
    rw [one_mul, zero_mul, add_zero]
  have qr := quantize_channel
    (set_range_mem (Formulas_calculate_inverse_r cv.y cv.pb cv.pr) (zero_le_one : (0 : α) ≤ 1)).1
    (set_range_mem (Formulas_calculate_inverse_r cv.y cv.pb cv.pr) (zero_le_one : (0 : α) ≤ 1)).2
    hd
  have qg := quantize_channel
    (set_range_mem (Formulas_calculate_inverse_g cv.y cv.pb cv.pr) (zero_le_one : (0 : α) ≤ 1)).1
    (set_range_mem (Formulas_calculate_inverse_g cv.y cv.pb cv.pr) (zero_le_one : (0 : α) ≤ 1)).2
    hd
  have qb := quantize_channel
    (set_range_mem (Formulas_calculate_inverse_b cv.y cv.pb cv.pr) (zero_le_one : (0 : α) ≤ 1)).1
    (set_range_mem (Formulas_calculate_inverse_b cv.y cv.pb cv.pr) (zero_le_one : (0 : α) ≤ 1)).2
    hd
  rw [er] at qr
  rw [eg] at qg
  rw [eb] at qb
  have hred : (apply_cv2rgb cv denom).red = to_unsigned (Formulas_quantize
      (max 0 (min (cv.y + 1402 / 1000 * cv.pr) 1)) 1 (denom : α)) := by
    rw [← er]
    rfl
  have hgreen : (apply_cv2rgb cv denom).green = to_unsigned (Formulas_quantize
      (max 0 (min (cv.y - 344136 / 1000000 * cv.pb - 714136 / 1000000 * cv.pr) 1)) 1
      (denom : α)) := by
    rw [← eg]
    rfl
  have hblue : (apply_cv2rgb cv denom).blue = to_unsigned (Formulas_quantize
      (max 0 (min (cv.y + 1772 / 1000 * cv.pb) 1)) 1 (denom : α)) := by
    rw [← eb]
    rfl
  rw [hred, hgreen, hblue]
  exact ⟨qr.1, qg.1, qb.1, qr.2, qg.2, qb.2⟩

/-- C29: no check of the denominator.  `transform.h` documents that a `denom`
above 65535 raises an error in `Transform_normalize` and in
`Transform_cv_to_rgb`; neither function tests `denom`: on every grid (of
`width * height` cells) and for every `denom`, so for every `denom > 65535`,
both return a grid of the width and height of their input. -/
theorem denom_unchecked (image : UArray2 Pnm_rgb) (cv : UArray2 (CVideo α)) (denom : Nat)
    (hwf : image.elems.length = image.width * image.height)
    (hcv : cv.elems.length = cv.width * cv.height) :
    (∃ out : UArray2 (Normalized_rgb α), Transform_normalize image denom = .ok out ∧
      out.width = image.width ∧ out.height = image.height) ∧
    (∃ out, Transform_cv_to_rgb cv denom = .ok out ∧
      out.width = cv.width ∧ out.height = cv.height) := by
  obtain ⟨out, h1, h2, h3, _⟩ := normalize_cells (α := α) image denom hwf
  obtain ⟨rgb, g1, g2, g3, _⟩ := cv2rgb_cells cv denom hcv
  exact ⟨⟨out, h1, h2, h3⟩, ⟨rgb, g1, g2, g3⟩⟩

end InversePixel

/-- Counterexample to C23 as stated: at `denom = 3000000000` the pixel
`(y, pb, pr) = (1, 0, 0)` has `round(clamp(y + 1.402 pr, 0, 1) * denom)` equal
to 3000000000, and `apply_cv2rgb` writes the red channel 2147483648. -/
theorem cv2rgb_large_denominator :
    roundf (max 0 (min ((1 : ℚ) + 1402 / 1000 * 0) 1) * ((3000000000 : Nat) : ℚ)) =
      3000000000 ∧
    (apply_cv2rgb (⟨1, 0, 0⟩ : CVideo ℚ) 3000000000).red = 2147483648 := by
  have e0 : max 0 (min ((1 : ℚ) + 1402 / 1000 * 0) 1) * ((3000000000 : Nat) : ℚ) =
      ((3000000000 : Int) : ℚ) := by norm_num
  have e1 : Formulas_set_range (Formulas_calculate_inverse_r (1 : ℚ) 0 0) 0 1 = 1 := by
    unfold Formulas_calculate_inverse_r
    have ev : (1 : ℚ) * 1 + 0 * 0 + 1402 / 1000 * 0 = 1 := by norm_num
    rw [ev]
    exact set_range_id (by norm_num) (by norm_num)
  have e2 : (1 : ℚ) / 1 * ((3000000000 : Nat) : ℚ) = ((3000000000 : Int) : ℚ) := by norm_num
  have e3 : Formulas_quantize (1 : ℚ) 1 ((3000000000 : Nat) : ℚ) = -2 ^ 31 := by
    unfold Formulas_quantize
    rw [e2, roundf_intCast]
    exact to_signed_above (by norm_num)
  constructor
  · rw [e0]
    exact roundf_intCast 3000000000
  · show to_unsigned (Formulas_quantize
      (Formulas_set_range (Formulas_calculate_inverse_r (1 : ℚ) 0 0) 0 1) 1
      ((3000000000 : Nat) : ℚ)) = 2147483648
    rw [e1, e3]
    decide

/-- Witness of C23: the pixel `(1/2, 1/4, -1/4)` at denominator 255. -/
theorem inverse_pixel_transform_witness :
    ((apply_cv2rgb (⟨1 / 2, 1 / 4, -(1 / 4)⟩ : CVideo ℚ) 255).red : Int) =
      roundf (max 0 (min ((1 / 2 : ℚ) + 1402 / 1000 * -(1 / 4)) 1) * ((255 : Nat) : ℚ)) ∧
    (apply_cv2rgb (⟨1 / 2, 1 / 4, -(1 / 4)⟩ : CVideo ℚ) 255).red ≤ 255 :=
  let t := inverse_pixel_transform (⟨1 / 2, 1 / 4, -(1 / 4)⟩ : CVideo ℚ) 255
    (by decide) (by decide)
  ⟨t.1, t.2.2.2.1⟩

/-- Witness of C29: denominator 65536 on a 1 x 1 image and a 1 x 1 cv grid. -/
theorem denom_unchecked_witness :
    (∃ out : UArray2 (Normalized_rgb ℚ),
      Transform_normalize { width := 1, height := 1, elems := [⟨1, 1, 1⟩] } 65536 = .ok out ∧
      out.width = 1 ∧ out.height = 1) ∧
    (∃ out,
      Transform_cv_to_rgb
        ({ width := 1, height := 1, elems := [⟨1, 0, 0⟩] } : UArray2 (CVideo ℚ)) 65536 =
        .ok out ∧
      out.width = 1 ∧ out.height = 1) :=
  denom_unchecked (α := ℚ) { width := 1, height := 1, elems := [⟨1, 1, 1⟩] }
    { width := 1, height := 1, elems := [⟨1, 0, 0⟩] } 65536 rfl rfl

/-! ## Blocks of four pixels -/

theorem set_wf {β : Type} (image : UArray2 β) (c r : Nat) (v : β) :
    (UArray2_set image c r v).width = image.width ∧
    (UArray2_set image c r v).height = image.height ∧
    (UArray2_set image c r v).elems.length = image.elems.length :=
  ⟨rfl, rfl, List.length_set _ _ _⟩

theorem at_set_same {β : Type} (image : UArray2 β)
    (hwf : image.elems.length = image.width * image.height) {c r : Nat}
    (hc : c < image.width) (hr : r < image.height) (v : β) :
    UArray2_at (UArray2_set image c r v) c r = .ok v := by
  have hlt : r * image.width + c < image.elems.length := by
    rw [hwf]
    exact (cell_index hc hr).1
  apply at_of_get (UArray2_set image c r v) hc hr
  show (image.elems.set (r * image.width + c) v).get? (r * image.width + c) = some v
  rw [List.get?_eq_getElem?, List.getElem?_set_self hlt]

theorem at_set_other {β : Type} (image : UArray2 β) {c r c' r' : Nat}
    (hc : c < image.width) (hc' : c' < image.width) (hne : c' ≠ c ∨ r' ≠ r) (v : β) :
    UArray2_at (UArray2_set image c r v) c' r' = UArray2_at image c' r' := by
  have hidx : r * image.width + c ≠ r' * image.width + c' := by
    intro h
    have h1 := cell_index hc (Nat.lt_succ_self r)
    have h2 := cell_index hc' (Nat.lt_succ_self r')
    rw [h] at h1
    rcases hne with hne | hne
    · exact hne (h2.2.1.symm.trans h1.2.1)
    · exact hne (h2.2.2.symm.trans h1.2.2)
  unfold UArray2_at
  show (if c' < image.width ∧ r' < image.height then
      match (image.elems.set (r * image.width + c) v).get? (r' * image.width + c') with
      | some cell => Except.ok cell
      | none => Except.error Error.Assert_Failed
    else Except.error Error.Assert_Failed) = _
  rw [List.get?_eq_getElem?, List.getElem?_set_ne hidx, ← List.get?_eq_getElem?]

theorem set_spec {β : Type} (image : UArray2 β)
    (hwf : image.elems.length = image.width * image.height) {c r : Nat}
    (hc : c < image.width) (hr : r < image.height) (v : β) :
    (UArray2_set image c r v).width = image.width ∧
    (UArray2_set image c r v).height = image.height ∧
    (UArray2_set image c r v).elems.length =
      (UArray2_set image c r v).width * (UArray2_set image c r v).height ∧
    UArray2_at (UArray2_set image c r v) c r = .ok v ∧
    ∀ c' r', c' < image.width → (c' ≠ c ∨ r' ≠ r) →
      UArray2_at (UArray2_set image c r v) c' r' = UArray2_at image c' r' :=
  ⟨rfl, rfl, (List.length_set _ _ _).trans hwf, at_set_same image hwf hc hr v,
    fun _ _ hc' hne => at_set_other image hc hc' hne v⟩

section Blocks

variable {α : Type} [LinearOrderedField α]

omit [LinearOrderedField α] in
theorem get_pixel_wf (image : UArray2 (CVideo α))
    (hwf : image.elems.length = image.width * image.height) {i j : Nat}
    (hi : i + 1 < image.width) (hj : j + 1 < image.height) :
    ∃ p1 p2 p3 p4, UArray2_at image i j = .ok p1 ∧ UArray2_at image (i + 1) j = .ok p2 ∧
      UArray2_at image i (j + 1) = .ok p3 ∧ UArray2_at image (i + 1) (j + 1) = .ok p4 ∧
      get_pixel image i j = .ok (p1, p2, p3, p4) := by
  obtain ⟨p1, h1, _⟩ := at_wf image hwf (show i < image.width by omega)
    (show j < image.height by omega)
  obtain ⟨p2, h2, _⟩ := at_wf image hwf hi (show j < image.height by omega)
  obtain ⟨p3, h3, _⟩ := at_wf image hwf (show i < image.width by omega) hj
  obtain ⟨p4, h4, _⟩ := at_wf image hwf hi hj
  refine ⟨p1, p2, p3, p4, h1, h2, h3, h4, ?_⟩
  unfold get_pixel
  simp only [h1, h2, h3, h4]
  rfl

theorem cv_to_dct_cells (image : UArray2 (CVideo α))
    (hwf : image.elems.length = image.width * image.height) :
    ∃ out, Transform_cv_to_dct image = .ok out ∧
      out.width = image.width / 2 ∧ out.height = image.height / 2 ∧
      out.elems.length = image.width / 2 * (image.height / 2) ∧
      ∀ I < image.width / 2, ∀ J < image.height / 2,
        ∃ p1 p2 p3 p4,
          UArray2_at image (I * 2) (J * 2) = .ok p1 ∧
          UArray2_at image (I * 2 + 1) (J * 2) = .ok p2 ∧
          UArray2_at image (I * 2) (J * 2 + 1) = .ok p3 ∧
          UArray2_at image (I * 2 + 1) (J * 2 + 1) = .ok p4 ∧
          UArray2_at out I J = .ok
            { pb := Formulas_average [p1.pb, p2.pb, p3.pb, p4.pb] 4,
              pr := Formulas_average [p1.pr, p2.pr, p3.pr, p4.pr] 4,
              a := Formulas_calculate_a p1.y p2.y p3.y p4.y,
              b := Formulas_calculate_b p1.y p2.y p3.y p4.y,
              c := Formulas_calculate_c p1.y p2.y p3.y p4.y,
              d := Formulas_calculate_d p1.y p2.y p3.y p4.y } := by
  have hcell : ∀ I < image.width / 2, ∀ J < image.height / 2,
      ∃ p1 p2 p3 p4,
        UArray2_at image (I * 2) (J * 2) = .ok p1 ∧
        UArray2_at image (I * 2 + 1) (J * 2) = .ok p2 ∧
        UArray2_at image (I * 2) (J * 2 + 1) = .ok p3 ∧
        UArray2_at image (I * 2 + 1) (J * 2 + 1) = .ok p4 ∧
        apply_cv2dct I J image = .ok
          { pb := Formulas_average [p1.pb, p2.pb, p3.pb, p4.pb] 4,
            pr := Formulas_average [p1.pr, p2.pr, p3.pr, p4.pr] 4,
            a := Formulas_calculate_a p1.y p2.y p3.y p4.y,
            b := Formulas_calculate_b p1.y p2.y p3.y p4.y,
            c := Formulas_calculate_c p1.y p2.y p3.y p4.y,
            d := Formulas_calculate_d p1.y p2.y p3.y p4.y } := by
    intro I hI J hJ
    obtain ⟨p1, p2, p3, p4, h1, h2, h3, h4, hg⟩ := get_pixel_wf image hwf
      (show I * 2 + 1 < image.width by omega) (show J * 2 + 1 < image.height by omega)
    exact ⟨p1, p2, p3, p4, h1, h2, h3, h4, cv2dct_of_pixels hg⟩
  obtain ⟨out, h1, h2, h3, h4, h5⟩ := map_default_spec (image.width / 2) (image.height / 2)
    (fun i j => apply_cv2dct i j image)
    (fun c hc r hr => by
      obtain ⟨p1, p2, p3, p4, _, _, _, _, h⟩ := hcell c hc r hr
      exact ⟨_, h⟩)
  refine ⟨out, h1, h2, h3, h4, fun I hI J hJ => ?_⟩
  obtain ⟨p1, p2, p3, p4, a1, a2, a3, a4, h⟩ := hcell I hI J hJ
  exact ⟨p1, p2, p3, p4, a1, a2, a3, a4, (h5 I hI J hJ).trans h⟩

/-- C26: blocks of the forward direction.  For every cv grid of width `W` and
height `H` (even or odd, with `W * H` cells), `Transform_cv_to_dct` returns a
grid of width `W / 2` and height `H / 2` whose cell `(I, J)` is the block
computed from the cv pixels at `(2I, 2J)`, `(2I+1, 2J)`, `(2I, 2J+1)`,
`(2I+1, 2J+1)`, in this order (`y1 .. y4` and the four `pb`, `pr`); the four
reads are inside the `W` by `H` input. -/
theorem cv_to_dct_blocks (image : UArray2 (CVideo α))
    (hwf : image.elems.length = image.width * image.height) :
    ∃ out, Transform_cv_to_dct image = .ok out ∧
      out.width = image.width / 2 ∧ out.height = image.height / 2 ∧
      ∀ I < image.width / 2, ∀ J < image.height / 2,
        (2 * I + 1 < image.width ∧ 2 * J + 1 < image.height) ∧
        ∃ p1 p2 p3 p4,
          UArray2_at image (2 * I) (2 * J) = .ok p1 ∧
          UArray2_at image (2 * I + 1) (2 * J) = .ok p2 ∧
          UArray2_at image (2 * I) (2 * J + 1) = .ok p3 ∧
          UArray2_at image (2 * I + 1) (2 * J + 1) = .ok p4 ∧
          UArray2_at out I J = .ok
            { pb := Formulas_average [p1.pb, p2.pb, p3.pb, p4.pb] 4,
              pr := Formulas_average [p1.pr, p2.pr, p3.pr, p4.pr] 4,
              a := Formulas_calculate_a p1.y p2.y p3.y p4.y,
              b := Formulas_calculate_b p1.y p2.y p3.y p4.y,
              c := Formulas_calculate_c p1.y p2.y p3.y p4.y,
              d := Formulas_calculate_d p1.y p2.y p3.y p4.y } := by
  obtain ⟨out, h1, h2, h3, _, h5⟩ := cv_to_dct_cells image hwf
  refine ⟨out, h1, h2, h3, fun I hI J hJ => ⟨⟨by omega, by omega⟩, ?_⟩⟩
  obtain ⟨p1, p2, p3, p4, a1, a2, a3, a4, h⟩ := h5 I hI J hJ
  rw [Nat.mul_comm I 2, Nat.mul_comm J 2] at a1 a2 a3 a4
  exact ⟨p1, p2, p3, p4, a1, a2, a3, a4, h⟩

end Blocks

/-- Witness of C26: a 3 x 2 grid of rational pixels gives one block. -/
theorem cv_to_dct_blocks_witness :
    ∃ out,
      Transform_cv_to_dct
        ({ width := 3, height := 2,
           elems := [⟨1, 0, 0⟩, ⟨1 / 2, 0, 0⟩, ⟨0, 0, 0⟩, ⟨0, 1 / 2, 0⟩, ⟨1 / 4, 0, 1 / 2⟩,
             ⟨0, 0, 0⟩] } : UArray2 (CVideo ℚ)) = .ok out ∧
      out.width = 3 / 2 ∧ out.height = 2 / 2 :=
  let t := cv_to_dct_blocks
    ({ width := 3, height := 2,
       elems := [⟨1, 0, 0⟩, ⟨1 / 2, 0, 0⟩, ⟨0, 0, 0⟩, ⟨0, 1 / 2, 0⟩, ⟨1 / 4, 0, 1 / 2⟩,
         ⟨0, 0, 0⟩] } : UArray2 (CVideo ℚ)) rfl
  ⟨t.choose, t.choose_spec.1, t.choose_spec.2.1, t.choose_spec.2.2.1⟩

section Unblocks

variable {α : Type} [LinearOrderedField α]

theorem dct2cv_step (i j : Nat) (block : DCT α) (cv : UArray2 (CVideo α))
    (hwf : cv.elems.length = cv.width * cv.height)
    (hi : i * 2 + 1 < cv.width) (hj : j * 2 + 1 < cv.height) :
    ∃ out, apply_dct2cv i j block cv = .ok out ∧
      out.width = cv.width ∧ out.height = cv.height ∧
      out.elems.length = cv.elems.length ∧
      UArray2_at out (i * 2) (j * 2) = .ok
        { y := Formulas_calculate_y1 block.a block.b block.c block.d,
          pb := block.pb, pr := block.pr } ∧
      UArray2_at out (i * 2 + 1) (j * 2) = .ok
        { y := Formulas_calculate_y2 block.a block.b block.c block.d,
          pb := block.pb, pr := block.pr } ∧
      UArray2_at out (i * 2) (j * 2 + 1) = .ok
        { y := Formulas_calculate_y3 block.a block.b block.c block.d,
          pb := block.pb, pr := block.pr } ∧
      UArray2_at out (i * 2 + 1) (j * 2 + 1) = .ok
        { y := Formulas_calculate_y4 block.a block.b block.c block.d,
          pb := block.pb, pr := block.pr } ∧
      ∀ c r, c < cv.width → (c / 2 ≠ i ∨ r / 2 ≠ j) →
        UArray2_at out c r = UArray2_at cv c r := by
  obtain ⟨p1, p2, p3, p4, _, _, _, _, hg⟩ := get_pixel_wf cv hwf hi hj
  have hc0 : i * 2 < cv.width := by omega
  have hr0 : j * 2 < cv.height := by omega
  have key : apply_dct2cv i j block cv = .ok
      (UArray2_set (UArray2_set (UArray2_set (UArray2_set cv (i * 2) (j * 2)
        { y := Formulas_calculate_y1 block.a block.b block.c block.d,
          pb := block.pb, pr := block.pr }) (i * 2 + 1) (j * 2)
        { y := Formulas_calculate_y2 block.a block.b block.c block.d,
          pb := block.pb, pr := block.pr }) (i * 2) (j * 2 + 1)
        { y := Formulas_calculate_y3 block.a block.b block.c block.d,
          pb := block.pb, pr := block.pr }) (i * 2 + 1) (j * 2 + 1)
        { y := Formulas_calculate_y4 block.a block.b block.c block.d,
          pb := block.pb, pr := block.pr }) := by
    unfold apply_dct2cv BLOCKSIZE
    simp only [hg]
    rfl
  obtain ⟨A, hA⟩ : ∃ A, A = UArray2_set cv (i * 2) (j * 2)
      { y := Formulas_calculate_y1 block.a block.b block.c block.d,
        pb := block.pb, pr := block.pr } := ⟨_, rfl⟩
  rw [← hA] at key
  obtain ⟨Aw, Ah, Awf, Asame, Aother⟩ := set_spec cv hwf hc0 hr0
    { y := Formulas_calculate_y1 block.a block.b block.c block.d,
      pb := block.pb, pr := block.pr }
  rw [← hA] at Aw Ah Awf Asame Aother
  obtain ⟨B, hB⟩ : ∃ B, B = UArray2_set A (i * 2 + 1) (j * 2)
      { y := Formulas_calculate_y2 block.a block.b block.c block.d,
        pb := block.pb, pr := block.pr } := ⟨_, rfl⟩
  rw [← hB] at key
  obtain ⟨Bw, Bh, Bwf, Bsame, Bother⟩ := set_spec A Awf (Aw ▸ hi) (Ah ▸ hr0)
    { y := Formulas_calculate_y2 block.a block.b block.c block.d,
      pb := block.pb, pr := block.pr }
  rw [← hB] at Bw Bh Bwf Bsame Bother
  obtain ⟨C, hC⟩ : ∃ C, C = UArray2_set B (i * 2) (j * 2 + 1)
      { y := Formulas_calculate_y3 block.a block.b block.c block.d,
        pb := block.pb, pr := block.pr } := ⟨_, rfl⟩
  rw [← hC] at key
  obtain ⟨Cw, Ch, Cwf, Csame, Cother⟩ := set_spec B Bwf (Bw ▸ Aw ▸ hc0) (Bh ▸ Ah ▸ hj)
    { y := Formulas_calculate_y3 block.a block.b block.c block.d,
      pb := block.pb, pr := block.pr }
  rw [← hC] at Cw Ch Cwf Csame Cother
  obtain ⟨D, hD⟩ : ∃ D, D = UArray2_set C (i * 2 + 1) (j * 2 + 1)
      { y := Formulas_calculate_y4 block.a block.b block.c block.d,
        pb := block.pb, pr := block.pr } := ⟨_, rfl⟩
  rw [← hD] at key
  obtain ⟨Dw, Dh, Dwf, Dsame, Dother⟩ := set_spec C Cwf (Cw ▸ Bw ▸ Aw ▸ hi)
    (Ch ▸ Bh ▸ Ah ▸ hj)
    { y := Formulas_calculate_y4 block.a block.b block.c block.d,
      pb := block.pb, pr := block.pr }
  rw [← hD] at Dw Dh Dwf Dsame Dother
  have wA : A.width = cv.width := Aw
  have wB : B.width = cv.width := Bw.trans wA
  have wC : C.width = cv.width := Cw.trans wB
  have wD : D.width = cv.width := Dw.trans wC
  have hAh : A.height = cv.height := Ah
  have hBh : B.height = cv.height := Bh.trans hAh
  have hCh : C.height = cv.height := Ch.trans hBh
  have hDh : D.height = cv.height := Dh.trans hCh
  refine ⟨D, key, wD, hDh, ?_, ?_, ?_, ?_, Dsame, ?_⟩
  · rw [Dwf, wD, hDh, hwf]
  · rw [Dother _ _ (by omega) (Or.inl (by omega)), Cother _ _ (by omega) (Or.inr (by omega)),
      Bother _ _ (by omega) (Or.inl (by omega))]
    exact Asame
  · rw [Dother _ _ (by omega) (Or.inr (by omega)), Cother _ _ (by omega) (Or.inl (by omega))]
    exact Bsame
  · rw [Dother _ _ (by omega) (Or.inl (by omega))]
    exact Csame
  · intro c r hc hne
    rw [Dother c r (by omega) (by omega), Cother c r (by omega) (by omega),
      Bother c r (by omega) (by omega), Aother c r (by omega) (by omega)]

theorem map_update_dct2cv (w h : Nat) (blocks : List (DCT α)) (hlen : blocks.length = w * h) :
    ∀ (cells : List (DCT α)) (k : Nat) (cv : UArray2 (CVideo α)), blocks.drop k = cells →
      cv.width = w * 2 → cv.height = h * 2 → cv.elems.length = cv.width * cv.height →
      (∀ n < k, ∀ block, blocks.get? n = some block →
        UArray2_at cv (n % w * 2) (n / w * 2) = .ok
          { y := Formulas_calculate_y1 block.a block.b block.c block.d,
            pb := block.pb, pr := block.pr } ∧
        UArray2_at cv (n % w * 2 + 1) (n / w * 2) = .ok
          { y := Formulas_calculate_y2 block.a block.b block.c block.d,
            pb := block.pb, pr := block.pr } ∧
        UArray2_at cv (n % w * 2) (n / w * 2 + 1) = .ok
          { y := Formulas_calculate_y3 block.a block.b block.c block.d,
            pb := block.pb, pr := block.pr } ∧
        UArray2_at cv (n % w * 2 + 1) (n / w * 2 + 1) = .ok
          { y := Formulas_calculate_y4 block.a block.b block.c block.d,
            pb := block.pb, pr := block.pr }) →
      ∃ out, map_update w apply_dct2cv cells k cv = .ok out ∧
        out.width = w * 2 ∧ out.height = h * 2 ∧ out.elems.length = out.width * out.height ∧
        ∀ n < w * h, ∀ block, blocks.get? n = some block →
          UArray2_at out (n % w * 2) (n / w * 2) = .ok
            { y := Formulas_calculate_y1 block.a block.b block.c block.d,
              pb := block.pb, pr := block.pr } ∧
          UArray2_at out (n % w * 2 + 1) (n / w * 2) = .ok
            { y := Formulas_calculate_y2 block.a block.b block.c block.d,
              pb := block.pb, pr := block.pr } ∧
          UArray2_at out (n % w * 2) (n / w * 2 + 1) = .ok
            { y := Formulas_calculate_y3 block.a block.b block.c block.d,
              pb := block.pb, pr := block.pr } ∧
          UArray2_at out (n % w * 2 + 1) (n / w * 2 + 1) = .ok
            { y := Formulas_calculate_y4 block.a block.b block.c block.d,
              pb := block.pb, pr := block.pr } := by
  intro cells
  induction cells with
  | nil =>
    intro k cv hdrop hw hh hwf hinv
    have hk : w * h ≤ k := by
      rw [← hlen]
      exact List.drop_eq_nil_iff.mp hdrop
    exact ⟨cv, rfl, hw, hh, hwf, fun n hn => hinv n (by omega)⟩
  | cons cell rest ih =>
    intro k cv hdrop hw hh hwf hinv
    have hk : k < blocks.length := by
      by_contra hge
      rw [List.drop_eq_nil_iff.mpr (not_lt.mp hge)] at hdrop
      cases hdrop
    rw [List.drop_eq_getElem_cons hk] at hdrop
    have hcell : blocks[k] = cell := (List.cons.inj hdrop).1
    have hrest : blocks.drop (k + 1) = rest := (List.cons.inj hdrop).2
    obtain ⟨hm, hq, hdm⟩ := index_cell (hlen ▸ hk : k < w * h)
    obtain ⟨out, s1, s2, s3, s4, s5, s6, s7, s8, s9⟩ := dct2cv_step (k % w) (k / w) cell cv hwf
      (by omega) (by omega)
    have hwf2 : out.elems.length = out.width * out.height := by
      rw [s2, s3, s4]
      exact hwf
    obtain ⟨fin, f1, f2⟩ := ih (k + 1) out hrest (s2.trans hw) (s3.trans hh) hwf2 (by
      intro n hn block hb
      rcases Nat.lt_succ_iff_lt_or_eq.mp hn with hlt | heq
      · obtain ⟨a1, a2, a3, a4⟩ := hinv n hlt block hb
        have hn2 : n < w * h := by omega
        obtain ⟨nm, nq, ndm⟩ := index_cell hn2
        have hne : n % w ≠ k % w ∨ n / w ≠ k / w := by
          by_contra hcon
          push_neg at hcon
          rw [hcon.1, hcon.2] at ndm
          omega
        have d0 : (n % w * 2) / 2 = n % w := by omega
        have d1 : (n % w * 2 + 1) / 2 = n % w := by omega
        have e0 : (n / w * 2) / 2 = n / w := by omega
        have e1 : (n / w * 2 + 1) / 2 = n / w := by omega
        refine ⟨?_, ?_, ?_, ?_⟩
        · rw [s9 _ _ (by omega) (by rw [d0, e0]; exact hne)]
          exact a1
        · rw [s9 _ _ (by omega) (by rw [d1, e0]; exact hne)]
          exact a2
        · rw [s9 _ _ (by omega) (by rw [d0, e1]; exact hne)]
          exact a3
        · rw [s9 _ _ (by omega) (by rw [d1, e1]; exact hne)]
          exact a4
      · subst heq
        rw [List.get?_eq_getElem?, List.getElem?_eq_getElem hk, hcell] at hb
        cases hb
        exact ⟨s5, s6, s7, s8⟩)
    refine ⟨fin, ?_, f2⟩
    rw [map_update, s1]
    exact f1

theorem dct_to_cv_cells (image : UArray2 (DCT α))
    (hwf : image.elems.length = image.width * image.height) :
    ∃ cv, Transform_dct_to_cv image = .ok cv ∧
      cv.width = 2 * image.width ∧ cv.height = 2 * image.height ∧
      cv.elems.length = cv.width * cv.height ∧
      ∀ x < 2 * image.width, ∀ y < 2 * image.height, ∃ block cell,
        UArray2_at image (x / 2) (y / 2) = .ok block ∧ UArray2_at cv x y = .ok cell ∧
        cell.pb = block.pb ∧ cell.pr = block.pr ∧
        [Formulas_calculate_y1 block.a block.b block.c block.d,
          Formulas_calculate_y2 block.a block.b block.c block.d,
          Formulas_calculate_y3 block.a block.b block.c block.d,
          Formulas_calculate_y4 block.a block.b block.c block.d].get? (x % 2 + 2 * (y % 2)) =
          some cell.y := by
  obtain ⟨cv, h1, h2, h3, h4, h5⟩ := map_update_dct2cv image.width image.height image.elems hwf
    image.elems 0
    { width := image.width * 2, height := image.height * 2,
      elems := List.replicate (image.width * 2 * (image.height * 2)) { y := 0, pb := 0, pr := 0 } }
    rfl rfl rfl (List.length_replicate _ _) (fun n hn => absurd hn (Nat.not_lt_zero n))
  refine ⟨cv, h1, by omega, by omega, h4, fun x hx y hy => ?_⟩
  have hx2 : x / 2 < image.width := by omega
  have hy2 : y / 2 < image.height := by omega
  obtain ⟨block, hb1, hb2⟩ := at_wf image hwf hx2 hy2
  obtain ⟨hlt, hm, hd⟩ := cell_index hx2 hy2
  obtain ⟨a1, a2, a3, a4⟩ := h5 _ hlt block hb2
  rw [hm, hd] at a1 a2 a3 a4
  rcases Nat.mod_two_eq_zero_or_one x with ex | ex <;>
    rcases Nat.mod_two_eq_zero_or_one y with ey | ey
  · rw [show x / 2 * 2 = x by omega, show y / 2 * 2 = y by omega] at a1
    exact ⟨block, _, hb1, a1, rfl, rfl, by rw [ex, ey]; rfl⟩
  · rw [show x / 2 * 2 = x by omega, show y / 2 * 2 + 1 = y by omega] at a3
    exact ⟨block, _, hb1, a3, rfl, rfl, by rw [ex, ey]; rfl⟩
  · rw [show x / 2 * 2 + 1 = x by omega, show y / 2 * 2 = y by omega] at a2
    exact ⟨block, _, hb1, a2, rfl, rfl, by rw [ex, ey]; rfl⟩
  · rw [show x / 2 * 2 + 1 = x by omega, show y / 2 * 2 + 1 = y by omega] at a4
    exact ⟨block, _, hb1, a4, rfl, rfl, by rw [ex, ey]; rfl⟩

end Unblocks

theorem except_bind_ok {ε β γ : Type} (x : β) (f : β → Except ε γ) :
    (Except.ok x >>= f) = f x := rfl

theorem mem_at {β : Type} (image : UArray2 β)
    (hwf : image.elems.length = image.width * image.height) {x : β} (hx : x ∈ image.elems) :
    ∃ c < image.width, ∃ r < image.height, UArray2_at image c r = .ok x := by
  obtain ⟨k, hk, hget⟩ := List.getElem_of_mem hx
  obtain ⟨hm, hq, hdm⟩ := index_cell (hwf ▸ hk : k < image.width * image.height)
  refine ⟨k % image.width, hm, k / image.width, hq, at_of_get image hm hq ?_⟩
  rw [hdm, List.get?_eq_getElem?, List.getElem?_eq_getElem hk, hget]

theorem map_cells_mem {β γ : Type} (image : UArray2 β)
    (hwf : image.elems.length = image.width * image.height) (f : β → Except Error γ)
    (apply : Nat → Nat → Except Error γ)
    (happly : ∀ c r x, UArray2_at image c r = .ok x → apply c r = f x)
    (hok : ∀ x ∈ image.elems, ∃ y, f x = .ok y) :
    ∃ out, map_default image.width image.height apply = .ok out ∧
      out.width = image.width ∧ out.height = image.height ∧
      out.elems.length = out.width * out.height ∧
      ∀ y ∈ out.elems, ∃ x ∈ image.elems, f x = .ok y := by
  obtain ⟨out, h1, h2, h3, h4, h5⟩ := map_cells_spec image hwf f apply happly hok
  have hwf2 : out.elems.length = out.width * out.height := by rw [h2, h3, h4]
  refine ⟨out, h1, h2, h3, hwf2, fun y hy => ?_⟩
  obtain ⟨c, hc, r, hr, hat⟩ := mem_at out hwf2 hy
  obtain ⟨x, y2, hx, hfx, hout⟩ := h5 c (h2 ▸ hc) r (h3 ▸ hr)
  rw [hat] at hout
  cases hout
  exact ⟨x, at_mem hx, hfx⟩

/-- Reading back the stream `IO_write_binary` writes for a grid of codewords
below `2 ^ 32`. -/
theorem read_written (image : UArray2 Nat)
    (hwf : image.elems.length = image.width * image.height)
    (hc : ∀ w ∈ image.elems, w < 2 ^ 32)
    (hw : 2 * image.width < 2 ^ 31) (hh : 2 * image.height < 2 ^ 31) :
    IO_read_binary (c_str "COMP40 Compressed image format 2\n" ++
        (print_unsigned (2 * image.width) ++ 32 :: print_unsigned (2 * image.height)) ++
        [10] ++
        (image.elems.map (fun cell => [cell % 2 ^ 32 / 2 ^ 24 % 2 ^ 8,
          cell % 2 ^ 32 / 2 ^ 16 % 2 ^ 8, cell % 2 ^ 32 / 2 ^ 8 % 2 ^ 8,
          cell % 2 ^ 32 / 2 ^ 0 % 2 ^ 8])).flatten) 2 32 = .ok image := by
  have hscan := fscanf_written (2 * image.width) (2 * image.height)
    ((image.elems.map (fun cell => [cell % 2 ^ 32 / 2 ^ 24 % 2 ^ 8,
      cell % 2 ^ 32 / 2 ^ 16 % 2 ^ 8, cell % 2 ^ 32 / 2 ^ 8 % 2 ^ 8,
      cell % 2 ^ 32 / 2 ^ 0 % 2 ^ 8])).flatten) (by omega) (by omega)
  have hread := small_map_read_written image.elems [] hc
  rw [List.append_nil, hwf] at hread
  have e1 : 2 * image.width / 2 = image.width := by omega
  have e2 : 2 * image.height / 2 = image.height := by omega
  rw [read_binary_of_scan hscan, e1, e2, hread]

section Stages

variable {α : Type} [LinearOrderedField α] [FloorRing α]

omit [FloorRing α] in
theorem rgb_to_cv_cells (image : UArray2 (Normalized_rgb α))
    (hwf : image.elems.length = image.width * image.height) :
    ∃ out, Transform_rgb_to_cv image = .ok out ∧
      out.width = image.width ∧ out.height = image.height ∧
      out.elems.length = out.width * out.height := by
  obtain ⟨out, h1, h2, h3, h4, _⟩ := map_cells_mem image hwf
    (fun rgb => (.ok { y := Formulas_calculate_y rgb.red rgb.green rgb.blue,
                       pb := Formulas_calculate_pb rgb.red rgb.green rgb.blue,
                       pr := Formulas_calculate_pr rgb.red rgb.green rgb.blue } :
      Except Error (CVideo α)))
    (fun i j => apply_rgb2cv i j image)
    (fun c r x hx => by simp only [apply_rgb2cv, hx]; rfl)
    (fun x _ => ⟨_, rfl⟩)
  exact ⟨out, h1, h2, h3, h4⟩

omit [FloorRing α] in
theorem cv_to_dct_mem (image : UArray2 (CVideo α))
    (hwf : image.elems.length = image.width * image.height) :
    ∃ out, Transform_cv_to_dct image = .ok out ∧
      out.width = image.width / 2 ∧ out.height = image.height / 2 ∧
      out.elems.length = out.width * out.height ∧
      ∀ block ∈ out.elems, 0 ≤ block.a ∧ block.a ≤ 1 := by
  obtain ⟨out, h1, h2, h3, h4, h5⟩ := cv_to_dct_cells image hwf
  have hwf2 : out.elems.length = out.width * out.height := by rw [h2, h3, h4]
  refine ⟨out, h1, h2, h3, hwf2, fun block hb => ?_⟩
  obtain ⟨c, hc, r, hr, hat⟩ := mem_at out hwf2 hb
  obtain ⟨p1, p2, p3, p4, _, _, _, _, hout⟩ := h5 c (h2 ▸ hc) r (h3 ▸ hr)
  rw [hat] at hout
  cases hout
  exact set_range_mem _ (zero_le_one : (MIN_A : α) ≤ MAX_A)

theorem quantized_word (index_of_chroma : α → Nat) (hidx : ∀ x, index_of_chroma x ≤ 15)
    (block : DCT α) (ha : 0 ≤ block.a ∧ block.a ≤ 1) :
    ∃ w, apply_dct2word (apply_quantize_dct index_of_chroma block) = .ok w ∧ w < 2 ^ 32 ∧
      apply_word2dct w = .ok (apply_quantize_dct index_of_chroma block) := by
  obtain ⟨qa0, qa1⟩ := quantize_a_mem ha.1 ha.2
  have hA : to_u64 (Formulas_quantize block.a 1 A_RANGE) ≤ 511 := by
    unfold to_u64
    omega
  have hb := quantize_bcd_mem block.b
  have hc := quantize_bcd_mem block.c
  have hd := quantize_bcd_mem block.d
  have hpb := hidx block.pb
  have hpr := hidx block.pr
  refine ⟨_, dct2word_eq hA ⟨by omega, hb.2⟩ ⟨by omega, hc.2⟩ ⟨by omega, hd.2⟩ hpb hpr, ?_,
    word2dct_eq hA ⟨by omega, hb.2⟩ ⟨by omega, hc.2⟩ ⟨by omega, hd.2⟩ hpb hpr⟩
  omega

theorem cv2rgb_le (cv : CVideo α) {denom : Nat} (hd : denom < 2 ^ 31) :
    (apply_cv2rgb cv denom).red ≤ denom ∧ (apply_cv2rgb cv denom).green ≤ denom ∧
    (apply_cv2rgb cv denom).blue ≤ denom :=
  ⟨(quantize_channel (set_range_mem _ (zero_le_one : (0 : α) ≤ 1)).1
      (set_range_mem _ (zero_le_one : (0 : α) ≤ 1)).2 hd).2,
    (quantize_channel (set_range_mem _ (zero_le_one : (0 : α) ≤ 1)).1
      (set_range_mem _ (zero_le_one : (0 : α) ≤ 1)).2 hd).2,
    (quantize_channel (set_range_mem _ (zero_le_one : (0 : α) ≤ 1)).1
      (set_range_mem _ (zero_le_one : (0 : α) ≤ 1)).2 hd).2⟩

end Stages

section RoundTrip

variable {α : Type} [LinearOrderedField α] [FloorRing α]

theorem compress40_words (index_of_chroma : α → Nat) (read : Pnm_ppm)
    (hw : read.pixels.width = read.width) (hh : read.pixels.height = read.height)
    (hwf : read.pixels.elems.length = read.width * read.height)
    (hW : read.width < 2 ^ 31) (hH : read.height < 2 ^ 31)
    (hidx : ∀ x, index_of_chroma x ≤ 15) :
    ∃ word : UArray2 Nat,
      word.width = (read.width - read.width % 2) / 2 ∧
      word.height = (read.height - read.height % 2) / 2 ∧
      word.elems.length = word.width * word.height ∧
      (∀ w ∈ word.elems, w < 2 ^ 32 ∧ ∃ y, apply_word2dct w = .ok y) ∧
      compress40 index_of_chroma read =
        .ok (c_str "COMP40 Compressed image format 2\n" ++
          (print_unsigned (2 * word.width) ++ 32 :: print_unsigned (2 * word.height)) ++
          [10] ++
          (word.elems.map (fun cell => [cell % 2 ^ 32 / 2 ^ 24 % 2 ^ 8,
            cell % 2 ^ 32 / 2 ^ 16 % 2 ^ 8, cell % 2 ^ 32 / 2 ^ 8 % 2 ^ 8,
            cell % 2 ^ 32 / 2 ^ 0 % 2 ^ 8])).flatten) := by
  obtain ⟨pixmap, s1, pw, ph, _, ppw, pph, pwf, _⟩ := read_plain_image_spec read
    (by omega) (by omega) hw hh hwf
  have pwf2 : pixmap.pixels.elems.length = pixmap.pixels.width * pixmap.pixels.height := by
    rw [ppw, pph]
    exact pwf
  obtain ⟨rgb, s2, rw1, rh1, rlen, _⟩ := normalize_cells (α := α) pixmap.pixels
    pixmap.denominator pwf2
  have rwf : rgb.elems.length = rgb.width * rgb.height := by
    rw [rw1, rh1]
    exact rlen
  obtain ⟨cv, s3, cw, ch, cwf⟩ := rgb_to_cv_cells rgb rwf
  obtain ⟨dct, s4, dw, dh, dwf, da⟩ := cv_to_dct_mem cv cwf
  obtain ⟨q, s5, qw, qh, qwf, qmem⟩ := map_cells_mem dct dwf
    (fun block => (.ok (apply_quantize_dct index_of_chroma block) :
      Except Error Word_component))
    (fun i j => do
      let block ← UArray2_at dct i j
      pure (apply_quantize_dct index_of_chroma block))
    (fun c r x hx => by simp only [hx]; rfl)
    (fun x _ => ⟨_, rfl⟩)
  have hq : ∀ x ∈ q.elems, ∃ w, apply_dct2word x = .ok w ∧ w < 2 ^ 32 ∧
      apply_word2dct w = .ok x := by
    intro x hx
    obtain ⟨block, hb, he⟩ := qmem x hx
    cases he
    exact quantized_word index_of_chroma hidx block (da block hb)
  obtain ⟨word, s6, ww, wh, wwf, wmem⟩ := map_cells_mem q qwf apply_dct2word
    (fun i j => do
      let component ← UArray2_at q i j
      apply_dct2word component)
    (fun c r x hx => by simp only [hx]; exact except_bind_ok _ _)
    (fun x hx => by
      obtain ⟨w, h1, _⟩ := hq x hx
      exact ⟨w, h1⟩)
  have e1 : word.width = (read.width - read.width % 2) / 2 := by
    rw [ww, qw, dw, cw, rw1, ppw, pw]
  have e2 : word.height = (read.height - read.height % 2) / 2 := by
    rw [wh, qh, dh, ch, rh1, pph, ph]
  have s5f : Transform_quantize_dct index_of_chroma dct = .ok q := s5
  have s6f : Transform_dct_to_word q = .ok word := s6
  have s7 : IO_write_binary word (BLOCKSIZE : Int) CODE_LENGTH = _ :=
    write_binary_eq word (by omega) (by omega)
  refine ⟨word, e1, e2, wwf, fun w hmem => ?_, ?_⟩
  · obtain ⟨x, hx, hxw⟩ := wmem w hmem
    obtain ⟨w2, h1, h2, h3⟩ := hq x hx
    rw [hxw] at h1
    cases h1
    exact ⟨h2, x, h3⟩
  · unfold compress40
    simp only [s1, except_bind_ok, s2, s3, s4, s5f, s6f, s7]
    rfl

theorem decompress40_words (chroma_of_index : Nat → α) (word : UArray2 Nat)
    (hwf : word.elems.length = word.width * word.height)
    (hc : ∀ w ∈ word.elems, w < 2 ^ 32 ∧ ∃ y, apply_word2dct w = .ok y)
    (hw : 2 * word.width < 2 ^ 31) (hh : 2 * word.height < 2 ^ 31) :
    ∃ out,
      decompress40 chroma_of_index (c_str "COMP40 Compressed image format 2\n" ++
          (print_unsigned (2 * word.width) ++ 32 :: print_unsigned (2 * word.height)) ++
          [10] ++
          (word.elems.map (fun cell => [cell % 2 ^ 32 / 2 ^ 24 % 2 ^ 8,
            cell % 2 ^ 32 / 2 ^ 16 % 2 ^ 8, cell % 2 ^ 32 / 2 ^ 8 % 2 ^ 8,
            cell % 2 ^ 32 / 2 ^ 0 % 2 ^ 8])).flatten) = .ok out ∧
      out.width = 2 * word.width ∧ out.height = 2 * word.height ∧
      out.denominator = 255 ∧
      out.pixels.width = out.width ∧ out.pixels.height = out.height ∧
      ∀ c < out.width, ∀ r < out.height, ∃ p,
        UArray2_at out.pixels c r = .ok p ∧ p.red ≤ 255 ∧ p.green ≤ 255 ∧ p.blue ≤ 255 := by
  have d1 : IO_read_binary _ (BLOCKSIZE : Int) CODE_LENGTH = .ok word :=
    read_written word hwf (fun w hm => (hc w hm).1) hw hh
  obtain ⟨comp, d2, cw, ch, cwf, _⟩ := map_cells_mem word hwf apply_word2dct
    (fun i j => do
      let w ← UArray2_at word i j
      apply_word2dct w)
    (fun c r x hx => by simp only [hx]; exact except_bind_ok _ _)
    (fun x hx => (hc x hx).2)
  obtain ⟨dct, d3, dw, dh, dwf, _⟩ := map_cells_mem comp cwf
    (fun w => (.ok (apply_unquantize_dct chroma_of_index w) : Except Error (DCT α)))
    (fun i j => do
      let w ← UArray2_at comp i j
      pure (apply_unquantize_dct chroma_of_index w))
    (fun c r x hx => by simp only [hx]; rfl)
    (fun x _ => ⟨_, rfl⟩)
  obtain ⟨cv, d4, vw, vh, vwf, _⟩ := dct_to_cv_cells dct dwf
  obtain ⟨rgb, d5, gw, gh, _, gcells⟩ := cv2rgb_cells cv DENOMINATOR vwf
  have d2f : Transform_word_to_dct word = .ok comp := d2
  have d3f : Transform_unquantize_dct chroma_of_index comp = .ok dct := d3
  have e1 : rgb.width = 2 * word.width := by rw [gw, vw, dw, cw]
  have e2 : rgb.height = 2 * word.height := by rw [gh, vh, dh, ch]
  refine ⟨{ width := rgb.width, height := rgb.height, denominator := DENOMINATOR,
            pixels := rgb }, ?_, e1, e2, rfl, rfl, rfl, fun c hc r hr => ?_⟩
  · unfold decompress40
    simp only [d1, except_bind_ok, d2f, d3f, d4, d5]
    rfl
  · obtain ⟨x, _, hout⟩ := gcells c (gw ▸ hc) r (gh ▸ hr)
    exact ⟨_, hout, cv2rgb_le x (by unfold DENOMINATOR; norm_num)⟩

/-- C30: the full round trip keeps the dimensions, floats read as exact
numbers.  For every input image of width `W` and height `H` (a `W` by `H` grid
as `Pnm_ppmread` returns it, with `W`, `H` below `2 ^ 31` and a denominator of
at least 1) and every chroma quantizer with indices in `[0, 15]`, `compress40`
writes a stream whose header declares width `W - W % 2` and height
`H - H % 2`, and `decompress40` applied to that stream yields an image of
exactly that width and height, with denominator 255 and every channel in
`[0, 255]`; for even `W` and `H` these are the dimensions of the input. -/
theorem compress_decompress_dimensions (index_of_chroma : α → Nat)
    (chroma_of_index : Nat → α) (read : Pnm_ppm)
    (hw : read.pixels.width = read.width) (hh : read.pixels.height = read.height)
    (hwf : read.pixels.elems.length = read.width * read.height)
    (hW : read.width < 2 ^ 31) (hH : read.height < 2 ^ 31)
    (hden : 1 ≤ read.denominator)
    (hidx : ∀ x, index_of_chroma x ≤ 15) :
    ∃ stream body out,
      compress40 index_of_chroma read = .ok stream ∧
      stream = c_str "COMP40 Compressed image format 2\n" ++
        c_str (toString (read.width - read.width % 2)) ++ c_str " " ++
        c_str (toString (read.height - read.height % 2)) ++ c_str "\n" ++ body ∧
      decompress40 chroma_of_index stream = .ok out ∧
      out.width = read.width - read.width % 2 ∧
      out.height = read.height - read.height % 2 ∧
      out.denominator = 255 ∧
      out.pixels.width = out.width ∧ out.pixels.height = out.height ∧
      (∀ c < out.width, ∀ r < out.height, ∃ p,
        UArray2_at out.pixels c r = .ok p ∧ p.red ≤ 255 ∧ p.green ≤ 255 ∧ p.blue ≤ 255) ∧
      (read.width % 2 = 0 → read.height % 2 = 0 →
        out.width = read.width ∧ out.height = read.height) := by
  obtain ⟨word, e1, e2, wwf, wc, hcomp⟩ := compress40_words index_of_chroma read hw hh hwf
    hW hH hidx
  have hpos : 0 < read.denominator := hden
  have f1 : 2 * word.width = read.width - read.width % 2 := by omega
  have f2 : 2 * word.height = read.height - read.height % 2 := by omega
  obtain ⟨out, hdec, o1, o2, o3, o4, o5, o6⟩ := decompress40_words chroma_of_index word wwf wc
    (by omega) (by omega)
  refine ⟨_, (word.elems.map (fun cell => [cell % 2 ^ 32 / 2 ^ 24 % 2 ^ 8,
    cell % 2 ^ 32 / 2 ^ 16 % 2 ^ 8, cell % 2 ^ 32 / 2 ^ 8 % 2 ^ 8,
    cell % 2 ^ 32 / 2 ^ 0 % 2 ^ 8])).flatten, out, hcomp, ?_, hdec, o1.trans f1, o2.trans f2, o3, o4, o5, o6, fun h1 h2 => ?_⟩
  · rw [f1, f2, print_unsigned_eq, print_unsigned_eq]
    have h1 : c_str " " = [32] := by decide
    have h2 : c_str "\n" = [10] := by decide
    rw [h1, h2]
    simp only [List.append_assoc, List.singleton_append, List.cons_append, List.nil_append]
  · constructor
    · omega
    · omega

end RoundTrip

/-- Witness of C30: a 3 x 2 image comes back as a 2 x 2 image. -/
theorem compress_decompress_dimensions_witness :
    ∃ stream out,
      compress40 (fun _ : ℚ => 0)
        { width := 3, height := 2, denominator := 255,
          pixels :=
            { width := 3, height := 2,
              elems := [⟨255, 0, 0⟩, ⟨0, 255, 0⟩, ⟨1, 2, 3⟩, ⟨0, 0, 255⟩, ⟨255, 255, 255⟩,
                ⟨4, 5, 6⟩] } } = .ok stream ∧
      decompress40 (fun _ : Nat => (0 : ℚ)) stream = .ok out ∧
      out.width = 3 - 3 % 2 ∧ out.height = 2 - 2 % 2 ∧ out.denominator = 255 := by
  obtain ⟨stream, _, out, h1, _, h3, h4, h5, h6, _⟩ :=
    compress_decompress_dimensions (fun _ : ℚ => 0) (fun _ : Nat => (0 : ℚ))
      { width := 3, height := 2, denominator := 255,
        pixels :=
          { width := 3, height := 2,
            elems := [⟨255, 0, 0⟩, ⟨0, 255, 0⟩, ⟨1, 2, 3⟩, ⟨0, 0, 255⟩, ⟨255, 255, 255⟩,
              ⟨4, 5, 6⟩] } }
      rfl rfl rfl (by norm_num) (by norm_num) (by decide) (fun _ => Nat.zero_le 15)
  exact ⟨stream, out, h1, h3, h4, h5, h6⟩


/-! ## Clamping -/

section FloatClamp

variable {γ : Type} [LinearOrder γ]

/-- `Formulas_set_range` on numbers of a linear order, for `l ≤ u`. -/
theorem set_range_order (x l u : γ) (h : l ≤ u) :
    (x < l → Formulas_set_range x l u = l) ∧
    (x > u → Formulas_set_range x l u = u) ∧
    (¬ x < l → ¬ x > u → Formulas_set_range x l u = x) ∧
    (l ≤ Formulas_set_range x l u ∧ Formulas_set_range x l u ≤ u) ∧
    (Formulas_set_range x l u = x ↔ l ≤ x ∧ x ≤ u) ∧
    Formulas_set_range (Formulas_set_range x l u) l u = Formulas_set_range x l u := by
  have e1 : x < l → Formulas_set_range x l u = l := by
    intro h1
    unfold Formulas_set_range
    rw [if_pos h1]
  have e2 : x > u → Formulas_set_range x l u = u := by
    intro h2
    unfold Formulas_set_range
    rw [if_neg (not_lt.mpr (le_trans h (le_of_lt h2))), if_pos h2]
  have e3 : ¬ x < l → ¬ x > u → Formulas_set_range x l u = x := by
    intro n1 n2
    unfold Formulas_set_range
    rw [if_neg n1, if_neg n2]
  have hid : ∀ y : γ, l ≤ y → y ≤ u → Formulas_set_range y l u = y := by
    intro y a b
    unfold Formulas_set_range
    rw [if_neg (not_lt.mpr a), if_neg (not_lt.mpr b)]
  have hm : l ≤ Formulas_set_range x l u ∧ Formulas_set_range x l u ≤ u := by
    rcases lt_or_le x l with h1 | h1
    · rw [e1 h1]
      exact ⟨le_refl _, h⟩
    · rcases lt_or_le u x with h2 | h2
      · rw [e2 h2]
        exact ⟨h, le_refl _⟩
      · rw [hid x h1 h2]
        exact ⟨h1, h2⟩
  refine ⟨e1, e2, e3, hm, ⟨fun he => ?_, fun hb => hid x hb.1 hb.2⟩, hid _ hm.1 hm.2⟩
  rw [← he]
  exact hm

/-- `Formulas_set_range` on three numbers of `C_float` is the number
`Formulas_set_range` gives on their values. -/
theorem set_range_num (x l u : γ) :
    Formulas_set_range (C_float.num x) (C_float.num l) (C_float.num u) =
      C_float.num (Formulas_set_range x l u) := by
  unfold Formulas_set_range
  by_cases h1 : x < l
  · rw [if_pos (show C_float.num x < C_float.num l from h1), if_pos h1]
  · rw [if_neg (show ¬ C_float.num x < C_float.num l from h1), if_neg h1]
    by_cases h2 : x > u
    · rw [if_pos (show C_float.num x > C_float.num u from h2), if_pos h2]
    · rw [if_neg (show ¬ C_float.num x > C_float.num u from h2), if_neg h2]

/-- C31, amended: `Formulas_set_range` on `float` values, with the comparisons
of C.  For all `pixel`, `lower`, `upper` with `lower <= upper` and `pixel` not
a NaN, the function returns `lower` if `pixel < lower`, `upper` if
`pixel > upper` and `pixel` otherwise; so the result lies in `[lower, upper]`,
is `pixel` exactly when `pixel` is in `[lower, upper]`, and applying the
function twice with the same bounds gives what applying it once gives. -/
theorem set_range_spec (pixel lower upper : C_float γ) (h : lower ≤ upper)
    (hp : pixel ≠ C_float.nan) :
    (pixel < lower → Formulas_set_range pixel lower upper = lower) ∧
    (pixel > upper → Formulas_set_range pixel lower upper = upper) ∧
    (¬ pixel < lower → ¬ pixel > upper → Formulas_set_range pixel lower upper = pixel) ∧
    (lower ≤ Formulas_set_range pixel lower upper ∧
      Formulas_set_range pixel lower upper ≤ upper) ∧
    (Formulas_set_range pixel lower upper = pixel ↔ lower ≤ pixel ∧ pixel ≤ upper) ∧
    Formulas_set_range (Formulas_set_range pixel lower upper) lower upper =
      Formulas_set_range pixel lower upper := by
  rcases pixel with _ | x
  · exact absurd rfl hp
  · rcases lower with _ | l
    · rcases upper with _ | u
      · exact False.elim h
      · exact False.elim h
    · rcases upper with _ | u
      · exact False.elim h
      · obtain ⟨e1, e2, e3, hm, he, hi⟩ := set_range_order x l u h
        rw [set_range_num, set_range_num]
        exact ⟨fun h1 => congrArg C_float.num (e1 h1), fun h2 => congrArg C_float.num (e2 h2),
          fun n1 n2 => congrArg C_float.num (e3 n1 n2), hm,
          ⟨fun hh => he.mp (C_float.num.inj hh), fun hb => congrArg C_float.num (he.mpr hb)⟩,
          congrArg C_float.num hi⟩

end FloatClamp

/-- Witness of C31: the pixel `3/2` at bounds `[0, 1]` over the rationals. -/
theorem set_range_spec_witness :
    Formulas_set_range (Formulas_set_range (C_float.num (3 / 2 : ℚ)) (C_float.num 0)
      (C_float.num 1)) (C_float.num 0) (C_float.num 1) =
      Formulas_set_range (C_float.num (3 / 2 : ℚ)) (C_float.num 0) (C_float.num 1) ∧
    (C_float.num (3 / 2 : ℚ) > C_float.num 1 →
      Formulas_set_range (C_float.num (3 / 2 : ℚ)) (C_float.num 0) (C_float.num 1) =
        C_float.num 1) :=
  let t := set_range_spec (C_float.num (3 / 2 : ℚ)) (C_float.num 0) (C_float.num 1)
    (show (0 : ℚ) ≤ 1 by norm_num) (fun hc => C_float.noConfusion hc)
  ⟨t.2.2.2.2.2, t.2.1⟩

/-- Counterexample to C31 as stated: with bounds `0 <= 1` a NaN pixel is below
neither bound and above neither bound, so it is returned as it is, and the
result does not lie in `[0, 1]`. -/
theorem set_range_nan :
    (C_float.num 0 : C_float ℚ) ≤ C_float.num 1 ∧
    Formulas_set_range (C_float.nan : C_float ℚ) (C_float.num 0) (C_float.num 1) =
      C_float.nan ∧
    ¬ ((C_float.num 0 : C_float ℚ) ≤
      Formulas_set_range (C_float.nan : C_float ℚ) (C_float.num 0) (C_float.num 1)) := by
  have e : Formulas_set_range (C_float.nan : C_float ℚ) (C_float.num 0) (C_float.num 1) =
      C_float.nan := by
    unfold Formulas_set_range
    rw [if_neg (show ¬ (C_float.nan : C_float ℚ) < C_float.num 0 from fun hc => hc),
      if_neg (show ¬ (C_float.nan : C_float ℚ) > C_float.num 1 from fun hc => hc)]
  refine ⟨show (0 : ℚ) ≤ 1 by norm_num, e, ?_⟩
  rw [e]
  exact fun hc => hc

section Clamp

variable {α : Type} [LinearOrderedField α]

theorem pixel_clamps_inactive (r g b : α)
    (hr : 0 ≤ r ∧ r ≤ 1) (hg : 0 ≤ g ∧ g ≤ 1) (hb : 0 ≤ b ∧ b ≤ 1) :
    (0 ≤ 299 / 1000 * r + 587 / 1000 * g + 114 / 1000 * b ∧
        299 / 1000 * r + 587 / 1000 * g + 114 / 1000 * b ≤ 1) ∧
      (-(1 / 2) ≤ -(168736 / 1000000) * r - 331264 / 1000000 * g + 1 / 2 * b ∧
        -(168736 / 1000000) * r - 331264 / 1000000 * g + 1 / 2 * b ≤ 1 / 2) ∧
      (-(1 / 2) ≤ 1 / 2 * r - 418688 / 1000000 * g - 81312 / 1000000 * b ∧
        1 / 2 * r - 418688 / 1000000 * g - 81312 / 1000000 * b ≤ 1 / 2) := by
  obtain ⟨r0, r1⟩ := hr
  obtain ⟨g0, g1⟩ := hg
  obtain ⟨b0, b1⟩ := hb
  refine ⟨⟨?_, ?_⟩, ⟨?_, ?_⟩, ⟨?_, ?_⟩⟩ <;> linarith

theorem block_clamps_inactive (y1 y2 y3 y4 : α)
    (h1 : 0 ≤ y1 ∧ y1 ≤ 1) (h2 : 0 ≤ y2 ∧ y2 ≤ 1) (h3 : 0 ≤ y3 ∧ y3 ≤ 1)
    (h4 : 0 ≤ y4 ∧ y4 ≤ 1) :
    (0 ≤ (y1 + y2 + y3 + y4) / 4 ∧ (y1 + y2 + y3 + y4) / 4 ≤ 1) ∧
      (-(1 / 2) ≤ (y4 + y3 - y2 - y1) / 4 ∧ (y4 + y3 - y2 - y1) / 4 ≤ 1 / 2) ∧
      (-(1 / 2) ≤ (y4 - y3 + y2 - y1) / 4 ∧ (y4 - y3 + y2 - y1) / 4 ≤ 1 / 2) ∧
      (-(1 / 2) ≤ (y4 - y3 - y2 + y1) / 4 ∧ (y4 - y3 - y2 + y1) / 4 ≤ 1 / 2) := by
  obtain ⟨l1, u1⟩ := h1
  obtain ⟨l2, u2⟩ := h2
  obtain ⟨l3, u3⟩ := h3
  obtain ⟨l4, u4⟩ := h4
  refine ⟨⟨?_, ?_⟩, ⟨?_, ?_⟩, ⟨?_, ?_⟩, ⟨?_, ?_⟩⟩
  · rw [le_div_iff₀ (by norm_num)]; linarith
  · rw [div_le_iff₀ (by norm_num)]; linarith
  · rw [le_div_iff₀ (by norm_num)]; linarith
  · rw [div_le_iff₀ (by norm_num)]; linarith
  · rw [le_div_iff₀ (by norm_num)]; linarith
  · rw [div_le_iff₀ (by norm_num)]; linarith
  · rw [le_div_iff₀ (by norm_num)]; linarith
  · rw [div_le_iff₀ (by norm_num)]; linarith

/-- C38: on in-range inputs the clamps of the forward stages change nothing,
floats read as exact numbers.  For `r`, `g`, `b` in `[0, 1]` the value
`0.299r + 0.587g + 0.114b` is in `[0, 1]` and the unclamped `pb` and `pr` are in
`[-0.5, 0.5]`; for `y1 .. y4` in `[0, 1]` the unclamped `a` is in `[0, 1]` and
the unclamped `b`, `c`, `d` are in `[-0.5, 0.5]`; so `Formulas_calculate_y`,
`pb`, `pr`, `a`, `b`, `c`, `d` equal their unclamped formulas there. -/
theorem clamps_inactive (r g b y1 y2 y3 y4 : α)
    (hr : 0 ≤ r ∧ r ≤ 1) (hg : 0 ≤ g ∧ g ≤ 1) (hb : 0 ≤ b ∧ b ≤ 1)
    (h1 : 0 ≤ y1 ∧ y1 ≤ 1) (h2 : 0 ≤ y2 ∧ y2 ≤ 1) (h3 : 0 ≤ y3 ∧ y3 ≤ 1)
    (h4 : 0 ≤ y4 ∧ y4 ≤ 1) :
    ((0 ≤ 299 / 1000 * r + 587 / 1000 * g + 114 / 1000 * b ∧
        299 / 1000 * r + 587 / 1000 * g + 114 / 1000 * b ≤ 1) ∧
      (-(1 / 2) ≤ -(168736 / 1000000) * r - 331264 / 1000000 * g + 1 / 2 * b ∧
        -(168736 / 1000000) * r - 331264 / 1000000 * g + 1 / 2 * b ≤ 1 / 2) ∧
      (-(1 / 2) ≤ 1 / 2 * r - 418688 / 1000000 * g - 81312 / 1000000 * b ∧
        1 / 2 * r - 418688 / 1000000 * g - 81312 / 1000000 * b ≤ 1 / 2)) ∧
    (Formulas_calculate_y r g b = 299 / 1000 * r + 587 / 1000 * g + 114 / 1000 * b ∧
      Formulas_calculate_pb r g b =
        -(168736 / 1000000) * r - 331264 / 1000000 * g + 1 / 2 * b ∧
      Formulas_calculate_pr r g b =
        1 / 2 * r - 418688 / 1000000 * g - 81312 / 1000000 * b) ∧
    ((0 ≤ (y1 + y2 + y3 + y4) / 4 ∧ (y1 + y2 + y3 + y4) / 4 ≤ 1) ∧
      (-(1 / 2) ≤ (y4 + y3 - y2 - y1) / 4 ∧ (y4 + y3 - y2 - y1) / 4 ≤ 1 / 2) ∧
      (-(1 / 2) ≤ (y4 - y3 + y2 - y1) / 4 ∧ (y4 - y3 + y2 - y1) / 4 ≤ 1 / 2) ∧
      (-(1 / 2) ≤ (y4 - y3 - y2 + y1) / 4 ∧ (y4 - y3 - y2 + y1) / 4 ≤ 1 / 2)) ∧
    (Formulas_calculate_a y1 y2 y3 y4 = (y1 + y2 + y3 + y4) / 4 ∧
      Formulas_calculate_b y1 y2 y3 y4 = (y4 + y3 - y2 - y1) / 4 ∧
      Formulas_calculate_c y1 y2 y3 y4 = (y4 - y3 + y2 - y1) / 4 ∧
      Formulas_calculate_d y1 y2 y3 y4 = (y4 - y3 - y2 + y1) / 4) := by
  obtain ⟨ey, epb, epr⟩ := pixel_clamps_inactive r g b hr hg hb
  obtain ⟨ea, eb, ec, ed⟩ := block_clamps_inactive y1 y2 y3 y4 h1 h2 h3 h4
  have cy : Formulas_calculate_y r g b =
      299 / 1000 * r + 587 / 1000 * g + 114 / 1000 * b := by
    unfold Formulas_calculate_y MIN_Y MAX_Y
    exact set_range_id ey.1 ey.2
  have cpb : Formulas_calculate_pb r g b =
      -(168736 / 1000000) * r - 331264 / 1000000 * g + 1 / 2 * b := by
    unfold Formulas_calculate_pb MIN_PBR MAX_PBR
    exact set_range_id epb.1 epb.2
  have cpr : Formulas_calculate_pr r g b =
      1 / 2 * r - 418688 / 1000000 * g - 81312 / 1000000 * b := by
    unfold Formulas_calculate_pr MIN_PBR MAX_PBR
    exact set_range_id epr.1 epr.2
  have ca : Formulas_calculate_a y1 y2 y3 y4 = (y1 + y2 + y3 + y4) / 4 := by
    show Formulas_set_range (Formulas_average [y1, y2, y3, y4] 4) 0 1 = _
    rw [average_four]
    exact set_range_id ea.1 ea.2
  have cb : Formulas_calculate_b y1 y2 y3 y4 = (y4 + y3 - y2 - y1) / 4 := by
    unfold Formulas_calculate_b MIN_BCD MAX_BCD
    exact set_range_id eb.1 eb.2
  have cc : Formulas_calculate_c y1 y2 y3 y4 = (y4 - y3 + y2 - y1) / 4 := by
    unfold Formulas_calculate_c MIN_BCD MAX_BCD
    exact set_range_id ec.1 ec.2
  have cd : Formulas_calculate_d y1 y2 y3 y4 = (y4 - y3 - y2 + y1) / 4 := by
    unfold Formulas_calculate_d MIN_BCD MAX_BCD
    exact set_range_id ed.1 ed.2
  exact ⟨⟨ey, epb, epr⟩, ⟨cy, cpb, cpr⟩, ⟨ea, eb, ec, ed⟩, ⟨ca, cb, cc, cd⟩⟩

end Clamp

/-- Witness of C38: the pixel `(1, 1/2, 0)` and the lumas `0, 1/2, 1, 1/4`. -/
theorem clamps_inactive_witness :
    Formulas_calculate_pb (1 : ℚ) (1 / 2) 0 =
      -(168736 / 1000000) * 1 - 331264 / 1000000 * (1 / 2) + 1 / 2 * 0 ∧
    Formulas_calculate_b (0 : ℚ) (1 / 2) 1 (1 / 4) = (1 / 4 + 1 - 1 / 2 - 0) / 4 :=
  let t := clamps_inactive (1 : ℚ) (1 / 2) 0 0 (1 / 2) 1 (1 / 4)
    ⟨by norm_num, by norm_num⟩ ⟨by norm_num, by norm_num⟩ ⟨by norm_num, by norm_num⟩
    ⟨by norm_num, by norm_num⟩ ⟨by norm_num, by norm_num⟩ ⟨by norm_num, by norm_num⟩
    ⟨by norm_num, by norm_num⟩
  ⟨t.2.1.2.1, t.2.2.2.2.1⟩

/-! ## The shift helpers and stores into any word -/

/-- C40: the shift helpers.  For every `n` and every `width ≥ 64`,
`shift_leftu`, `shift_rightu`, `shift_lefts` and `shift_rights` return 0, also
`shift_rights` on a negative `n`; for `width < 64`, `shift_leftu n width` is
`(n * 2 ^ width) mod 2 ^ 64`, `shift_rightu n width` is `n / 2 ^ width` rounded
down and `shift_rights n width` is the signed `n / 2 ^ width` rounded down (an
arithmetic shift). -/
theorem shift_helpers (n : Nat) (s : Int) (width : Nat) :
    (64 ≤ width →
      shift_leftu n width = 0 ∧ shift_rightu n width = 0 ∧ shift_lefts s width = 0 ∧
      shift_rights s width = 0 ∧ shift_rights (-1) width = 0) ∧
    (width < 64 →
      shift_leftu n width = (n * 2 ^ width) % 2 ^ 64 ∧
      shift_rightu n width = n / 2 ^ width ∧
      shift_rights s width = ⌊(s : ℚ) / ((2 ^ width : Nat) : ℚ)⌋) := by
  constructor
  · intro h
    have hn : ¬ width < MAX_WIDTH := by
      unfold MAX_WIDTH
      omega
    unfold shift_leftu shift_rightu shift_lefts shift_rights
    simp only [if_neg hn, and_self]
  · intro h
    have hp : width < MAX_WIDTH := h
    unfold shift_leftu shift_rightu shift_rights
    rw [if_pos hp, if_pos hp, if_pos hp, Nat.shiftLeft_eq, Nat.shiftRight_eq_div_pow,
      Rat.floor_intCast_div_natCast]
    refine ⟨rfl, rfl, ?_⟩
    push_cast
    rfl

/-- Witness of C40: shifts by 64 and by 3. -/
theorem shift_helpers_witness :
    (shift_leftu 5 64 = 0 ∧ shift_rightu 5 64 = 0 ∧ shift_lefts (-5) 64 = 0 ∧
      shift_rights (-5) 64 = 0 ∧ shift_rights (-1) 64 = 0) ∧
    (shift_leftu 5 3 = (5 * 2 ^ 3) % 2 ^ 64 ∧ shift_rightu 5 3 = 5 / 2 ^ 3 ∧
      shift_rights (-5) 3 = ⌊((-5 : Int) : ℚ) / ((2 ^ 3 : Nat) : ℚ)⌋) :=
  ⟨(shift_helpers 5 (-5) 64).1 (by decide), (shift_helpers 5 (-5) 3).2 (by decide)⟩

/-- C33: reading back a stored field does not depend on the prior word.  For
every word, every `1 ≤ w ≤ 64`, every `lsb` with `w + lsb ≤ 64` and every
`v < 2 ^ w`, `Bitpack_newu word w lsb v` returns a word whose field `(w, lsb)`
reads `v` with `Bitpack_getu`; and for every signed `s` that fits in `w` bits,
`Bitpack_news word w lsb s` returns a word whose field reads `s` with
`Bitpack_gets`. -/
theorem get_new_any_word (word w lsb v : Nat) (s : Int) (hw1 : 1 ≤ w) (hw : w ≤ 64)
    (h : w + lsb ≤ 64) :
    (v < 2 ^ w → ∃ r, Bitpack_newu word w lsb v = .ok r ∧ Bitpack_getu r w lsb = .ok v) ∧
    (-2 ^ (w - 1) ≤ s → s < 2 ^ (w - 1) →
      ∃ r, Bitpack_news word w lsb s = .ok r ∧ Bitpack_gets r w lsb = .ok s) := by
  constructor
  · intro hv
    have hfit : Bitpack_fitsu v w = .ok true := by
      rw [fitsu_eq v hw]
      refine congrArg Except.ok ?_
      rw [decide_eq_true_eq]
      omega
    exact ⟨_, newu_eq word h hfit, getu_newu h hv (newu_eq word h hfit)⟩
  · intro hlo hhi
    have hfit : Bitpack_fitss s w = .ok true := by
      rw [fitss_eq s hw]
      refine congrArg Except.ok ?_
      rw [decide_eq_true_eq]
      by_cases h64 : w = 64
      · exact Or.inl h64
      · exact Or.inr ⟨hw1, by omega, hlo, hhi⟩
    have hm : (s % 2 ^ w).toNat < 2 ^ w := by
      have h2 : (0 : Int) ≤ s % 2 ^ w := Int.emod_nonneg _ (by positivity)
      have h3 : s % 2 ^ w < 2 ^ w := Int.emod_lt_of_pos _ (by positivity)
      apply Int.ofNat_lt.mp
      rw [Int.toNat_of_nonneg h2]
      exact_mod_cast h3
    have hst := newu_eq word h (fitsu_encoding s hw1 hw)
    have hg := getu_newu h hm hst
    rw [getu_eq _ h] at hg
    injection hg with hg
    rw [← news_eq word h hfit] at hst
    refine ⟨_, hst, ?_⟩
    rw [gets_eq _ hw1 h, hg, sign_extend_encoding hw1 hlo hhi]

/-- Witness of C33: stores into the all-ones word. -/
theorem get_new_any_word_witness :
    (∃ r, Bitpack_newu (2 ^ 64 - 1) 6 4 47 = .ok r ∧ Bitpack_getu r 6 4 = .ok 47) ∧
    (∃ r, Bitpack_news (2 ^ 64 - 1) 5 18 (-16) = .ok r ∧ Bitpack_gets r 5 18 = .ok (-16)) :=
  let t := get_new_any_word (2 ^ 64 - 1) 6 4 47 0 (by decide) (by decide) (by decide)
  let u := get_new_any_word (2 ^ 64 - 1) 5 18 0 (-16) (by decide) (by decide) (by decide)
  ⟨t.1 (by decide), u.2 (by decide) (by decide)⟩

/-! ## Decoding any word -/

/-- The fields `apply_word2dct` reads from any word. -/
theorem word2dct_any (word : Nat) :
    apply_word2dct word = .ok
      { a := word / 2 ^ 23 % 2 ^ 9,
        b := if ((word / 2 ^ 18 % 2 ^ 5 : Nat) : Int) < 2 ^ (5 - 1)
          then ((word / 2 ^ 18 % 2 ^ 5 : Nat) : Int)
          else ((word / 2 ^ 18 % 2 ^ 5 : Nat) : Int) - 2 ^ 5,
        c := if ((word / 2 ^ 13 % 2 ^ 5 : Nat) : Int) < 2 ^ (5 - 1)
          then ((word / 2 ^ 13 % 2 ^ 5 : Nat) : Int)
          else ((word / 2 ^ 13 % 2 ^ 5 : Nat) : Int) - 2 ^ 5,
        d := if ((word / 2 ^ 8 % 2 ^ 5 : Nat) : Int) < 2 ^ (5 - 1)
          then ((word / 2 ^ 8 % 2 ^ 5 : Nat) : Int)
          else ((word / 2 ^ 8 % 2 ^ 5 : Nat) : Int) - 2 ^ 5,
        pb := word / 2 ^ 4 % 2 ^ 4,
        pr := word / 2 ^ 0 % 2 ^ 4 } := by
  have ga : Bitpack_getu word 9 23 = .ok (word / 2 ^ 23 % 2 ^ 9) :=
    getu_eq word (by decide)
  have gpb : Bitpack_getu word 4 4 = .ok (word / 2 ^ 4 % 2 ^ 4) :=
    getu_eq word (by decide)
  have gpr : Bitpack_getu word 4 0 = .ok (word / 2 ^ 0 % 2 ^ 4) :=
    getu_eq word (by decide)
  have gb := gets_eq word (show 1 ≤ 5 by decide) (show 5 + 18 ≤ 64 by decide)
  have gc := gets_eq word (show 1 ≤ 5 by decide) (show 5 + 13 ≤ 64 by decide)
  have gd := gets_eq word (show 1 ≤ 5 by decide) (show 5 + 8 ≤ 64 by decide)
  unfold apply_word2dct A_WIDTH A_LSB BCD_WIDTH B_LSB C_LSB D_LSB PBR_WIDTH PB_LSB PR_LSB
  rw [ga, gb, gc, gd, gpb, gpr]
  rfl

/-- The signed value of a 5-bit field and its encoding. -/
theorem sign_extend_field {b : Nat} (hb : b < 32) :
    -16 ≤ (if (b : Int) < 2 ^ (5 - 1) then (b : Int) else (b : Int) - 2 ^ 5) ∧
    (if (b : Int) < 2 ^ (5 - 1) then (b : Int) else (b : Int) - 2 ^ 5) ≤ 15 ∧
    ((if (b : Int) < 2 ^ (5 - 1) then (b : Int) else (b : Int) - 2 ^ 5) % 32).toNat = b := by
  have e1 : (2 : Int) ^ (5 - 1) = 16 := by norm_num
  have e2 : (2 : Int) ^ 5 = 32 := by norm_num
  rw [e1, e2]
  split_ifs with h
  · omega
  · omega

/-- The fields of any word below `2 ^ 32` are a codeword tuple that packs to
the word. -/
theorem word2dct_repack (w : Nat) (hw : w < 2 ^ 32) :
    ∃ comp, apply_word2dct w = .ok comp ∧
      comp.a ≤ 511 ∧ (-16 ≤ comp.b ∧ comp.b ≤ 15) ∧ (-16 ≤ comp.c ∧ comp.c ≤ 15) ∧
      (-16 ≤ comp.d ∧ comp.d ≤ 15) ∧ comp.pb ≤ 15 ∧ comp.pr ≤ 15 ∧
      apply_dct2word comp = .ok w := by
  have hb : w / 2 ^ 18 % 2 ^ 5 < 32 := by omega
  have hc : w / 2 ^ 13 % 2 ^ 5 < 32 := by omega
  have hd : w / 2 ^ 8 % 2 ^ 5 < 32 := by omega
  obtain ⟨b1, b2, b3⟩ := sign_extend_field hb
  obtain ⟨c1, c2, c3⟩ := sign_extend_field hc
  obtain ⟨d1, d2, d3⟩ := sign_extend_field hd
  have hA : w / 2 ^ 23 % 2 ^ 9 ≤ 511 := by omega
  have hPb : w / 2 ^ 4 % 2 ^ 4 ≤ 15 := by omega
  have hPr : w / 2 ^ 0 % 2 ^ 4 ≤ 15 := by omega
  refine ⟨_, word2dct_any w, hA, ⟨b1, b2⟩, ⟨c1, c2⟩, ⟨d1, d2⟩, hPb, hPr, ?_⟩
  rw [dct2word_eq hA ⟨b1, b2⟩ ⟨c1, c2⟩ ⟨d1, d2⟩ hPb hPr, b3, c3, d3]
  refine congrArg Except.ok ?_
  omega

/-- C34: every 32-bit word is a valid codeword and repacks to itself.  For
every `w < 2 ^ 32`, `apply_word2dct` returns fields with `A` in `[0, 511]`,
`B`, `C`, `D` in `[-16, 15]` and `Pb`, `Pr` in `[0, 15]`, and `apply_dct2word`
of these six fields returns `w`. -/
theorem word_repacks (w : Nat) (hw : w < 2 ^ 32) :
    ∃ comp, apply_word2dct w = .ok comp ∧
      comp.a ≤ 511 ∧ (-16 ≤ comp.b ∧ comp.b ≤ 15) ∧ (-16 ≤ comp.c ∧ comp.c ≤ 15) ∧
      (-16 ≤ comp.d ∧ comp.d ≤ 15) ∧ comp.pb ≤ 15 ∧ comp.pr ≤ 15 ∧
      apply_dct2word comp = .ok w :=
  word2dct_repack w hw

/-- Witness of C34: the word `0xFFFFFFFF`. -/
theorem word_repacks_witness :
    ∃ comp, apply_word2dct 0xFFFFFFFF = .ok comp ∧
      comp.a ≤ 511 ∧ (-16 ≤ comp.b ∧ comp.b ≤ 15) ∧ (-16 ≤ comp.c ∧ comp.c ≤ 15) ∧
      (-16 ≤ comp.d ∧ comp.d ≤ 15) ∧ comp.pb ≤ 15 ∧ comp.pr ≤ 15 ∧
      apply_dct2word comp = .ok 0xFFFFFFFF :=
  word_repacks 0xFFFFFFFF (by norm_num)

section Decoding

variable {α : Type} [LinearOrderedField α]

/-- C35: decoding stays inside the bit field limits and the chroma table.  The
six `(width, lsb)` pairs of `apply_word2dct` pass the range assertions of
`Bitpack` (`width ≤ 64`, `width + lsb ≤ 64`), so for every word the six reads
return; the `Pb` and `Pr` read are below 16, and what `apply_unquantize_dct`
computes from them depends only on the entries 0 to 15 of the chroma table. -/
theorem decode_in_bounds (word : Nat) :
    ((A_WIDTH ≤ MAX_WIDTH ∧ A_WIDTH + A_LSB ≤ MAX_WIDTH) ∧
      (BCD_WIDTH ≤ MAX_WIDTH ∧ BCD_WIDTH + B_LSB ≤ MAX_WIDTH) ∧
      (BCD_WIDTH ≤ MAX_WIDTH ∧ BCD_WIDTH + C_LSB ≤ MAX_WIDTH) ∧
      (BCD_WIDTH ≤ MAX_WIDTH ∧ BCD_WIDTH + D_LSB ≤ MAX_WIDTH) ∧
      (PBR_WIDTH ≤ MAX_WIDTH ∧ PBR_WIDTH + PB_LSB ≤ MAX_WIDTH) ∧
      (PBR_WIDTH ≤ MAX_WIDTH ∧ PBR_WIDTH + PR_LSB ≤ MAX_WIDTH)) ∧
    (in_range (uadd A_WIDTH A_LSB) = true ∧ in_range (uadd BCD_WIDTH B_LSB) = true ∧
      in_range (uadd BCD_WIDTH C_LSB) = true ∧ in_range (uadd BCD_WIDTH D_LSB) = true ∧
      in_range (uadd PBR_WIDTH PB_LSB) = true ∧ in_range (uadd PBR_WIDTH PR_LSB) = true) ∧
    ∃ comp, apply_word2dct word = .ok comp ∧ comp.pb < 16 ∧ comp.pr < 16 ∧
      ∀ table other : Nat → α, (∀ index < 16, table index = other index) →
        apply_unquantize_dct table comp = apply_unquantize_dct other comp := by
  refine ⟨by decide, by decide, _, word2dct_any word, ?_, ?_, ?_⟩
  · show word / 2 ^ 4 % 2 ^ 4 < 16
    omega
  · show word / 2 ^ 0 % 2 ^ 4 < 16
    omega
  · intro table other h
    have hpb : word / 2 ^ 4 % 2 ^ 4 < 16 := by omega
    have hpr : word / 2 ^ 0 % 2 ^ 4 < 16 := by omega
    unfold apply_unquantize_dct
    simp only [h _ hpb, h _ hpr]

/-- C32: the range of a decoded tuple, floats read as exact numbers.  For every
word the tuple `apply_word2dct` and `apply_unquantize_dct` produce has `a` in
`[0, 1]` and `b`, `c`, `d` in `[-0.32, 0.3]`; the lower bound is attained: the
word `0x00400000`, whose `B` field is `-16`, gives `b = -0.32`, below the
`-0.3` that the comments of `apply_unquantize_dct` announce. -/
theorem unquantize_range (chroma_of_index : Nat → α) (word : Nat) :
    (∃ comp, apply_word2dct word = .ok comp ∧
      (0 ≤ (apply_unquantize_dct chroma_of_index comp).a ∧
        (apply_unquantize_dct chroma_of_index comp).a ≤ 1) ∧
      (-(8 / 25) ≤ (apply_unquantize_dct chroma_of_index comp).b ∧
        (apply_unquantize_dct chroma_of_index comp).b ≤ 3 / 10) ∧
      (-(8 / 25) ≤ (apply_unquantize_dct chroma_of_index comp).c ∧
        (apply_unquantize_dct chroma_of_index comp).c ≤ 3 / 10) ∧
      (-(8 / 25) ≤ (apply_unquantize_dct chroma_of_index comp).d ∧
        (apply_unquantize_dct chroma_of_index comp).d ≤ 3 / 10)) ∧
    apply_word2dct 0x00400000 =
      .ok { a := 0, b := -16, c := 0, d := 0, pb := 0, pr := 0 } ∧
    (apply_unquantize_dct chroma_of_index
      { a := 0, b := -16, c := 0, d := 0, pb := 0, pr := 0 }).b = -(8 / 25) ∧
    (-(8 / 25) : α) < -(3 / 10) := by
  have key : ∀ B : Int, -16 ≤ B → B ≤ 15 →
      -(8 / 25) ≤ Formulas_inverse_quantize (B : α) BCD_DENOM BCD_RANGE ∧
      Formulas_inverse_quantize (B : α) BCD_DENOM BCD_RANGE ≤ 3 / 10 := by
    intro B h1 h2
    have c1 : (-16 : α) ≤ (B : α) := by exact_mod_cast h1
    have c2 : (B : α) ≤ 15 := by exact_mod_cast h2
    unfold Formulas_inverse_quantize BCD_DENOM BCD_RANGE
    constructor
    · rw [div_mul_eq_mul_div, le_div_iff₀ (by norm_num)]
      linarith
    · rw [div_mul_eq_mul_div, div_le_iff₀ (by norm_num)]
      linarith
  refine ⟨?_, by decide, ?_, by norm_num⟩
  · obtain ⟨hb1, hb2, _⟩ := sign_extend_field (show word / 2 ^ 18 % 2 ^ 5 < 32 by omega)
    obtain ⟨hc1, hc2, _⟩ := sign_extend_field (show word / 2 ^ 13 % 2 ^ 5 < 32 by omega)
    obtain ⟨hd1, hd2, _⟩ := sign_extend_field (show word / 2 ^ 8 % 2 ^ 5 < 32 by omega)
    refine ⟨_, word2dct_any word, ?_, key _ hb1 hb2, key _ hc1 hc2, key _ hd1 hd2⟩
    have hA : word / 2 ^ 23 % 2 ^ 9 ≤ 511 := by omega
    have c0 : (0 : α) ≤ ((word / 2 ^ 23 % 2 ^ 9 : Nat) : α) := Nat.cast_nonneg _
    have c1 : ((word / 2 ^ 23 % 2 ^ 9 : Nat) : α) ≤ 511 := by exact_mod_cast hA
    show 0 ≤ Formulas_inverse_quantize ((word / 2 ^ 23 % 2 ^ 9 : Nat) : α) 1 A_RANGE ∧
      Formulas_inverse_quantize ((word / 2 ^ 23 % 2 ^ 9 : Nat) : α) 1 A_RANGE ≤ 1
    unfold Formulas_inverse_quantize A_RANGE
    constructor
    · rw [mul_one, le_div_iff₀ (by norm_num)]
      linarith
    · rw [mul_one, div_le_iff₀ (by norm_num)]
      linarith
  · show Formulas_inverse_quantize (((-16 : Int)) : α) BCD_DENOM BCD_RANGE = -(8 / 25)
    unfold Formulas_inverse_quantize BCD_DENOM BCD_RANGE
    norm_num

end Decoding

/-- Witness of C35: the word with all 64 bits set. -/
theorem decode_in_bounds_witness :
    ∃ comp, apply_word2dct (2 ^ 64 - 1) = .ok comp ∧ comp.pb < 16 ∧ comp.pr < 16 :=
  let t := (decode_in_bounds (α := ℚ) (2 ^ 64 - 1)).2.2
  ⟨t.choose, t.choose_spec.1, t.choose_spec.2.1, t.choose_spec.2.2.1⟩

/-! ## Quantizing and dequantizing -/

section Requantize

variable {α : Type} [LinearOrderedField α] [FloorRing α]

theorem roundf_inverse (q : Int) {denom upper : α} (hd : denom ≠ 0) (hu : upper ≠ 0) :
    roundf ((Formulas_inverse_quantize (q : α) denom upper / denom) * upper) = q := by
  unfold Formulas_inverse_quantize
  have e : (q : α) / upper * denom / denom * upper = (q : α) := by
    field_simp
    ring
  rw [e]
  exact roundf_intCast q

theorem quantize_inverse (q : Int) {denom upper : α} (hd : denom ≠ 0) (hu : upper ≠ 0)
    (h1 : -2 ^ 31 ≤ q) (h2 : q < 2 ^ 31) :
    Formulas_quantize (Formulas_inverse_quantize (q : α) denom upper) denom upper = q := by
  have hr := roundf_inverse (α := α) q hd hu
  rw [quantize_eq _ denom upper (by rw [hr]; exact h1) (by rw [hr]; exact h2)]
  exact hr

omit [FloorRing α] in
theorem inverse_bcd_mem {B : Int} (h1 : -15 ≤ B) (h2 : B ≤ 15) :
    -1 * BCD_DENOM ≤ Formulas_inverse_quantize (B : α) BCD_DENOM BCD_RANGE ∧
    Formulas_inverse_quantize (B : α) BCD_DENOM BCD_RANGE ≤ BCD_DENOM := by
  have c1 : (-15 : α) ≤ (B : α) := by exact_mod_cast h1
  have c2 : (B : α) ≤ 15 := by exact_mod_cast h2
  unfold Formulas_inverse_quantize BCD_DENOM BCD_RANGE
  constructor
  · rw [div_mul_eq_mul_div, le_div_iff₀ (by norm_num)]
    linarith
  · rw [div_mul_eq_mul_div, div_le_iff₀ (by norm_num)]
    linarith

theorem requantize_bcd {B : Int} (h1 : -15 ≤ B) (h2 : B ≤ 15) :
    Formulas_quantize (Formulas_set_range
      (Formulas_inverse_quantize (B : α) BCD_DENOM BCD_RANGE) (-1 * BCD_DENOM) BCD_DENOM)
      BCD_DENOM BCD_RANGE = B := by
  obtain ⟨m1, m2⟩ := inverse_bcd_mem (α := α) h1 h2
  rw [set_range_id m1 m2]
  apply quantize_inverse
  · unfold BCD_DENOM
    norm_num
  · unfold BCD_RANGE
    norm_num
  · omega
  · omega

/-- C36, amended: quantizing a dequantized value gives the value back, floats
read as exact numbers.  For every integer `q` that is a value of `signed`
(`-2 ^ 31 ≤ q < 2 ^ 31`) and non-zero `denom` and `upper`,
`Formulas_quantize (Formulas_inverse_quantize q denom upper) denom upper = q`.
In particular for a tuple with `A` in `[0, 511]` and `B`, `C`, `D` in
`[-15, 15]`, `apply_quantize_dct` of `apply_unquantize_dct` of the tuple has
the same `a`, `b`, `c`, `d`, and the clamp to `[-0.3, 0.3]` that precedes the
quantization of `b`, `c`, `d` leaves the dequantized value unchanged. -/
theorem requantize_identity (q : Int) (denom upper : α) (index_of_chroma : α → Nat)
    (chroma_of_index : Nat → α) (comp : Word_component)
    (hq : -2 ^ 31 ≤ q ∧ q < 2 ^ 31)
    (hd : denom ≠ 0) (hu : upper ≠ 0) (hA : comp.a ≤ 511)
    (hB : -15 ≤ comp.b ∧ comp.b ≤ 15) (hC : -15 ≤ comp.c ∧ comp.c ≤ 15)
    (hD : -15 ≤ comp.d ∧ comp.d ≤ 15) :
    Formulas_quantize (Formulas_inverse_quantize (q : α) denom upper) denom upper = q ∧
    Formulas_set_range (Formulas_inverse_quantize (comp.b : α) BCD_DENOM BCD_RANGE)
      (-1 * BCD_DENOM) BCD_DENOM = Formulas_inverse_quantize (comp.b : α) BCD_DENOM BCD_RANGE ∧
    (apply_quantize_dct index_of_chroma (apply_unquantize_dct chroma_of_index comp)).a =
      comp.a ∧
    (apply_quantize_dct index_of_chroma (apply_unquantize_dct chroma_of_index comp)).b =
      comp.b ∧
    (apply_quantize_dct index_of_chroma (apply_unquantize_dct chroma_of_index comp)).c =
      comp.c ∧
    (apply_quantize_dct index_of_chroma (apply_unquantize_dct chroma_of_index comp)).d =
      comp.d := by
  refine ⟨quantize_inverse q hd hu hq.1 hq.2,
    set_range_id (inverse_bcd_mem hB.1 hB.2).1 (inverse_bcd_mem hB.1 hB.2).2, ?_,
    requantize_bcd hB.1 hB.2, requantize_bcd hC.1 hC.2, requantize_bcd hD.1 hD.2⟩
  show to_u64 (Formulas_quantize (Formulas_inverse_quantize ((comp.a : Nat) : α) 1 A_RANGE)
    1 A_RANGE) = comp.a
  have e : ((comp.a : Nat) : α) = (((comp.a : Nat) : Int) : α) := by push_cast; rfl
  rw [e, quantize_inverse _ one_ne_zero (by unfold A_RANGE; norm_num) (by omega) (by omega)]
  unfold to_u64
  omega

/-- C37, amended: the quantization error, floats read as exact numbers.  For
every `x` whose rounded value `roundf ((x / denom) * upper)` is a value of
`signed` (from `-2 ^ 31` to `2 ^ 31 - 1`) and positive `denom` and `upper`,
dequantizing the quantized `x` gives a value within `denom / (2 * upper)` of
`x`; so for a block with `a` in `[0, 1]` the
`a` that `apply_unquantize_dct` rebuilds from `apply_quantize_dct` is within
`1 / 1022` of `a`, and for `b` in `[-0.3, 0.3]` the rebuilt `b` is within
`0.01` of `b` (likewise `c` and `d`). -/
theorem quantize_error (x denom upper : α) (index_of_chroma : α → Nat)
    (chroma_of_index : Nat → α) (block : DCT α)
    (hx : -2 ^ 31 ≤ roundf ((x / denom) * upper) ∧ roundf ((x / denom) * upper) < 2 ^ 31)
    (hd : 0 < denom) (hu : 0 < upper)
    (ha : 0 ≤ block.a ∧ block.a ≤ 1)
    (hb : -(3 / 10) ≤ block.b ∧ block.b ≤ 3 / 10)
    (hc : -(3 / 10) ≤ block.c ∧ block.c ≤ 3 / 10)
    (hdd : -(3 / 10) ≤ block.d ∧ block.d ≤ 3 / 10) :
    |Formulas_inverse_quantize ((Formulas_quantize x denom upper : Int) : α) denom upper - x| ≤
      denom / (2 * upper) ∧
    |(apply_unquantize_dct chroma_of_index (apply_quantize_dct index_of_chroma block)).a -
      block.a| ≤ 1 / 1022 ∧
    |(apply_unquantize_dct chroma_of_index (apply_quantize_dct index_of_chroma block)).b -
      block.b| ≤ 1 / 100 ∧
    |(apply_unquantize_dct chroma_of_index (apply_quantize_dct index_of_chroma block)).c -
      block.c| ≤ 1 / 100 ∧
    |(apply_unquantize_dct chroma_of_index (apply_quantize_dct index_of_chroma block)).d -
      block.d| ≤ 1 / 100 := by
  have key : ∀ (y d u : α), 0 < d → 0 < u →
      -2 ^ 31 ≤ roundf ((y / d) * u) → roundf ((y / d) * u) < 2 ^ 31 →
      |Formulas_inverse_quantize ((Formulas_quantize y d u : Int) : α) d u - y| ≤
        d / (2 * u) := by
    intro y d u hd0 hu0 hr1 hr2
    rw [quantize_eq y d u hr1 hr2]
    unfold Formulas_inverse_quantize
    obtain ⟨n1, n2⟩ := roundf_near (y / d * u)
    have hn : |(roundf (y / d * u) : α) - y / d * u| ≤ 1 / 2 := by
      rw [abs_le]
      rcases le_or_lt 0 (y / d * u) with h0 | h0
      · obtain ⟨a1, a2⟩ := n1 h0
        constructor <;> linarith
      · obtain ⟨a1, a2⟩ := n2 h0
        constructor <;> linarith
    have hk : (0 : α) < d / u := div_pos hd0 hu0
    have e : (roundf (y / d * u) : α) / u * d - y =
        ((roundf (y / d * u) : α) - y / d * u) * (d / u) := by
      field_simp
      ring
    rw [e, abs_mul, abs_of_pos hk]
    calc |(roundf (y / d * u) : α) - y / d * u| * (d / u) ≤ 1 / 2 * (d / u) :=
          mul_le_mul_of_nonneg_right hn (le_of_lt hk)
      _ = d / (2 * u) := by field_simp
  have kb : ∀ b : α, -(3 / 10) ≤ b → b ≤ 3 / 10 →
      |Formulas_inverse_quantize ((Formulas_quantize
        (Formulas_set_range b (-1 * BCD_DENOM) BCD_DENOM) BCD_DENOM BCD_RANGE : Int) : α)
        BCD_DENOM BCD_RANGE - b| ≤ 1 / 100 := by
    intro b h1 h2
    have hid : Formulas_set_range b (-1 * BCD_DENOM) BCD_DENOM = b := by
      apply set_range_id
      · unfold BCD_DENOM
        linarith
      · unfold BCD_DENOM
        exact h2
    obtain ⟨r1, r2⟩ := roundf_bcd_mem b
    rw [hid] at r1 r2
    rw [hid]
    have h := key b BCD_DENOM BCD_RANGE (by unfold BCD_DENOM; norm_num)
      (by unfold BCD_RANGE; norm_num) (by omega) (by omega)
    have e : (BCD_DENOM : α) / (2 * BCD_RANGE) = 1 / 100 := by
      unfold BCD_DENOM BCD_RANGE
      norm_num
    rw [e] at h
    exact h
  refine ⟨key x denom upper hd hu hx.1 hx.2, ?_, kb _ hb.1 hb.2, kb _ hc.1 hc.2,
    kb _ hdd.1 hdd.2⟩
  obtain ⟨q0, q1⟩ := quantize_a_mem ha.1 ha.2
  obtain ⟨ra0, ra1⟩ := roundf_a_mem ha.1 ha.2
  have h := key block.a 1 A_RANGE one_pos (by unfold A_RANGE; norm_num) (by omega) (by omega)
  have e : (1 : α) / (2 * A_RANGE) = 1 / 1022 := by
    unfold A_RANGE
    norm_num
  rw [e] at h
  show |Formulas_inverse_quantize
    ((to_u64 (Formulas_quantize block.a 1 A_RANGE) : Nat) : α) 1 A_RANGE - block.a| ≤ 1 / 1022
  have ec : ((to_u64 (Formulas_quantize block.a 1 A_RANGE) : Nat) : α) =
      ((Formulas_quantize block.a 1 A_RANGE : Int) : α) := by
    have : ((to_u64 (Formulas_quantize block.a 1 A_RANGE) : Nat) : Int) =
        Formulas_quantize block.a 1 A_RANGE := by
      unfold to_u64
      omega
    rw [← Int.cast_natCast, this]
  rw [ec]
  exact h

end Requantize

/-- Witness of C36: `q = -7` with `(0.3, 15)` and the tuple
`(300, -15, 15, -1)` over the rationals. -/
theorem requantize_identity_witness :
    Formulas_quantize (Formulas_inverse_quantize (((-7 : Int)) : ℚ) (3 / 10) 15) (3 / 10) 15 =
      -7 ∧
    (apply_quantize_dct (fun _ : ℚ => 0) (apply_unquantize_dct (fun _ => (0 : ℚ))
      { a := 300, b := -15, c := 15, d := -1, pb := 0, pr := 0 })).b = -15 :=
  let t := requantize_identity (-7 : Int) (3 / 10 : ℚ) 15 (fun _ : ℚ => 0) (fun _ => (0 : ℚ))
    { a := 300, b := -15, c := 15, d := -1, pb := 0, pr := 0 }
    ⟨by norm_num, by norm_num⟩
    (by norm_num) (by norm_num) (by decide) ⟨by decide, by decide⟩ ⟨by decide, by decide⟩
    ⟨by decide, by decide⟩
  ⟨t.1, t.2.2.2.1⟩

/-- Counterexample to C36 as stated: the integer `q = 2 ^ 31` with
`denom = upper = 1` is dequantized to `2 ^ 31` and quantized to `-2 ^ 31`. -/
theorem requantize_beyond_signed :
    Formulas_quantize (Formulas_inverse_quantize (((2 ^ 31 : Int)) : ℚ) 1 1) 1 1 = -2 ^ 31 ∧
    Formulas_quantize (Formulas_inverse_quantize (((2 ^ 31 : Int)) : ℚ) 1 1) 1 1 ≠
      (2 ^ 31 : Int) := by
  have hq : Formulas_quantize (Formulas_inverse_quantize (((2 ^ 31 : Int)) : ℚ) 1 1) 1 1 =
      -2 ^ 31 := by
    unfold Formulas_quantize
    rw [roundf_inverse (2 ^ 31) one_ne_zero one_ne_zero]
    exact to_signed_above (le_refl _)
  refine ⟨hq, ?_⟩
  rw [hq]
  norm_num

/-- Witness of C37: `x = 1/3` with `(1, 511)` and a block over the rationals. -/
theorem quantize_error_witness :
    |Formulas_inverse_quantize ((Formulas_quantize (1 / 3 : ℚ) 1 511 : Int) : ℚ) 1 511 -
      1 / 3| ≤ 1 / (2 * 511) :=
  (quantize_error (1 / 3 : ℚ) 1 511 (fun _ : ℚ => 0) (fun _ => (0 : ℚ))
    { pb := 0, pr := 0, a := 1 / 3, b := 1 / 10, c := -(3 / 10), d := 0 }
    (roundf_int_range (by norm_num) (by norm_num))
    (by norm_num) (by norm_num) ⟨by norm_num, by norm_num⟩ ⟨by norm_num, by norm_num⟩
    ⟨by norm_num, by norm_num⟩ ⟨by norm_num, by norm_num⟩).1

/-- Counterexample to C37 as stated: at `x = 5000000000`, `denom = upper = 1`
the quantized value is `-2 ^ 31` and the dequantized value is farther than
`1 / 2` from `x`. -/
theorem quantize_error_beyond_signed :
    ¬ (|Formulas_inverse_quantize ((Formulas_quantize (5000000000 : ℚ) 1 1 : Int) : ℚ) 1 1 -
      5000000000| ≤ 1 / (2 * 1)) := by
  have e : (5000000000 : ℚ) / 1 * 1 = ((5000000000 : Int) : ℚ) := by norm_num
  have hq : Formulas_quantize (5000000000 : ℚ) 1 1 = -2 ^ 31 := by
    unfold Formulas_quantize
    rw [e, roundf_intCast]
    exact to_signed_above (by norm_num)
  rw [hq]
  unfold Formulas_inverse_quantize
  intro h
  rw [abs_le] at h
  norm_num at h

/-! ## The comparator -/

theorem for_loop_error {σ : Type} (body : Nat → σ → Except Error σ) (e : Error) :
    ∀ (count start : Nat) (state : σ), for_loop body count start state = .error e →
      ∃ i s, start ≤ i ∧ i < start + count ∧ body i s = .error e := by
  intro count
  induction count with
  | zero =>
    intro start state h
    cases h
  | succ n ih =>
    intro start state h
    rw [for_loop] at h
    cases hb : body start state with
    | error e2 =>
      rw [hb] at h
      cases h
      exact ⟨start, state, le_refl _, by omega, hb⟩
    | ok s2 =>
      rw [hb] at h
      obtain ⟨i, s, h1, h2, h3⟩ := ih (start + 1) s2 h
      exact ⟨i, s, by omega, by omega, h3⟩

theorem to_int_id {n : Int} (h0 : 0 ≤ n) (h1 : n < 2 ^ 31) : to_int n = n := by
  unfold to_int
  omega

theorem c_abs_sub {a b : Int} (ha0 : 0 ≤ a) (ha : a < 2 ^ 31) (hb0 : 0 ≤ b)
    (hb : b < 2 ^ 31) : c_abs (to_int (a - b)) = |a - b| := by
  have e : to_int (a - b) = a - b := by
    unfold to_int
    omega
  rw [e]
  unfold c_abs to_int
  rcases le_or_lt 0 (a - b) with h | h
  · rw [abs_of_nonneg h, if_neg (not_lt.mpr h)]
    omega
  · rw [abs_of_neg h, if_pos h]
    omega

section Compare

variable {α : Type} [LinearOrderedField α]

theorem compare_pixel_ok (array1 array2 : UArray2 Pnm_rgb) (denom1 denom2 : Nat)
    (h1 : array1.elems.length = array1.width * array1.height)
    (h2 : array2.elems.length = array2.width * array2.height) {i j : Nat}
    (hi1 : i < array1.width) (hj1 : j < array1.height)
    (hi2 : i < array2.width) (hj2 : j < array2.height) (rmse : α) :
    ∃ out, compare_pixel array1 array2 denom1 denom2 i j rmse = .ok out := by
  obtain ⟨p1, e1, _⟩ := at_wf array1 h1 hi1 hj1
  obtain ⟨p2, e2, _⟩ := at_wf array2 h2 hi2 hj2
  unfold compare_pixel
  simp only [e1, e2]
  exact ⟨_, rfl⟩

/-- C39: the dimension test of `run` in `ppmdiff.c`.  For two images with
dimensions below `2 ^ 31`, `run` prints the dimension error, and reads no pixel
(also when the pixel arrays are empty), exactly when the widths differ by more
than 1 and the heights differ by more than 1; in every other case, also when
only the widths or only the heights differ by more than 1, it compares the
pixels of the common region of two well-formed images and prints an RMSE. -/
theorem run_dimension_check (sqrt : α → α) (image_1 image_2 : Pnm_ppm)
    (hW1 : image_1.width < 2 ^ 31) (hH1 : image_1.height < 2 ^ 31)
    (hW2 : image_2.width < 2 ^ 31) (hH2 : image_2.height < 2 ^ 31) :
    ((1 < |(image_1.width : Int) - image_2.width| ∧
        1 < |(image_1.height : Int) - image_2.height|) →
      run sqrt image_1 image_2 =
        .ok [Output.original image_1.width image_1.height,
          Output.decompressed image_2.width image_2.height, Output.dimension_error]) ∧
    (¬ (1 < |(image_1.width : Int) - image_2.width| ∧
        1 < |(image_1.height : Int) - image_2.height|) →
      image_1.pixels.width = image_1.width → image_1.pixels.height = image_1.height →
      image_1.pixels.elems.length = image_1.width * image_1.height →
      image_2.pixels.width = image_2.width → image_2.pixels.height = image_2.height →
      image_2.pixels.elems.length = image_2.width * image_2.height →
      ∃ value, run sqrt image_1 image_2 =
        .ok [Output.original image_1.width image_1.height,
          Output.decompressed image_2.width image_2.height, Output.rmse value]) := by
  have a1 : to_int (image_1.width : Int) = image_1.width := to_int_id (by omega) (by omega)
  have a2 : to_int (image_1.height : Int) = image_1.height := to_int_id (by omega) (by omega)
  have a3 : to_int (image_2.width : Int) = image_2.width := to_int_id (by omega) (by omega)
  have a4 : to_int (image_2.height : Int) = image_2.height := to_int_id (by omega) (by omega)
  have cw : c_abs (to_int ((image_1.width : Int) - image_2.width)) =
      |(image_1.width : Int) - image_2.width| :=
    c_abs_sub (by omega) (by omega) (by omega) (by omega)
  have ch : c_abs (to_int ((image_1.height : Int) - image_2.height)) =
      |(image_1.height : Int) - image_2.height| :=
    c_abs_sub (by omega) (by omega) (by omega) (by omega)
  constructor
  · intro hc
    unfold run
    dsimp only
    rw [a1, a2, a3, a4, cw, ch]
    rw [if_pos (show |(image_1.width : Int) - image_2.width| > 1 ∧
      |(image_1.height : Int) - image_2.height| > 1 from hc)]
    rfl
  · intro hc hw1 hh1 hl1 hw2 hh2 hl2
    have wf1 : image_1.pixels.elems.length = image_1.pixels.width * image_1.pixels.height := by
      rw [hw1, hh1]
      exact hl1
    have wf2 : image_2.pixels.elems.length = image_2.pixels.width * image_2.pixels.height := by
      rw [hw2, hh2]
      exact hl2
    unfold run
    dsimp only
    rw [a1, a2, a3, a4, cw, ch]
    rw [if_neg (show ¬ (|(image_1.width : Int) - image_2.width| > 1 ∧
      |(image_1.height : Int) - image_2.height| > 1) from hc)]
    generalize heq : for_loop _ _ _ (0 : α) = res
    cases res with
    | ok r => exact ⟨_, rfl⟩
    | error e =>
      exfalso
      obtain ⟨i, s, _, hi, hin⟩ := for_loop_error _ e _ _ _ heq
      obtain ⟨j, s2, _, hj, hcmp⟩ := for_loop_error _ e _ _ _ hin
      have hi1 : i < image_1.pixels.width ∧ i < image_2.pixels.width := by
        rw [hw1, hw2]
        split_ifs at hi <;> omega
      have hj1 : j < image_1.pixels.height ∧ j < image_2.pixels.height := by
        rw [hh1, hh2]
        split_ifs at hj <;> omega
      obtain ⟨out, hout⟩ := compare_pixel_ok image_1.pixels image_2.pixels
        image_1.denominator image_2.denominator wf1 wf2 hi1.1 hj1.1 hi1.2 hj1.2 s2
      rw [hout] at hcmp
      cases hcmp

end Compare

/-- Witness of C39: a 3 x 1 image against a 1 x 1 image.  The widths differ by
2, the heights are equal, and `run` prints an RMSE. -/
theorem run_dimension_check_witness :
    ∃ value : ℚ,
      run (fun x => x)
        { width := 3, height := 1, denominator := 255,
          pixels :=
            { width := 3, height := 1, elems := [⟨255, 0, 0⟩, ⟨0, 255, 0⟩, ⟨1, 2, 3⟩] } }
        { width := 1, height := 1, denominator := 255,
          pixels := { width := 1, height := 1, elems := [⟨0, 0, 0⟩] } } =
        .ok [Output.original 3 1, Output.decompressed 1 1, Output.rmse value] :=
  (run_dimension_check (fun x : ℚ => x)
    { width := 3, height := 1, denominator := 255,
      pixels :=
        { width := 3, height := 1, elems := [⟨255, 0, 0⟩, ⟨0, 255, 0⟩, ⟨1, 2, 3⟩] } }
    { width := 1, height := 1, denominator := 255,
      pixels := { width := 1, height := 1, elems := [⟨0, 0, 0⟩] } }
    (by norm_num) (by norm_num) (by norm_num) (by norm_num)).2
    (by norm_num) rfl rfl rfl rfl rfl rfl

end Compress40
